import Mathlib

/-!
Verification development for the PCD (Point Cloud Data) codec in
`src/native/src/pcd_parser.cpp` and `src/native/pcd_parser/include/pcd_parser/pcd_parser.h`.

Byte buffers are modelled as `List Nat` (each element a byte value).  Pointer
arithmetic of the C code becomes index arithmetic; the output pointer `op`
becomes a growing list together with the declared buffer length `outLen`,
and every bounds check of the source is translated at the place where the
source performs it.  Functions that can `return 0` / `throw` return `Option`
or an explicit result type.
-/

namespace PCD

/-! ## LZF codec (pcd_parser.cpp, lines 7-165)

`lzfDecompress(in_data, in_len, out_data, out_len)` is modelled by
`lzfDecompress input outLen`.  The C function returns the number of bytes
produced, `0` signalling failure; the model distinguishes three outcomes:

* `.ok out`   — the loop consumed the whole input; C returns `out.length`;
* `.err`      — one of the explicit bounds checks fired; C returns `0`;
* `.oobRead`  — the C code executed `*ip++` with `ip = ip_end`, i.e. read
  past the end of the input buffer (undefined behaviour in the source):
  the back-reference branch reads its extension byte and its offset byte
  without any bounds check. -/

inductive LzfDecResult where
  | ok (out : List Nat)
  | err
  | oobRead
deriving DecidableEq, Repr

/-- The byte-by-byte overlapping copy of the back-reference branch
(`for (i = 0; i < len; i++) *op++ = *ref++;`): append `len` bytes read from
position `start` onwards of the (growing) output. -/
def lzfRefCopy : List Nat → Nat → Nat → List Nat
  | out, _, 0 => out
  | out, start, len + 1 => lzfRefCopy (out ++ [out.getD start 0]) (start + 1) len

/-- The `while (ip < ip_end)` loop of `lzfDecompress`. `ip` is the remaining
input, `out` the bytes produced so far (`op - out_data = out.length`). -/
def lzfDecompressLoop (outLen : Nat) (ip out : List Nat) : LzfDecResult :=
  match ip with
  | [] => .ok out
  | ctrl :: ip =>
    if ctrl < 32 then
      -- literal run
      let len := ctrl + 1
      if outLen < out.length + len ∨ ip.length < len then .err
      else lzfDecompressLoop outLen (ip.drop len) (out ++ ip.take len)
    else
      -- back reference; `len == 9` reads one extension byte, then the
      -- offset low byte is read -- both without an input bounds check
      if (ctrl >>> 5) + 2 = 9 then
        match ip with
        | [] => .oobRead
        | extra :: ip =>
          match ip with
          | [] => .oobRead
          | low :: ip =>
            let len := 9 + extra
            let off := ((ctrl &&& 31) <<< 8) + 1 + low
            if outLen < out.length + len ∨ out.length < off then .err
            else lzfDecompressLoop outLen ip (lzfRefCopy out (out.length - off) len)
      else
        match ip with
        | [] => .oobRead
        | low :: ip =>
          let len := (ctrl >>> 5) + 2
          let off := ((ctrl &&& 31) <<< 8) + 1 + low
          if outLen < out.length + len ∨ out.length < off then .err
          else lzfDecompressLoop outLen ip (lzfRefCopy out (out.length - off) len)
termination_by ip.length
decreasing_by
  all_goals simp [List.length_drop]
  all_goals omega

def lzfDecompress (input : List Nat) (outLen : Nat) : LzfDecResult :=
  lzfDecompressLoop outLen input []

/-- Hash of a 3-byte prefix (`lzfCompress`):
`h = ((b0<<8)|b1) ^ (b2<<5); h = (h>>2)^h; h &= HTAB_SIZE-1`. -/
def lzfHash (b0 b1 b2 : Nat) : Nat :=
  let h := ((b0 <<< 8) ||| b1) ^^^ (b2 <<< 5)
  ((h >>> 2) ^^^ h) &&& (16384 - 1)

/-- The literal-run emission shared by both flush sites of `lzfCompress`:
`while (lit_len > 32) { *op++ = 31; memcpy 32; } if (lit_len > 0) { *op++ = lit_len-1; memcpy lit_len; }`. -/
def lzfEmitLiterals (src : List Nat) (lit litLen : Nat) (out : List Nat) : List Nat :=
  if 32 < litLen then
    lzfEmitLiterals src (lit + 32) (litLen - 32) (out ++ 31 :: (src.drop lit).take 32)
  else if 0 < litLen then
    out ++ (litLen - 1) :: (src.drop lit).take litLen
  else out
termination_by litLen

/-- In-loop literal flush before a back-reference, with its bounds check
`if (op + lit_len + 1 >= op_end) return 0`. -/
def lzfFlushLits (src : List Nat) (lit litLen outLen : Nat) (out : List Nat) :
    Option (List Nat) :=
  if 0 < litLen then
    if outLen ≤ out.length + litLen + 1 then none
    else some (lzfEmitLiterals src lit litLen out)
  else some out

/-- Match extension: `len = 3; while (len < max_len && ip[len] == ref[len]) len++`. -/
def lzfMatchLen (src : List Nat) (i r maxLen len : Nat) : Nat :=
  if len < maxLen ∧ src.getD (i + len) 0 = src.getD (r + len) 0 then
    lzfMatchLen src i r maxLen (len + 1)
  else len
termination_by maxLen - len
decreasing_by omega

/-- Back-reference emission with its checks:
`if (op + 2 >= op_end) return 0;` then the 2-byte form for `len <= 8`,
otherwise the 3-byte form with the mid-way `if (op >= op_end) return 0`. -/
def lzfEmitBackref (len off outLen : Nat) (out : List Nat) : Option (List Nat) :=
  if outLen ≤ out.length + 2 then none
  else if len ≤ 8 then
    some (out ++ [((len - 2) <<< 5) ||| ((off - 1) >>> 8), (off - 1) &&& 255])
  else
    let out1 := out ++ [(7 <<< 5) ||| ((off - 1) >>> 8), len - 9]
    if outLen ≤ out1.length then none
    else some (out1 ++ [(off - 1) &&& 255])

/-- Trailing literal flush after the main loop, with its check
`if (op + lit_len + (lit_len + 31)/32 >= op_end) return 0`. -/
def lzfFinalLits (src : List Nat) (lit outLen : Nat) (out : List Nat) :
    Option (List Nat) :=
  let litLen := src.length - lit
  if 0 < litLen then
    if outLen ≤ out.length + litLen + (litLen + 31) / 32 then none
    else some (lzfEmitLiterals src lit litLen out)
  else some out

theorem lzfMatchLen_ge (src : List Nat) (i r maxLen len : Nat) :
    len ≤ lzfMatchLen src i r maxLen len := by
  rw [lzfMatchLen]
  split
  · exact le_trans (Nat.le_succ len) (lzfMatchLen_ge src i r maxLen (len + 1))
  · exact le_refl len
termination_by maxLen - len
decreasing_by omega

/-- The `while (ip < ip_end - 2)` loop of `lzfCompress`.  `htab` is the
hash table (entries are positions in `src`), `i` the cursor `ip`,
`lit` the start of the pending literal run, `out` the emitted bytes.
The condition `ref >= (uint8_t*)in_data` of the source is always true
(`htab` only ever stores valid positions) and is represented by the
`some r` pattern match. -/
def lzfCompressLoop (src : List Nat) (outLen : Nat) (htab : Nat → Option Nat)
    (i lit : Nat) (out : List Nat) : Option (List Nat) :=
  if hcond : i < src.length - 2 then
    let hsh := lzfHash (src.getD i 0) (src.getD (i + 1) 0) (src.getD (i + 2) 0)
    let htab1 : Nat → Option Nat := fun x => if x = hsh then some i else htab x
    match htab hsh with
    | some r =>
      if i - r ≤ 8191 ∧ src.getD r 0 = src.getD i 0 ∧
          src.getD (r + 1) 0 = src.getD (i + 1) 0 ∧
          src.getD (r + 2) 0 = src.getD (i + 2) 0 then
        match lzfFlushLits src lit (i - lit) outLen out with
        | none => none
        | some out1 =>
          match lzfEmitBackref (lzfMatchLen src i r (min (src.length - i) 264) 3)
              (i - r) outLen out1 with
          | none => none
          | some out2 =>
            lzfCompressLoop src outLen htab1
              (i + lzfMatchLen src i r (min (src.length - i) 264) 3)
              (i + lzfMatchLen src i r (min (src.length - i) 264) 3) out2
      else lzfCompressLoop src outLen htab1 (i + 1) lit out
    | none => lzfCompressLoop src outLen htab1 (i + 1) lit out
  else
    lzfFinalLits src lit outLen out
termination_by src.length - i
decreasing_by
  all_goals first
    | omega
    | (have hmg := lzfMatchLen_ge src i r (min (src.length - i) 264) 3; omega)

/-- `lzfCompress(in_data, in_len, out_data, out_len)`: inputs shorter than
3 bytes are stored as a single literal run (or fail when empty / the buffer
is too small); otherwise the hash-table loop starts at `ip = in_data + 1`. -/
def lzfCompress (src : List Nat) (outLen : Nat) : Option (List Nat) :=
  if src.length < 3 then
    if src.length ≠ 0 ∧ src.length + 1 ≤ outLen then
      some ((src.length - 1) :: src)
    else none
  else
    lzfCompressLoop src outLen (fun _ => none) 1 0 []

/-! ### Arithmetic helpers for the instruction encoding -/

theorem lzf_shr5_eq (c : Nat) : c >>> 5 = c / 32 := by
  have h := Nat.shiftRight_eq_div_pow c 5
  norm_num at h
  exact h

theorem lzf_shr8_eq (c : Nat) : c >>> 8 = c / 256 := by
  have h := Nat.shiftRight_eq_div_pow c 8
  norm_num at h
  exact h

theorem lzf_and31_eq (c : Nat) : c &&& 31 = c % 32 := by
  have h := Nat.and_pow_two_sub_one_eq_mod c 5
  norm_num at h
  exact h

theorem lzf_and255_eq (c : Nat) : c &&& 255 = c % 256 := by
  have h := Nat.and_pow_two_sub_one_eq_mod c 8
  norm_num at h
  exact h

theorem lzf_shl8_eq (c : Nat) : c <<< 8 = c * 256 := by
  rw [Nat.shiftLeft_eq]

theorem lzf_or_eq (a b : Nat) (hb : b < 32) : ((a <<< 5) ||| b) = a * 32 + b := by
  rw [Nat.shiftLeft_eq]
  have h2 : (2 : Nat) ^ 5 = 32 := by norm_num
  have h := @Nat.mul_add_lt_is_or 5 b (by omega) a
  rw [Nat.mul_comm a (2 ^ 5), ← h, h2]

/-! ### Correctness of the overlapping back-reference copy -/

theorem lzfRefCopy_take (s : List Nat) (off : Nat) (hoff : 0 < off) :
    ∀ (m i : Nat), off ≤ i → i + m ≤ s.length →
      (∀ k, k < m → s.getD (i - off + k) 0 = s.getD (i + k) 0) →
      lzfRefCopy (s.take i) (i - off) m = s.take (i + m)
  | 0, i, _, _, _ => by simp [lzfRefCopy]
  | m + 1, i, hle, hlen, hper => by
    rw [lzfRefCopy]
    have hi : i < s.length := by omega
    have h1 : (s.take i).getD (i - off) 0 = s.getD (i - off) 0 := by
      rw [List.getD_eq_getElem?_getD, List.getD_eq_getElem?_getD,
        List.getElem?_take_of_lt (by omega)]
    have h2 : s.getD (i - off) 0 = s.getD i 0 := by
      have := hper 0 (by omega)
      simpa using this
    have h3 : s.take i ++ [s.getD i 0] = s.take (i + 1) := by
      rw [List.take_succ, List.getElem?_eq_getElem hi]
      simp [List.getD_eq_getElem?_getD, List.getElem?_eq_getElem hi]
    rw [h1, h2, h3]
    have h4 : i + 1 - off = i - off + 1 := by omega
    have ih := lzfRefCopy_take s off hoff m (i + 1) (by omega) (by omega)
      (fun k hk => by
        have := hper (k + 1) (by omega)
        have e1 : i + 1 - off + k = i - off + (k + 1) := by omega
        have e2 : i + 1 + k = i + (k + 1) := by omega
        rw [e1, e2]; exact this)
    rw [h4] at ih
    rw [ih]
    congr 1
    omega

/-! ### Sequential composition of the decompression loop -/

theorem lzfDecompressLoop_append_aux (outLen N : Nat) :
    ∀ s1 : List Nat, s1.length ≤ N → ∀ s2 acc acc1,
      lzfDecompressLoop outLen s1 acc = .ok acc1 →
      lzfDecompressLoop outLen (s1 ++ s2) acc = lzfDecompressLoop outLen s2 acc1 := by
  induction N with
  | zero =>
    intro s1 hlen s2 acc acc1 h
    have hnil : s1 = [] := List.length_eq_zero.mp (Nat.le_zero.mp hlen)
    subst hnil
    rw [lzfDecompressLoop.eq_def] at h
    cases h; rfl
  | succ N IH =>
    intro s1 hlen s2 acc acc1 h
    cases s1 with
    | nil => rw [lzfDecompressLoop.eq_def] at h; cases h; rfl
    | cons ctrl ip =>
      simp only [List.length_cons] at hlen
      rw [lzfDecompressLoop.eq_def] at h
      rw [List.cons_append, lzfDecompressLoop.eq_def]
      by_cases hc : ctrl < 32
      · simp only [if_pos hc] at h ⊢
        by_cases hchk : outLen < acc.length + (ctrl + 1) ∨ ip.length < ctrl + 1
        · rw [if_pos hchk] at h; cases h
        · rw [if_neg hchk] at h
          have hl2 : ctrl + 1 ≤ ip.length := by omega
          have hchk2 : ¬(outLen < acc.length + (ctrl + 1) ∨
              (ip ++ s2).length < ctrl + 1) := by
            simp only [List.length_append]; omega
          rw [if_neg hchk2, List.take_append_of_le_length hl2,
            List.drop_append_of_le_length hl2]
          exact IH _ (by simp only [List.length_drop]; omega) s2 _ acc1 h
      · simp only [if_neg hc] at h ⊢
        by_cases h9 : (ctrl >>> 5) + 2 = 9
        · simp only [if_pos h9] at h ⊢
          cases ip with
          | nil => cases h
          | cons extra ip =>
            cases ip with
            | nil => cases h
            | cons low ip =>
              simp only [List.length_cons] at hlen
              simp only [List.cons_append] at h ⊢
              by_cases hchk : outLen < acc.length + (9 + extra) ∨
                  acc.length < ((ctrl &&& 31) <<< 8) + 1 + low
              · rw [if_pos hchk] at h; cases h
              · rw [if_neg hchk] at h ⊢
                exact IH _ (by omega) s2 _ acc1 h
        · simp only [if_neg h9] at h ⊢
          cases ip with
          | nil => cases h
          | cons low ip =>
            simp only [List.length_cons] at hlen
            simp only [List.cons_append] at h ⊢
            by_cases hchk : outLen < acc.length + ((ctrl >>> 5) + 2) ∨
                acc.length < ((ctrl &&& 31) <<< 8) + 1 + low
            · rw [if_pos hchk] at h; cases h
            · rw [if_neg hchk] at h ⊢
              exact IH _ (by omega) s2 _ acc1 h

theorem lzfDecompressLoop_append (outLen : Nat) (s1 s2 acc acc1 : List Nat)
    (h : lzfDecompressLoop outLen s1 acc = .ok acc1) :
    lzfDecompressLoop outLen (s1 ++ s2) acc = lzfDecompressLoop outLen s2 acc1 :=
  lzfDecompressLoop_append_aux outLen s1.length s1 (le_refl _) s2 acc acc1 h

/-! ### Unfolding equations for the decompression loop -/

theorem lzfDecompressLoop_nil (outLen : Nat) (acc : List Nat) :
    lzfDecompressLoop outLen [] acc = .ok acc := by
  rw [lzfDecompressLoop.eq_def]

theorem lzfDecompressLoop_lit (outLen ctrl : Nat) (ip acc : List Nat) (hc : ctrl < 32) :
    lzfDecompressLoop outLen (ctrl :: ip) acc
      = if outLen < acc.length + (ctrl + 1) ∨ ip.length < ctrl + 1 then .err
        else lzfDecompressLoop outLen (ip.drop (ctrl + 1)) (acc ++ ip.take (ctrl + 1)) := by
  rw [lzfDecompressLoop.eq_def]
  simp only [if_pos hc]

theorem lzfDecompressLoop_br2 (outLen ctrl low : Nat) (ip acc : List Nat)
    (hc : ¬ ctrl < 32) (h9 : ¬ (ctrl >>> 5) + 2 = 9) :
    lzfDecompressLoop outLen (ctrl :: low :: ip) acc
      = if outLen < acc.length + ((ctrl >>> 5) + 2) ∨
            acc.length < ((ctrl &&& 31) <<< 8) + 1 + low then .err
        else lzfDecompressLoop outLen ip
          (lzfRefCopy acc (acc.length - (((ctrl &&& 31) <<< 8) + 1 + low))
            ((ctrl >>> 5) + 2)) := by
  rw [lzfDecompressLoop.eq_def]
  simp only [if_neg hc, if_neg h9]

theorem lzfDecompressLoop_br3 (outLen ctrl extra low : Nat) (ip acc : List Nat)
    (hc : ¬ ctrl < 32) (h9 : (ctrl >>> 5) + 2 = 9) :
    lzfDecompressLoop outLen (ctrl :: extra :: low :: ip) acc
      = if outLen < acc.length + (9 + extra) ∨
            acc.length < ((ctrl &&& 31) <<< 8) + 1 + low then .err
        else lzfDecompressLoop outLen ip
          (lzfRefCopy acc (acc.length - (((ctrl &&& 31) <<< 8) + 1 + low)) (9 + extra)) := by
  rw [lzfDecompressLoop.eq_def]
  simp only [if_neg hc, if_pos h9]

/-! ### Decoding the emitted literal runs -/

theorem lzfEmitLiterals_append (src : List Nat) (litLen : Nat) :
    ∀ lit out, lzfEmitLiterals src lit litLen out
      = out ++ lzfEmitLiterals src lit litLen [] := by
  induction litLen using Nat.strong_induction_on with
  | _ litLen IH =>
    intro lit out
    conv_lhs => rw [lzfEmitLiterals.eq_def]
    conv_rhs => rw [lzfEmitLiterals.eq_def]
    by_cases h32 : 32 < litLen
    · rw [if_pos h32, if_pos h32, IH (litLen - 32) (by omega),
        IH (litLen - 32) (by omega) (lit + 32) ([] ++ 31 :: (src.drop lit).take 32)]
      simp
    · rw [if_neg h32, if_neg h32]
      by_cases h0 : 0 < litLen
      · rw [if_pos h0, if_pos h0]; simp
      · rw [if_neg h0, if_neg h0]; simp

theorem lzfEmitLiterals_decode (src : List Nat) (outLen : Nat) (litLen : Nat) :
    ∀ lit (acc : List Nat), lit + litLen ≤ src.length → acc.length + litLen ≤ outLen →
      lzfDecompressLoop outLen (lzfEmitLiterals src lit litLen []) acc
        = .ok (acc ++ (src.drop lit).take litLen) := by
  induction litLen using Nat.strong_induction_on with
  | _ litLen IH =>
    intro lit acc hsrc hout
    rw [lzfEmitLiterals.eq_def]
    by_cases h32 : 32 < litLen
    · rw [if_pos h32, lzfEmitLiterals_append src (litLen - 32)]
      simp only [List.nil_append]
      have hchunk : ((src.drop lit).take 32).length = 32 := by
        simp only [List.length_take, List.length_drop]
        omega
      rw [List.cons_append, lzfDecompressLoop_lit _ _ _ _ (by omega)]
      rw [if_neg (by simp only [List.length_append, hchunk]; omega :
        ¬(outLen < acc.length + (31 + 1) ∨
          ((src.drop lit).take 32 ++ lzfEmitLiterals src (lit + 32) (litLen - 32) []).length
            < 31 + 1))]
      rw [List.take_append_of_le_length (by omega : 31 + 1 ≤ ((src.drop lit).take 32).length),
        List.drop_append_of_le_length (by omega : 31 + 1 ≤ ((src.drop lit).take 32).length)]
      have h1 : ((src.drop lit).take 32).take (31 + 1) = (src.drop lit).take 32 := by
        rw [List.take_take]
        norm_num
      have h2 : ((src.drop lit).take 32).drop (31 + 1) = [] := by
        apply List.drop_eq_nil_of_le
        omega
      rw [h1, h2]
      simp only [List.nil_append]
      rw [IH (litLen - 32) (by omega) (lit + 32) (acc ++ (src.drop lit).take 32)
        (by omega) (by simp only [List.length_append, hchunk]; omega)]
      congr 1
      have hsplit : (src.drop lit).take litLen
          = (src.drop lit).take 32 ++ ((src.drop lit).drop 32).take (litLen - 32) := by
        rw [← List.take_add]
        congr 1
        omega
      rw [hsplit, List.append_assoc, List.drop_drop]
    · rw [if_neg h32]
      by_cases h0 : 0 < litLen
      · rw [if_pos h0]
        simp only [List.nil_append]
        have hchunk : ((src.drop lit).take litLen).length = litLen := by
          simp only [List.length_take, List.length_drop]
          omega
        rw [lzfDecompressLoop_lit _ _ _ _ (by omega)]
        have he : litLen - 1 + 1 = litLen := by omega
        rw [he]
        rw [if_neg (by rw [hchunk]; omega :
          ¬(outLen < acc.length + litLen ∨ ((src.drop lit).take litLen).length < litLen))]
        have h1 : ((src.drop lit).take litLen).take litLen = (src.drop lit).take litLen := by
          rw [List.take_take, Nat.min_self]
        have h2 : ((src.drop lit).take litLen).drop litLen = [] := by
          apply List.drop_eq_nil_of_le
          omega
        rw [h1, h2, lzfDecompressLoop_nil]
      · rw [if_neg h0]
        have h0e : litLen = 0 := by omega
        subst h0e
        simp [lzfDecompressLoop_nil]

/-! ### Decoding an emitted back-reference -/

/-- The byte sequence produced by `lzfEmitBackref` when its buffer checks pass
(2-byte form for `len ≤ 8`, 3-byte form otherwise). -/
def lzfBrBytes (len off : Nat) : List Nat :=
  if len ≤ 8 then [((len - 2) <<< 5) ||| ((off - 1) >>> 8), (off - 1) &&& 255]
  else [(7 <<< 5) ||| ((off - 1) >>> 8), len - 9, (off - 1) &&& 255]

theorem lzfEmitBackref_eq (len off outLen : Nat) (out : List Nat)
    (h : out.length + 2 < outLen) :
    lzfEmitBackref len off outLen out = some (out ++ lzfBrBytes len off) := by
  rw [lzfEmitBackref, lzfBrBytes]
  rw [if_neg (by omega : ¬ outLen ≤ out.length + 2)]
  by_cases h8 : len ≤ 8
  · rw [if_pos h8, if_pos h8]
  · rw [if_neg h8, if_neg h8]
    simp only [List.length_append, List.length_cons, List.length_nil]
    rw [if_neg (by omega : ¬ outLen ≤ out.length + (1 + 1))]
    simp

theorem lzfBrBytes_decode (outLen : Nat) (s : List Nat) (i off len : Nat)
    (h3 : 3 ≤ len) (hoff1 : 1 ≤ off) (hoff2 : off ≤ 8191) (hoffi : off ≤ i)
    (hbound : i + len ≤ outLen) (hsl : i + len ≤ s.length)
    (hper : ∀ k, k < len → s.getD (i - off + k) 0 = s.getD (i + k) 0) :
    lzfDecompressLoop outLen (lzfBrBytes len off) (s.take i) = .ok (s.take (i + len)) := by
  have hlen_take : (s.take i).length = i := by
    rw [List.length_take]
    omega
  have hhi : (off - 1) >>> 8 = (off - 1) / 256 := lzf_shr8_eq _
  have hhiv : (off - 1) / 256 < 32 := by omega
  have hcopy : lzfRefCopy (s.take i) (i - off) len = s.take (i + len) :=
    lzfRefCopy_take s off (by omega) len i hoffi (by omega) hper
  rw [lzfBrBytes]
  by_cases h8 : len ≤ 8
  · rw [if_pos h8]
    have hctrl : ((len - 2) <<< 5) ||| ((off - 1) >>> 8)
        = (len - 2) * 32 + (off - 1) / 256 := by
      rw [hhi, lzf_or_eq _ _ hhiv]
    rw [hctrl]
    have hcge : ¬ (len - 2) * 32 + (off - 1) / 256 < 32 := by omega
    have hshr : ((len - 2) * 32 + (off - 1) / 256) >>> 5 = len - 2 := by
      rw [lzf_shr5_eq]; omega
    have h9 : ¬ (((len - 2) * 32 + (off - 1) / 256) >>> 5 + 2 = 9) := by
      rw [hshr]; omega
    rw [lzfDecompressLoop_br2 _ _ _ _ _ hcge h9]
    have hand : ((len - 2) * 32 + (off - 1) / 256) &&& 31 = (off - 1) / 256 := by
      rw [lzf_and31_eq]; omega
    rw [hand, lzf_and255_eq, lzf_shl8_eq, hshr]
    have hoffeq : (off - 1) / 256 * 256 + 1 + (off - 1) % 256 = off := by omega
    have hleneq : len - 2 + 2 = len := by omega
    rw [hoffeq, hleneq, hlen_take]
    rw [if_neg (by omega : ¬(outLen < i + len ∨ i < off))]
    rw [hcopy, lzfDecompressLoop_nil]
  · rw [if_neg h8]
    have hctrl : (7 <<< 5) ||| ((off - 1) >>> 8) = 7 * 32 + (off - 1) / 256 := by
      rw [hhi, lzf_or_eq _ _ hhiv]
    rw [hctrl]
    have hcge : ¬ 7 * 32 + (off - 1) / 256 < 32 := by omega
    have hshr : (7 * 32 + (off - 1) / 256) >>> 5 = 7 := by
      rw [lzf_shr5_eq]; omega
    have h9 : (7 * 32 + (off - 1) / 256) >>> 5 + 2 = 9 := by rw [hshr]
    rw [lzfDecompressLoop_br3 _ _ _ _ _ _ hcge h9]
    have hand : (7 * 32 + (off - 1) / 256) &&& 31 = (off - 1) / 256 := by
      rw [lzf_and31_eq]; omega
    rw [hand, lzf_and255_eq, lzf_shl8_eq]
    have hoffeq : (off - 1) / 256 * 256 + 1 + (off - 1) % 256 = off := by omega
    have hleneq : 9 + (len - 9) = len := by omega
    rw [hoffeq, hleneq, hlen_take]
    rw [if_neg (by omega : ¬(outLen < i + len ∨ i < off))]
    rw [hcopy, lzfDecompressLoop_nil]

theorem lzfMatchLen_le (src : List Nat) (i r maxLen : Nat) :
    ∀ len, len ≤ maxLen → lzfMatchLen src i r maxLen len ≤ maxLen := by
  suffices h : ∀ d len, maxLen - len ≤ d → len ≤ maxLen →
      lzfMatchLen src i r maxLen len ≤ maxLen by
    intro len hle
    exact h (maxLen - len) len (le_refl _) hle
  intro d
  induction d with
  | zero =>
    intro len hd hle
    rw [lzfMatchLen]
    split
    · next h => exact absurd h.1 (by omega)
    · exact hle
  | succ d IH =>
    intro len hd hle
    rw [lzfMatchLen]
    split
    · next h => exact IH (len + 1) (by omega) (by omega)
    · exact hle

theorem lzfMatchLen_spec (src : List Nat) (i r maxLen : Nat) :
    ∀ len k, len ≤ k → k < lzfMatchLen src i r maxLen len →
      src.getD (i + k) 0 = src.getD (r + k) 0 := by
  suffices hs : ∀ d len k, maxLen - len ≤ d → len ≤ k →
      k < lzfMatchLen src i r maxLen len →
      src.getD (i + k) 0 = src.getD (r + k) 0 by
    intro len k hlk hk
    exact hs (maxLen - len) len k (le_refl _) hlk hk
  intro d
  induction d with
  | zero =>
    intro len k hd hlk hk
    rw [lzfMatchLen] at hk
    by_cases h : len < maxLen ∧ src.getD (i + len) 0 = src.getD (r + len) 0
    · exact absurd h.1 (by omega)
    · rw [if_neg h] at hk
      omega
  | succ d IH =>
    intro len k hd hlk hk
    rw [lzfMatchLen] at hk
    by_cases h : len < maxLen ∧ src.getD (i + len) 0 = src.getD (r + len) 0
    · rw [if_pos h] at hk
      by_cases hkl : k = len
      · subst hkl
        exact h.2
      · exact IH (len + 1) k (by omega) (by omega) hk
    · rw [if_neg h] at hk
      omega

theorem lzfEmitLiterals_length (src : List Nat) (litLen : Nat) :
    ∀ lit (out : List Nat), lit + litLen ≤ src.length →
      (lzfEmitLiterals src lit litLen out).length
        = out.length + litLen + (litLen + 31) / 32 := by
  induction litLen using Nat.strong_induction_on with
  | _ litLen IH =>
    intro lit out hle
    rw [lzfEmitLiterals.eq_def]
    by_cases h32 : 32 < litLen
    · rw [if_pos h32, IH (litLen - 32) (by omega) (lit + 32) _ (by omega)]
      simp only [List.length_append, List.length_cons, List.length_take,
        List.length_drop]
      omega
    · rw [if_neg h32]
      by_cases h0 : 0 < litLen
      · rw [if_pos h0]
        simp only [List.length_append, List.length_cons, List.length_take,
          List.length_drop]
        omega
      · rw [if_neg h0]
        omega

theorem lzfBrBytes_length (len off : Nat) :
    (lzfBrBytes len off).length = if len ≤ 8 then 2 else 3 := by
  rw [lzfBrBytes]
  by_cases h8 : len ≤ 8
  · rw [if_pos h8, if_pos h8]
    rfl
  · rw [if_neg h8, if_neg h8]
    rfl

/-! ### Correctness of the two literal-flush sites -/

theorem take_length_of_le {l : List Nat} {n : Nat} (h : n ≤ l.length) :
    (l.take n).length = n := by
  rw [List.length_take]
  omega

theorem lzfFlushLits_correct (src : List Nat) (outLen lit i : Nat) (out : List Nat)
    (hout : src.length + src.length / 8 + 16 ≤ outLen)
    (hlit : lit ≤ i) (hi3 : i + 3 ≤ src.length)
    (hdec : lzfDecompressLoop src.length out [] = .ok (src.take lit))
    (hlen : out.length ≤ lit + lit / 32) :
    ∃ out1, lzfFlushLits src lit (i - lit) outLen out = some out1 ∧
      lzfDecompressLoop src.length out1 [] = .ok (src.take i) ∧
      out1.length ≤ i + i / 32 + 1 := by
  rw [lzfFlushLits]
  by_cases h0 : 0 < i - lit
  · rw [if_pos h0]
    rw [if_neg (by omega : ¬ outLen ≤ out.length + (i - lit) + 1)]
    refine ⟨_, rfl, ?_, ?_⟩
    · rw [lzfEmitLiterals_append,
        lzfDecompressLoop_append src.length out (lzfEmitLiterals src lit (i - lit) [])
          [] (src.take lit) hdec,
        lzfEmitLiterals_decode src src.length (i - lit) lit (src.take lit)
          (by omega) (by rw [take_length_of_le (by omega)]; omega)]
      congr 1
      rw [← List.take_add]
      congr 1
      omega
    · rw [lzfEmitLiterals_append, List.length_append,
        lzfEmitLiterals_length src (i - lit) lit [] (by omega)]
      simp only [List.length_nil]
      omega
  · rw [if_neg h0]
    have hle : lit = i := by omega
    subst hle
    exact ⟨out, rfl, hdec, by omega⟩

theorem lzfFinalLits_correct (src : List Nat) (outLen lit : Nat) (out : List Nat)
    (hout : src.length + src.length / 8 + 16 ≤ outLen)
    (hlit : lit ≤ src.length)
    (hdec : lzfDecompressLoop src.length out [] = .ok (src.take lit))
    (hlen : out.length ≤ lit + lit / 32) :
    ∃ res, lzfFinalLits src lit outLen out = some res ∧
      lzfDecompressLoop src.length res [] = .ok src ∧
      res.length ≤ src.length + src.length / 32 + 1 := by
  rw [lzfFinalLits]
  by_cases h0 : 0 < src.length - lit
  · rw [if_pos h0]
    rw [if_neg (by omega :
      ¬ outLen ≤ out.length + (src.length - lit) + (src.length - lit + 31) / 32)]
    refine ⟨_, rfl, ?_, ?_⟩
    · rw [lzfEmitLiterals_append,
        lzfDecompressLoop_append src.length out
          (lzfEmitLiterals src lit (src.length - lit) []) [] (src.take lit) hdec,
        lzfEmitLiterals_decode src src.length (src.length - lit) lit (src.take lit)
          (by omega) (by rw [take_length_of_le (by omega)]; omega)]
      congr 1
      rw [← List.take_add]
      have he : lit + (src.length - lit) = src.length := by omega
      rw [he, List.take_length]
    · rw [lzfEmitLiterals_append, List.length_append,
        lzfEmitLiterals_length src (src.length - lit) lit [] (by omega)]
      simp only [List.length_nil]
      omega
  · rw [if_neg h0]
    have hle : lit = src.length := by omega
    subst hle
    rw [List.take_length] at hdec
    exact ⟨out, rfl, hdec, by omega⟩

/-! ### Main invariant of the compression loop -/

theorem lzfCompressLoop_correct (src : List Nat) (outLen : Nat)
    (hout : src.length + src.length / 8 + 16 ≤ outLen) :
    ∀ (N i lit : Nat) (htab : Nat → Option Nat) (out : List Nat),
      src.length - i ≤ N →
      1 ≤ i → lit ≤ i → i ≤ src.length →
      (∀ h r, htab h = some r → r < i) →
      lzfDecompressLoop src.length out [] = .ok (src.take lit) →
      out.length ≤ lit + lit / 32 →
      ∃ res, lzfCompressLoop src outLen htab i lit out = some res ∧
        lzfDecompressLoop src.length res [] = .ok src ∧
        res.length ≤ src.length + src.length / 32 + 1 := by
  intro N
  induction N with
  | zero =>
    intro i lit htab out hN h1 hli hin htb hdec hlen
    rw [lzfCompressLoop.eq_def, dif_neg (by omega : ¬ i < src.length - 2)]
    exact lzfFinalLits_correct src outLen lit out hout (by omega) hdec hlen
  | succ N IH =>
    intro i lit htab out hN h1 hli hin htb hdec hlen
    by_cases hcond : i < src.length - 2
    case neg =>
      rw [lzfCompressLoop.eq_def, dif_neg hcond]
      exact lzfFinalLits_correct src outLen lit out hout (by omega) hdec hlen
    case pos =>
      rw [lzfCompressLoop.eq_def, dif_pos hcond]
      simp only []
      cases hh : htab (lzfHash (src.getD i 0) (src.getD (i + 1) 0) (src.getD (i + 2) 0)) with
      | none =>
        exact IH (i + 1) lit _ out (by omega) (by omega) (by omega) (by omega)
          (fun h r hr => by
            by_cases he : h = lzfHash (src.getD i 0) (src.getD (i + 1) 0) (src.getD (i + 2) 0)
            · rw [if_pos he] at hr
              injection hr with h2
              omega
            · rw [if_neg he] at hr
              exact lt_trans (htb h r hr) (by omega))
          hdec hlen
      | some r =>
        simp only []
        by_cases hm : i - r ≤ 8191 ∧ src.getD r 0 = src.getD i 0 ∧
            src.getD (r + 1) 0 = src.getD (i + 1) 0 ∧ src.getD (r + 2) 0 = src.getD (i + 2) 0
        case neg =>
          rw [if_neg hm]
          exact IH (i + 1) lit _ out (by omega) (by omega) (by omega) (by omega)
            (fun h r' hr' => by
              by_cases he : h = lzfHash (src.getD i 0) (src.getD (i + 1) 0) (src.getD (i + 2) 0)
              · rw [if_pos he] at hr'
                injection hr' with h2
                omega
              · rw [if_neg he] at hr'
                exact lt_trans (htb h r' hr') (by omega))
            hdec hlen
        case pos =>
          rw [if_pos hm]
          have hrlt : r < i := htb _ _ hh
          obtain ⟨out1, hfl, hdec1, hlen1⟩ :=
            lzfFlushLits_correct src outLen lit i out hout hli (by omega) hdec hlen
          rw [hfl]
          simp only []
          have h3 : 3 ≤ lzfMatchLen src i r (min (src.length - i) 264) 3 :=
            lzfMatchLen_ge src i r _ 3
          have hlenle : lzfMatchLen src i r (min (src.length - i) 264) 3
              ≤ min (src.length - i) 264 :=
            lzfMatchLen_le src i r _ 3 (by omega)
          have hlenni : lzfMatchLen src i r (min (src.length - i) 264) 3
              ≤ src.length - i :=
            le_trans hlenle (min_le_left _ _)
          set len := lzfMatchLen src i r (min (src.length - i) 264) 3 with hlendef
          rw [lzfEmitBackref_eq _ _ _ _ (by omega : out1.length + 2 < outLen)]
          simp only []
          have hdec2 : lzfDecompressLoop src.length (out1 ++ lzfBrBytes len (i - r)) []
              = .ok (src.take (i + len)) := by
            rw [lzfDecompressLoop_append src.length out1 _ [] _ hdec1]
            apply lzfBrBytes_decode src.length src i (i - r) len h3 (by omega) (by omega)
              (by omega) (by omega) (by omega)
            intro k hk
            have hir : i - (i - r) = r := by omega
            rw [hir]
            by_cases hk3 : k < 3
            · have hk0 : k = 0 ∨ k = 1 ∨ k = 2 := by omega
              rcases hk0 with he | he | he <;> subst he
              · simpa using hm.2.1
              · exact hm.2.2.1
              · exact hm.2.2.2
            · exact (lzfMatchLen_spec src i r (min (src.length - i) 264) 3 k (by omega)
                (by rw [← hlendef]; exact hk)).symm
          have hlen2 : (out1 ++ lzfBrBytes len (i - r)).length
              ≤ (i + len) + (i + len) / 32 := by
            rw [List.length_append, lzfBrBytes_length]
            by_cases h8 : len ≤ 8
            · rw [if_pos h8]
              omega
            · rw [if_neg h8]
              omega
          exact IH (i + len) (i + len) _ _ (by omega) (by omega) (le_refl _) (by omega)
            (fun h r' hr' => by
              by_cases he : h = lzfHash (src.getD i 0) (src.getD (i + 1) 0) (src.getD (i + 2) 0)
              · rw [if_pos he] at hr'
                injection hr' with h2
                omega
              · rw [if_neg he] at hr'
                exact lt_of_lt_of_le (htb h r' hr') (by omega))
            hdec2 hlen2

/-- LZF round trip for nonempty inputs, at the scratch-buffer size
`in_len + in_len/8 + 16` used by `PCDParser::writeBinaryCompressed`. -/
theorem lzfCompress_roundtrip (src : List Nat) (hne : src ≠ []) :
    ∃ out, lzfCompress src (src.length + src.length / 8 + 16) = some out ∧
      lzfDecompress out src.length = .ok src ∧
      out.length ≤ src.length + src.length / 32 + 1 := by
  have hn0 : src.length ≠ 0 := by
    intro h
    exact hne (List.length_eq_zero.mp h)
  rw [lzfCompress]
  by_cases h3 : src.length < 3
  · rw [if_pos h3, if_pos ⟨hn0, by omega⟩]
    refine ⟨_, rfl, ?_, by simp only [List.length_cons]; omega⟩
    rw [lzfDecompress, lzfDecompressLoop_lit _ _ _ _ (by omega)]
    have he : src.length - 1 + 1 = src.length := by omega
    rw [he]
    rw [if_neg (by simp)]
    simp [List.take_length, List.drop_length, lzfDecompressLoop_nil]
  · rw [if_neg h3]
    obtain ⟨res, hc, hd, hl⟩ := lzfCompressLoop_correct src _ (le_refl _)
      src.length 1 0 (fun _ => none) [] (by omega) (by omega) (by omega) (by omega)
      (fun h r hr => by cases hr) (by simp [lzfDecompressLoop_nil]) (by simp)
    exact ⟨res, hc, hd, by omega⟩

/-! ## Claim C1 (LZF round trip) -/

/-- C1, counterexample: compressing the **empty** buffer fails.
`lzfCompress` executes `if (in_len && ...)` with `in_len = 0` and returns `0`
(= `none`), which `PCDParser::writeBinaryCompressed` turns into a thrown
`"LZF compression failed"`; so the round trip does not succeed for the empty
buffer, with the scratch size `0 + 0/8 + 16 = 16` the caller would use. -/
theorem c1_empty_buffer_fails : lzfCompress [] 16 = none := by
  rw [lzfCompress]
  simp

/-- C1 (amended): for every **nonempty** byte buffer `B`, compressing with the
scratch-buffer size `|B| + |B|/8 + 16` used by `PCDParser::writeBinaryCompressed`
succeeds, and decompressing the result with expected length `|B|` reproduces
exactly `B`. -/
theorem c1_lzf_roundtrip_nonempty (src : List Nat) (hne : src ≠ []) :
    ∃ out, lzfCompress src (src.length + src.length / 8 + 16) = some out ∧
      lzfDecompress out src.length = .ok src := by
  obtain ⟨o, h1, h2, _⟩ := lzfCompress_roundtrip src hne
  exact ⟨o, h1, h2⟩

/-- Witness for C1 at the concrete buffer `[7, 7, 7, 7, 7]`. -/
theorem c1_lzf_roundtrip_witness :
    ([7, 7, 7, 7, 7] : List Nat) ≠ [] ∧
      ∃ out, lzfCompress [7, 7, 7, 7, 7] ([7, 7, 7, 7, 7].length
          + [7, 7, 7, 7, 7].length / 8 + 16) = some out ∧
        lzfDecompress out [7, 7, 7, 7, 7].length = .ok [7, 7, 7, 7, 7] :=
  ⟨by decide, c1_lzf_roundtrip_nonempty [7, 7, 7, 7, 7] (by decide)⟩

/-! ## Claim C2 (LZF decompression error handling) -/

/-- C2, failing input: a one-byte input whose single byte is the control byte
`32` (`0x20`) of a back-reference.  The input ends in the middle of the
instruction, yet `lzfDecompress` does not fail: it executes `off += *ip++`
with `ip = ip_end`, reading past the end of the input buffer
(undefined behaviour), modelled here as the `.oobRead` outcome. -/
theorem c2_truncated_backref_reads_oob : lzfDecompress [32] 4 = .oobRead := by
  rw [lzfDecompress, lzfDecompressLoop.eq_def]
  norm_num

/-! ## Field model (pcd_parser.h)

Text is modelled as byte lists (`List Nat`); `strBytes` converts a Lean
string literal of ASCII characters to its bytes. -/

def strBytes (s : String) : List Nat := s.data.map Char.toNat

/-- The eight alternatives of the `FieldData` variant
(`std::variant<std::vector<int8_t>, ..., std::vector<double>>`). -/
inductive ColKind where
  | i8 | u8 | i16 | u16 | i32 | u32 | f32 | f64
deriving DecidableEq, Repr

/-- `sizeof(T)` for the element type of each alternative. -/
def ColKind.width : ColKind → Nat
  | .i8 => 1 | .u8 => 1 | .i16 => 2 | .u16 => 2
  | .i32 => 4 | .u32 => 4 | .f32 => 4 | .f64 => 8

/-- One `FieldData` value: a homogeneously typed column.  Each element is
stored as its memory bit pattern, a natural number below `2^(8·width)`
(two's complement for the signed alternatives, IEEE-754 pattern for the float
alternatives).  The binary codecs of the source move these patterns only with
`memcpy`, so this representation is bit-exact; numeric interpretation
(decimal printing, casts to float) is modelled separately. -/
structure Column where
  kind : ColKind
  vals : List Nat
deriving DecidableEq, Repr

/-- `pushValue` (pcd_parser.cpp, line 251): `std::get_if<std::vector<T>>`
appends only when the variant currently holds exactly `vector<T>`. -/
def pushValue (k : ColKind) (v : Nat) (c : Column) : Column :=
  if c.kind = k then { c with vals := c.vals ++ [v] } else c

/-- `vec.push_back(T{})` under `std::visit`: pushes the zero value of the
active alternative; all eight zero values have bit pattern 0. -/
def pushDefault (c : Column) : Column :=
  { c with vals := c.vals ++ [0] }

/-- `FieldInfo`: `name` as bytes, `size`/`count` as C `int`s, `type` the byte
of the one-letter code (73 = I, 85 = U, 70 = F). -/
structure FieldInfo where
  name : List Nat
  size : Int
  type : Nat
  count : Int
deriving DecidableEq, Repr

/-- `FieldInfo::createStorage`: the `(type, size)` switch with fall-through to
a `vector<float>` default for every unmapped combination. -/
def FieldInfo.createStorage (f : FieldInfo) : Column :=
  if f.type = 73 then
    if f.size = 1 then ⟨.i8, []⟩
    else if f.size = 2 then ⟨.i16, []⟩
    else if f.size = 4 then ⟨.i32, []⟩
    else ⟨.f32, []⟩
  else if f.type = 85 then
    if f.size = 1 then ⟨.u8, []⟩
    else if f.size = 2 then ⟨.u16, []⟩
    else if f.size = 4 then ⟨.u32, []⟩
    else ⟨.f32, []⟩
  else if f.type = 70 then
    if f.size = 4 then ⟨.f32, []⟩
    else if f.size = 8 then ⟨.f64, []⟩
    else ⟨.f32, []⟩
  else ⟨.f32, []⟩

/-- PCD file header with the defaults of the C struct. -/
structure PCDHeader where
  version : List Nat := strBytes ("0.7")
  fields : List FieldInfo := []
  width : Int := 0
  height : Int := 1
  viewpoint : List Nat := strBytes ("0 0 0 1 0 0 0")
  points : Int := 0
  dataType : List Nat := strBytes ("ascii")
deriving DecidableEq, Repr

/-- `::tolower` on an ASCII byte. -/
def toLowerByte (c : Nat) : Nat := if 65 ≤ c ∧ c ≤ 90 then c + 32 else c

def lowerBytes (s : List Nat) : List Nat := s.map toLowerByte

def findFieldAux (target : List Nat) : List FieldInfo → Nat → Option Nat
  | [], _ => none
  | f :: fs, i =>
    if lowerBytes f.name = lowerBytes target then some i
    else findFieldAux target fs (i + 1)

/-- `PCDHeader::findField`: case-insensitive scan returning the first matching
index; the C function returns `-1` for "not found", modelled as `none`. -/
def PCDHeader.findField (h : PCDHeader) (name : List Nat) : Option Nat :=
  findFieldAux name h.fields 0

/-- `PCDHeader::getPointSize`: `Σ size·count` over the fields. -/
def PCDHeader.getPointSize (h : PCDHeader) : Int :=
  h.fields.foldl (fun acc f => acc + f.size * f.count) 0

/-- `PCDHeader::addField`. -/
def PCDHeader.addField (h : PCDHeader) (name : List Nat) (size : Int)
    (type : Nat) (count : Int) : PCDHeader :=
  { h with fields := h.fields ++ [⟨name, size, type, count⟩] }

/-- `PCDData`: header plus one column per field. -/
structure PCDData where
  header : PCDHeader := {}
  fieldData : List Column := []
deriving DecidableEq, Repr

/-- `PCDData::numPoints`: the length of the first column, `0` when there are
no columns. -/
def PCDData.numPoints (d : PCDData) : Nat :=
  match d.fieldData with
  | [] => 0
  | c :: _ => c.vals.length

/-- `PCDData::setLabels`: replace the column of the (case-insensitive) first
field named `label`, or append a new `label` field (`SIZE 4`, `TYPE U`) with
a `vector<uint32_t>` column. -/
def PCDData.setLabels (d : PCDData) (labels : List Nat) : PCDData :=
  match d.header.findField (strBytes ("label")) with
  | none =>
    { header := d.header.addField (strBytes ("label")) 4 85 1,
      fieldData := d.fieldData ++ [⟨.u32, labels⟩] }
  | some idx =>
    { d with fieldData := d.fieldData.set idx ⟨.u32, labels⟩ }

/-! ## Stream primitives (std::getline, istream extraction) -/

/-- The characters `std::isspace` recognises in the "C" locale. -/
def isWSByte (c : Nat) : Bool := c = 32 || c = 9 || c = 10 || c = 11 || c = 12 || c = 13

def isDigitByte (c : Nat) : Bool := 48 ≤ c && c ≤ 57

/-- `std::getline(stream, line)`: the characters before the first newline. -/
def lineOf (s : List Nat) : List Nat := s.takeWhile (fun c => c != 10)

/-- The stream contents after that line (newline consumed). -/
def restOf (s : List Nat) : List Nat := (s.dropWhile (fun c => c != 10)).drop 1

/-- `stream >> tok` for a `std::string`: skip whitespace, read to the next
whitespace; `none` when the stream is exhausted (extraction fails). -/
def extractTok (s : List Nat) : Option (List Nat) × List Nat :=
  let s1 := s.dropWhile isWSByte
  let t := s1.takeWhile (fun c => !isWSByte c)
  if t = [] then (none, s1) else (some t, s1.drop t.length)

/-- `stream >> c` for a `char`: skip whitespace, read one character. -/
def extractChar (s : List Nat) : Option Nat × List Nat :=
  match s.dropWhile isWSByte with
  | [] => (none, [])
  | c :: rest => (some c, rest)

def digitsToNat (ds : List Nat) : Nat := ds.foldl (fun acc d => acc * 10 + (d - 48)) 0

/-- `stream >> v` for an `int`: skip whitespace, optional sign, decimal
digits; fails (`none`) when no digit follows.  Numeric overflow of the C
`int` is not modelled (no claim exercises it). -/
def extractInt (s : List Nat) : Option Int × List Nat :=
  let s1 := s.dropWhile isWSByte
  let neg := s1.head? = some 45
  let s2 := if s1.head? = some 45 ∨ s1.head? = some 43 then s1.tail else s1
  let ds := s2.takeWhile isDigitByte
  if ds = [] then (none, s2)
  else if neg then (some (-(digitsToNat ds : Int)), s2.drop ds.length)
  else (some ((digitsToNat ds : Int)), s2.drop ds.length)

theorem length_takeWhile_le (p : Nat → Bool) :
    ∀ l : List Nat, (l.takeWhile p).length ≤ l.length
  | [] => by simp
  | a :: l => by
    rw [List.takeWhile_cons]
    by_cases h : p a
    · rw [if_pos h]
      simpa using length_takeWhile_le p l
    · rw [if_neg h]
      simp

theorem length_dropWhile_le (p : Nat → Bool) :
    ∀ l : List Nat, (l.dropWhile p).length ≤ l.length
  | [] => by simp
  | a :: l => by
    rw [List.dropWhile_cons]
    by_cases h : p a
    · rw [if_pos h]
      have := length_dropWhile_le p l
      simp only [List.length_cons]
      omega
    · rw [if_neg h]

theorem extractTok_some_length {s t rest} (h : extractTok s = (some t, rest)) :
    rest.length < s.length := by
  rw [extractTok] at h
  by_cases h0 : (s.dropWhile isWSByte).takeWhile (fun c => !isWSByte c) = []
  · rw [if_pos h0] at h
    cases h
  · rw [if_neg h0] at h
    cases h
    have h1 : (s.dropWhile isWSByte).length ≤ s.length := length_dropWhile_le _ s
    have h2 : 0 < ((s.dropWhile isWSByte).takeWhile (fun c => !isWSByte c)).length := by
      cases hx : (s.dropWhile isWSByte).takeWhile (fun c => !isWSByte c) with
      | nil => exact absurd hx h0
      | cons a l => simp [hx]
    have h3 : ((s.dropWhile isWSByte).takeWhile (fun c => !isWSByte c)).length
        ≤ (s.dropWhile isWSByte).length := length_takeWhile_le _ _
    simp only [List.length_drop]
    omega

theorem extractInt_some_length {s v rest} (h : extractInt s = (some v, rest)) :
    rest.length < s.length := by
  rw [extractInt] at h
  set s1 := s.dropWhile isWSByte with hs1
  set s2 := if s1.head? = some 45 ∨ s1.head? = some 43 then s1.tail else s1 with hs2
  have h1 : s1.length ≤ s.length := length_dropWhile_le _ s
  have h2 : s2.length ≤ s1.length := by
    rw [hs2]
    by_cases hc : s1.head? = some 45 ∨ s1.head? = some 43
    · rw [if_pos hc]
      cases s1 with
      | nil => simp
      | cons a l => simp
    · rw [if_neg hc]
  by_cases h0 : s2.takeWhile isDigitByte = []
  · rw [if_pos h0] at h
    cases h
  · rw [if_neg h0] at h
    have h3 : 0 < (s2.takeWhile isDigitByte).length := by
      cases hx : s2.takeWhile isDigitByte with
      | nil => exact absurd hx h0
      | cons a l => simp [hx]
    have h4 : (s2.takeWhile isDigitByte).length ≤ s2.length := length_takeWhile_le _ _
    by_cases hns : s1.head? = some 45
    · rw [if_pos hns] at h
      cases h
      simp only [List.length_drop]
      omega
    · rw [if_neg hns] at h
      cases h
      simp only [List.length_drop]
      omega

theorem extractChar_some_length {s c rest} (h : extractChar s = (some c, rest)) :
    rest.length < s.length := by
  rw [extractChar] at h
  revert h
  cases hs : s.dropWhile isWSByte with
  | nil => intro h; cases h
  | cons a l =>
    intro h
    cases h
    have h1 : (s.dropWhile isWSByte).length ≤ s.length := length_dropWhile_le _ s
    rw [hs] at h1
    simp only [List.length_cons] at h1
    omega

theorem restOf_length_lt {s : List Nat} (h : s ≠ []) : (restOf s).length < s.length := by
  rw [restOf]
  have h1 : (s.dropWhile (fun c => c != 10)).length ≤ s.length :=
    length_dropWhile_le _ s
  cases hs : s.dropWhile (fun c => c != 10) with
  | nil =>
    simp only [List.drop_nil, List.length_nil]
    cases s with
    | nil => exact absurd rfl h
    | cons a l => simp
  | cons a l =>
    rw [hs] at h1
    simp only [List.length_drop, List.length_cons] at *
    omega

/-! ## Header codec (PCDParser::parseHeader) -/

/-- `while (iss >> field)` collecting `std::string` tokens. -/
def readTokensLoop (s : List Nat) : List (List Nat) :=
  match h : extractTok s with
  | (none, _) => []
  | (some t, rest) => t :: readTokensLoop rest
termination_by s.length
decreasing_by exact extractTok_some_length h

/-- `while (iss >> v)` collecting `int`s. -/
def readIntsLoop (s : List Nat) : List Int :=
  match h : extractInt s with
  | (none, _) => []
  | (some v, rest) => v :: readIntsLoop rest
termination_by s.length
decreasing_by exact extractInt_some_length h

/-- `while (iss >> t)` collecting `char`s. -/
def readCharsLoop (s : List Nat) : List Nat :=
  match h : extractChar s with
  | (none, _) => []
  | (some c, rest) => c :: readCharsLoop rest
termination_by s.length
decreasing_by exact extractChar_some_length h

/-- `iss >> header.version` / `iss >> header.dataType` for strings: the value
is replaced only when a token can be extracted. -/
def readTokOr (s : List Nat) (old : List Nat) : List Nat :=
  match (extractTok s).1 with
  | some t => t
  | none => old

/-- `iss >> header.width` for ints: on C++11 extraction failure the value is
set to 0, except when the sentry already fails on an exhausted stream, in
which case the variable is untouched. -/
def readIntOr (s : List Nat) (old : Int) : Int :=
  if s.dropWhile isWSByte = [] then old
  else
    match (extractInt s).1 with
    | some v => v
    | none => 0

/-- The local accumulators of `parseHeader` (`fieldNames`, `sizes`, `types`,
`counts`) alongside the partially filled header. -/
structure HeaderScan where
  header : PCDHeader
  fieldNames : List (List Nat)
  sizes : List Int
  types : List Nat
  counts : List Int
deriving DecidableEq, Repr

/-- `VIEWPOINT`: `std::getline(iss, header.viewpoint)` on the line remainder,
stripping one leading space; extraction failure (empty remainder) leaves the
value untouched. -/
def readViewpoint (lr : List Nat) (old : List Nat) : List Nat :=
  if lr = [] then old
  else
    match lr with
    | 32 :: v => v
    | v => v

/-- The `while (std::getline(stream, line))` loop of `PCDParser::parseHeader`:
skips blank and `#` lines, dispatches on the first token of each line, and
stops after a `DATA` line (returning the unread remainder of the stream)
or at end of stream. -/
def parseHeaderLoop (s : List Nat) (st : HeaderScan) : HeaderScan × List Nat :=
  match hs : s with
  | [] => (st, [])
  | _ :: _ =>
    let line := lineOf s
    let rest := restOf s
    if line = [] || line.head? = some 35 then parseHeaderLoop rest st
    else
      match extractTok line with
      | (none, _) => parseHeaderLoop rest st
      | (some key, lr) =>
        if key = strBytes ("VERSION") then
          parseHeaderLoop rest
            { st with header := { st.header with version := readTokOr lr st.header.version } }
        else if key = strBytes ("FIELDS") then
          parseHeaderLoop rest { st with fieldNames := st.fieldNames ++ readTokensLoop lr }
        else if key = strBytes ("SIZE") then
          parseHeaderLoop rest { st with sizes := st.sizes ++ readIntsLoop lr }
        else if key = strBytes ("TYPE") then
          parseHeaderLoop rest { st with types := st.types ++ readCharsLoop lr }
        else if key = strBytes ("COUNT") then
          parseHeaderLoop rest { st with counts := st.counts ++ readIntsLoop lr }
        else if key = strBytes ("WIDTH") then
          parseHeaderLoop rest
            { st with header := { st.header with width := readIntOr lr st.header.width } }
        else if key = strBytes ("HEIGHT") then
          parseHeaderLoop rest
            { st with header := { st.header with height := readIntOr lr st.header.height } }
        else if key = strBytes ("VIEWPOINT") then
          parseHeaderLoop rest
            { st with header :=
                { st.header with viewpoint := readViewpoint lr st.header.viewpoint } }
        else if key = strBytes ("POINTS") then
          parseHeaderLoop rest
            { st with header := { st.header with points := readIntOr lr st.header.points } }
        else if key = strBytes ("DATA") then
          ({ st with header := { st.header with dataType := readTokOr lr st.header.dataType } },
            rest)
        else parseHeaderLoop rest st
termination_by s.length
decreasing_by all_goals (rw [← hs]; exact restOf_length_lt (by rw [hs]; simp))

/-- Build the `FieldInfo` list from the four accumulators with the per-index
defaults (`size 4`, `type F`, `count 1`). -/
def buildFields (st : HeaderScan) : List FieldInfo :=
  (List.range st.fieldNames.length).map fun i =>
    ⟨st.fieldNames.getD i [], st.sizes.getD i 4, st.types.getD i 70, st.counts.getD i 1⟩

/-- `PCDParser::parseHeader`: returns the header and the unread remainder of
the stream (the payload). -/
def parseHeader (s : List Nat) : PCDHeader × List Nat :=
  let (st, rest) := parseHeaderLoop s ⟨{}, [], [], [], []⟩
  ({ st.header with fields := buildFields st }, rest)

/-! ## Ascii payload decoder (PCDParser::parseAsciiData)

`std::stoi` / `std::stol` / `std::stoul` are modelled on the token bytes:
optional whitespace and sign, then decimal digits, ignoring trailing
characters; `none` models the thrown exception (`invalid_argument` when no
digit is present, `out_of_range` when the value does not fit the result
type).  `std::stof`/`std::stod` and the float output formatting are IEEE-754
text conversions that have no shallow embedding; they are abstracted as the
`FloatIO` parameter (a function from token bytes to the float's bit pattern
and back), and every theorem about the ascii codec is proved for **all**
instantiations satisfying the stated well-formedness facts. -/

/-- Sign-and-digits scan shared by the `strtol`-family models: the parsed
magnitude and sign, or `none` if no digit is found. -/
def numFromTok (tok : List Nat) : Option (Bool × Nat) :=
  let s1 := tok.dropWhile isWSByte
  let neg := s1.head? = some 45
  let s2 := if s1.head? = some 45 ∨ s1.head? = some 43 then s1.tail else s1
  let ds := s2.takeWhile isDigitByte
  if ds = [] then none else some (neg, digitsToNat ds)

/-- `std::stoi`: result must fit in `int`. -/
def stoiTok (tok : List Nat) : Option Int :=
  match numFromTok tok with
  | none => none
  | some (neg, n) =>
    let v : Int := if neg then -(n : Int) else (n : Int)
    if v < -(2 ^ 31) ∨ (2 ^ 31 - 1 : Int) < v then none else some v

/-- `std::stol`: result must fit in `long` (64-bit). -/
def stolTok (tok : List Nat) : Option Int :=
  match numFromTok tok with
  | none => none
  | some (neg, n) =>
    let v : Int := if neg then -(n : Int) else (n : Int)
    if v < -(2 ^ 63) ∨ (2 ^ 63 - 1 : Int) < v then none else some v

/-- `std::stoul`: 64-bit `unsigned long`; an in-range negated magnitude wraps
modulo `2^64`, a magnitude above `ULONG_MAX` throws. -/
def stoulTok (tok : List Nat) : Option Nat :=
  match numFromTok tok with
  | none => none
  | some (neg, n) =>
    if 2 ^ 64 - 1 < n then none
    else some (if neg then (2 ^ 64 - n) % 2 ^ 64 else n)

/-- Abstract IEEE-754 text conversions (see the section comment). -/
structure FloatIO where
  stof : List Nat → Option Nat
  stod : List Nat → Option Nat
  print32 : Nat → List Nat
  print64 : Nat → List Nat

/-- One `try { switch (field.type) ... } catch { push default }` step of the
ascii row loop: parse `tok` for field `f` and push into column `c`.
Unmapped `(type, size)` combinations attempt no parse and push nothing. -/
def asciiProcessTok (fio : FloatIO) (f : FieldInfo) (c : Column) (tok : List Nat) :
    Column :=
  if f.type = 73 then
    if f.size = 1 then
      match stoiTok tok with
      | some v => pushValue .i8 (Int.toNat (v % 256)) c
      | none => pushDefault c
    else if f.size = 2 then
      match stoiTok tok with
      | some v => pushValue .i16 (Int.toNat (v % 65536)) c
      | none => pushDefault c
    else if f.size = 4 then
      match stolTok tok with
      | some v => pushValue .i32 (Int.toNat (v % 4294967296)) c
      | none => pushDefault c
    else c
  else if f.type = 85 then
    if f.size = 1 then
      match stoulTok tok with
      | some v => pushValue .u8 (v % 256) c
      | none => pushDefault c
    else if f.size = 2 then
      match stoulTok tok with
      | some v => pushValue .u16 (v % 65536) c
      | none => pushDefault c
    else if f.size = 4 then
      match stoulTok tok with
      | some v => pushValue .u32 (v % 4294967296) c
      | none => pushDefault c
    else c
  else if f.type = 70 then
    if f.size = 4 then
      match fio.stof tok with
      | some p => pushValue .f32 p c
      | none => pushDefault c
    else if f.size = 8 then
      match fio.stod tok with
      | some p => pushValue .f64 p c
      | none => pushDefault c
    else c
  else c

/-- The `for (i = 0; i < fields.size; i++) { if (!(iss >> token)) break; ... }`
row loop; columns are walked in lock step with the fields.  The
`cons, nil` case is unreachable (`fieldData` has one column per field). -/
def parseAsciiRow (fio : FloatIO) :
    List FieldInfo → List Column → List Nat → List Column
  | [], cols, _ => cols
  | _ :: _, [], _ => []
  | f :: fs, c :: cs, s =>
    match extractTok s with
    | (none, _) => c :: cs
    | (some tok, rest) => asciiProcessTok fio f c tok :: parseAsciiRow fio fs cs rest

/-- The `while (std::getline(stream, line))` loop: empty lines are skipped,
each other line is one row. -/
def parseAsciiLines (fio : FloatIO) (fields : List FieldInfo) :
    List Column → List Nat → List Column
  | cols, s =>
    match hs : s with
    | [] => cols
    | _ :: _ =>
      if lineOf s = [] then parseAsciiLines fio fields cols (restOf s)
      else parseAsciiLines fio fields (parseAsciiRow fio fields cols (lineOf s)) (restOf s)
termination_by _ s => s.length
decreasing_by
  all_goals (rw [← hs]; exact restOf_length_lt (by rw [hs]; simp))

/-- `PCDParser::parseAsciiData`: fresh `createStorage` columns, then the line
loop.  (The `reserve` calls of the source have no observable effect.) -/
def parseAsciiData (fio : FloatIO) (hdr : PCDHeader) (payload : List Nat) :
    List Column :=
  parseAsciiLines fio hdr.fields (hdr.fields.map FieldInfo.createStorage) payload

/-! ## Binary payload decoder (PCDParser::parseBinaryData) -/

/-- Little-endian value of the first `w` bytes (the `memcpy(&v, p, w)` read on
a little-endian machine); missing bytes read as 0. -/
def leVal : Nat → List Nat → Nat
  | 0, _ => 0
  | w + 1, bs => bs.headD 0 + 256 * leVal w bs.tail

/-- Little-endian bytes of a `w`-byte value (the `stream.write(p, w)` /
`memcpy(dst, &v, w)` write on a little-endian machine). -/
def leBytes : Nat → Nat → List Nat
  | 0, _ => []
  | w + 1, v => v % 256 :: leBytes w (v / 256)

/-- One `switch (field.type) / switch (field.size)` read of
`parseBinaryData` (also the identical switch of `parseBinaryCompressedData`):
read the field's value at byte offset `offset` of `buf` and push it. -/
def binReadField (f : FieldInfo) (c : Column) (buf : List Nat) (offset : Nat) :
    Column :=
  if f.type = 73 then
    if f.size = 1 then pushValue .i8 (leVal 1 (buf.drop offset)) c
    else if f.size = 2 then pushValue .i16 (leVal 2 (buf.drop offset)) c
    else if f.size = 4 then pushValue .i32 (leVal 4 (buf.drop offset)) c
    else c
  else if f.type = 85 then
    if f.size = 1 then pushValue .u8 (leVal 1 (buf.drop offset)) c
    else if f.size = 2 then pushValue .u16 (leVal 2 (buf.drop offset)) c
    else if f.size = 4 then pushValue .u32 (leVal 4 (buf.drop offset)) c
    else c
  else if f.type = 70 then
    if f.size = 4 then pushValue .f32 (leVal 4 (buf.drop offset)) c
    else if f.size = 8 then pushValue .f64 (leVal 8 (buf.drop offset)) c
    else c
  else c

/-- The inner field loop of `parseBinaryData` over one point buffer, with
`offset += field.size * field.count`.  (Negative `size`/`count`, which would
be pointer UB in the source, clamp to 0 via `Int.toNat`.) -/
def binRowLoop : List FieldInfo → List Column → List Nat → Nat → List Column
  | [], cols, _, _ => cols
  | _ :: _, [], _, _ => []
  | f :: fs, c :: cs, buf, offset =>
    binReadField f c buf offset :: binRowLoop fs cs buf (offset + (f.size * f.count).toNat)

/-- The `for (pt = 0; pt < header.points; pt++)` loop: read `pointSize` bytes
per point; a short read (`if (!stream) break`) stops decoding silently. -/
def parseBinaryLoop (fields : List FieldInfo) (pointSize : Nat) :
    Nat → List Column → List Nat → List Column
  | 0, cols, _ => cols
  | n + 1, cols, s =>
    if s.length < pointSize then cols
    else parseBinaryLoop fields pointSize n
      (binRowLoop fields cols (s.take pointSize) 0) (s.drop pointSize)

def parseBinaryData (hdr : PCDHeader) (payload : List Nat) : List Column :=
  parseBinaryLoop hdr.fields hdr.getPointSize.toNat hdr.points.toNat
    (hdr.fields.map FieldInfo.createStorage) payload

/-! ## Compressed payload decoder (PCDParser::parseBinaryCompressedData) -/

/-- Per-field inner loop of the field-major read:
`fieldOffset = pt * field.size * field.count` within the field's block. -/
def fmReadFieldLoop (f : FieldInfo) (data : List Nat) (base : Nat) :
    Nat → Nat → Column → Column
  | 0, _, c => c
  | n + 1, pt, c =>
    fmReadFieldLoop f data base n (pt + 1)
      (binReadField f c data (base + pt * (f.size * f.count).toNat))

/-- Outer loop over the fields, with the running block offsets
`offset += field.size * field.count * header.points`. -/
def fmLoop (data : List Nat) (npts : Nat) :
    List FieldInfo → List Column → Nat → List Column
  | [], _, _ => []
  | _ :: _, [], _ => []
  | f :: fs, c :: cs, offset =>
    fmReadFieldLoop f data offset npts 0 c ::
      fmLoop data npts fs cs (offset + (f.size * f.count).toNat * npts)

/-- `PCDParser::parseBinaryCompressedData`: the two `u32` length prefixes, the
compressed block, LZF decompression with the
`actualSize == 0 || actualSize != uncompressedSize` check (`none` = thrown
`std::runtime_error`), then the field-major read.  The `.oobRead` outcome of
the decompressor is undefined behaviour in the source; it is mapped to
failure here and never reached by the theorems below. -/
def parseBinaryCompressedData (hdr : PCDHeader) (payload : List Nat) :
    Option (List Column) :=
  if payload.length < 8 then none
  else
    let compressedSize := leVal 4 payload
    let uncompressedSize := leVal 4 (payload.drop 4)
    let rest := payload.drop 8
    if rest.length < compressedSize then none
    else
      match lzfDecompress (rest.take compressedSize) uncompressedSize with
      | .ok out =>
        if out.length = 0 ∨ out.length ≠ uncompressedSize then none
        else some (fmLoop out hdr.points.toNat hdr.fields
          (hdr.fields.map FieldInfo.createStorage) 0)
      | .err => none
      | .oobRead => none

/-! ## File orchestrator: parse (PCDParser::parse)

The file contents stand in for the path; "cannot open" is outside the model.
`none` is a thrown `std::runtime_error`. -/

def parse (fio : FloatIO) (file : List Nat) : Option PCDData :=
  let (hdr, payload) := parseHeader file
  if hdr.dataType = strBytes ("ascii") then
    some ⟨hdr, parseAsciiData fio hdr payload⟩
  else if hdr.dataType = strBytes ("binary") then
    some ⟨hdr, parseBinaryData hdr payload⟩
  else if hdr.dataType = strBytes ("binary_compressed") then
    match parseBinaryCompressedData hdr payload with
    | some cols => some ⟨hdr, cols⟩
    | none => none
  else none

/-! ## Decimal printing (operator<< for integers) -/

def natToDecAux (fuel : Nat) (n : Nat) : List Nat :=
  match fuel with
  | 0 => []
  | fuel + 1 => if n < 10 then [48 + n] else natToDecAux fuel (n / 10) ++ [48 + n % 10]

/-- Decimal digits of a natural number (`operator<<` for unsigned values). -/
def natToDec (n : Nat) : List Nat := natToDecAux (n + 1) n

/-- `operator<<` for a signed integer. -/
def intToDec (v : Int) : List Nat :=
  if v < 0 then 45 :: natToDec (-v).toNat else natToDec v.toNat

/-- Two's complement decode of a `w`-byte pattern
(`static_cast<int64_t>` of a signed element). -/
def toSigned (w : Nat) (p : Nat) : Int :=
  if p < 2 ^ (8 * w - 1) then (p : Int) else (p : Int) - 2 ^ (8 * w)

/-! ## Payload encoders (PCDParser::writeAscii / writeBinary /
writeBinaryCompressed) -/

/-- The token printed for one value of one column in `writeAscii`
(`std::visit` body): nothing at all when `pt` is out of range, decimal of
`static_cast<int64_t>(vec[pt])` for the integer alternatives, the abstract
float formatting (`defaultfloat`, `setprecision(9)`) for the float ones. -/
def asciiValTok (fio : FloatIO) (c : Column) (pt : Nat) : List Nat :=
  if pt < c.vals.length then
    match c.kind with
    | .i8 => intToDec (toSigned 1 (c.vals.getD pt 0))
    | .i16 => intToDec (toSigned 2 (c.vals.getD pt 0))
    | .i32 => intToDec (toSigned 4 (c.vals.getD pt 0))
    | .u8 => intToDec ((c.vals.getD pt 0 : Int))
    | .u16 => intToDec ((c.vals.getD pt 0 : Int))
    | .u32 => intToDec ((c.vals.getD pt 0 : Int))
    | .f32 => fio.print32 (c.vals.getD pt 0)
    | .f64 => fio.print64 (c.vals.getD pt 0)
  else []

/-- One output line: `if (f > 0) stream << " ";` then the token. -/
def writeAsciiRow (fio : FloatIO) (cols : List Column) (pt : Nat) : List Nat :=
  match cols with
  | [] => []
  | c :: cs =>
    asciiValTok fio c pt ++ (cs.map (fun c2 => 32 :: asciiValTok fio c2 pt)).flatten

def writeAscii (fio : FloatIO) (d : PCDData) : List Nat :=
  ((List.range d.numPoints).map (fun pt => writeAsciiRow fio d.fieldData pt ++ [10])).flatten

/-- `writeBinary`: per point, per field, `sizeof(T)` raw bytes of the value
(skipped entirely when `pt` is out of range for that column). -/
def writeBinary (d : PCDData) : List Nat :=
  ((List.range d.numPoints).map (fun pt =>
    (d.fieldData.map (fun c =>
      if pt < c.vals.length then leBytes c.kind.width (c.vals.getD pt 0) else [])).flatten)).flatten

/-- One contiguous field buffer of `writeBinaryCompressed`: `resize` zero-fills
`sizeof(T) * numPoints` bytes, then values are copied for `pt < vec.size()`. -/
def fieldBuffer (c : Column) (n : Nat) : List Nat :=
  ((List.range n).map (fun pt =>
    if pt < c.vals.length then leBytes c.kind.width (c.vals.getD pt 0)
    else List.replicate c.kind.width 0)).flatten

/-- `writeBinaryCompressed`: concatenated field-major buffers, LZF-compressed
into a scratch buffer of `totalSize + totalSize/8 + 16` bytes, prefixed by the
two `u32` sizes (`static_cast<uint32_t>` truncation is the natural modular
behaviour of `leBytes 4`).  `none` models the thrown
`"LZF compression failed"`. -/
def writeBinaryCompressed (d : PCDData) : Option (List Nat) :=
  let uncompressed := (d.fieldData.map (fun c => fieldBuffer c d.numPoints)).flatten
  match lzfCompress uncompressed (uncompressed.length + uncompressed.length / 8 + 16) with
  | none => none
  | some compressed =>
    some (leBytes 4 compressed.length ++ leBytes 4 uncompressed.length ++ compressed)

/-! ## Color transcoder (unpackRGBForAscii / packRGBForBinary) -/

/-- The scan of `unpackRGBForAscii`: first field whose lower-cased name is
`rgb` with `TYPE F`, `SIZE 4` (the loop `break`s on the first hit). -/
def findRGBFieldAux : List FieldInfo → Nat → Option Nat
  | [], _ => none
  | f :: fs, i =>
    if lowerBytes f.name = strBytes ("rgb") ∧ f.type = 70 ∧ f.size = 4 then some i
    else findRGBFieldAux fs (i + 1)

/-- `unpackRGBForAscii`: replace the packed float `rgb` field by `r`,`g`,`b`
`uint8` fields extracted from the bit pattern (`0x00RRGGBB`); pass the cloud
through unchanged when no such field exists or its storage is not
`vector<float>` (`get_if` fails). -/
def unpackRGBForAscii (d : PCDData) : PCDData :=
  match findRGBFieldAux d.header.fields 0 with
  | none => d
  | some rgbIdx =>
    if (d.fieldData.getD rgbIdx ⟨.f32, []⟩).kind = .f32 then
      let rgbVals := (d.fieldData.getD rgbIdx ⟨.f32, []⟩).vals
      let rData := rgbVals.map (fun p => (p >>> 16) &&& 255)
      let gData := rgbVals.map (fun p => (p >>> 8) &&& 255)
      let bData := rgbVals.map (fun p => p &&& 255)
      { header := { d.header with fields :=
          (d.header.fields.take rgbIdx
            ++ [⟨strBytes ("r"), 1, 85, 1⟩, ⟨strBytes ("g"), 1, 85, 1⟩,
                ⟨strBytes ("b"), 1, 85, 1⟩]
            ++ d.header.fields.drop (rgbIdx + 1)) },
        fieldData :=
          (d.fieldData.take rgbIdx
            ++ [⟨.u8, rData⟩, ⟨.u8, gData⟩, ⟨.u8, bData⟩]
            ++ d.fieldData.drop (rgbIdx + 1)) }
    else d

/-- The scans of `packRGBForBinary`: the loop has no `break`, so the **last**
`uint8` field with the given lower-cased name wins. -/
def findLastU8 (nm : List Nat) (fields : List FieldInfo) : Option Nat :=
  fields.enum.foldl
    (fun acc x =>
      if lowerBytes x.2.name = nm ∧ x.2.type = 85 ∧ x.2.size = 1 then some x.1 else acc)
    none

/-- Field/column rebuild of `packRGBForBinary`: the packed `rgb` replaces the
field at `rIdx`; `gIdx`/`bIdx` are dropped; everything else is copied. -/
def packRebuildAux (rIdx gIdx bIdx : Nat) (rgbField : FieldInfo) (rgbCol : Column) :
    List (FieldInfo × Column) → Nat → List (FieldInfo × Column)
  | [], _ => []
  | (f, c) :: rest, i =>
    if i = rIdx then (rgbField, rgbCol) :: packRebuildAux rIdx gIdx bIdx rgbField rgbCol rest (i + 1)
    else if i = gIdx ∨ i = bIdx then packRebuildAux rIdx gIdx bIdx rgbField rgbCol rest (i + 1)
    else (f, c) :: packRebuildAux rIdx gIdx bIdx rgbField rgbCol rest (i + 1)

/-- `packRGBForBinary`: merge `uint8` fields `r`,`g`,`b` into one packed float
`rgb` field with bit pattern `(r<<16)|(g<<8)|b`; pass through unchanged when
any of the three fields or their `vector<uint8_t>` storages is missing. -/
def packRGBForBinary (d : PCDData) : PCDData :=
  match findLastU8 (strBytes ("r")) d.header.fields,
      findLastU8 (strBytes ("g")) d.header.fields,
      findLastU8 (strBytes ("b")) d.header.fields with
  | some rIdx, some gIdx, some bIdx =>
    if (d.fieldData.getD rIdx ⟨.u8, []⟩).kind = .u8 ∧
        (d.fieldData.getD gIdx ⟨.u8, []⟩).kind = .u8 ∧
        (d.fieldData.getD bIdx ⟨.u8, []⟩).kind = .u8 then
      let rVec := (d.fieldData.getD rIdx ⟨.u8, []⟩).vals
      let gVec := (d.fieldData.getD gIdx ⟨.u8, []⟩).vals
      let bVec := (d.fieldData.getD bIdx ⟨.u8, []⟩).vals
      let rgbVals := (List.range rVec.length).map (fun i =>
        ((rVec.getD i 0) <<< 16) ||| ((gVec.getD i 0) <<< 8) ||| (bVec.getD i 0))
      let rebuilt := packRebuildAux rIdx gIdx bIdx ⟨strBytes ("rgb"), 4, 70, 1⟩
        ⟨.f32, rgbVals⟩ (d.header.fields.zip d.fieldData) 0
      { header := { d.header with fields := rebuilt.map Prod.fst },
        fieldData := rebuilt.map Prod.snd }
    else d
  | _, _, _ => d

/-! ## File orchestrator: write / updateLabels / convertFormat -/

/-- The header text emitted by `PCDParser::write`: the canonical comment line,
the nine keys in fixed order, `WIDTH`/`POINTS` recomputed from
`numPoints()`, `HEIGHT 1` fixed. -/
def writeHeaderBytes (od : PCDData) (format : List Nat) : List Nat :=
  strBytes ("# .PCD v0.7 - Point Cloud Data file format
")
    ++ strBytes ("VERSION ") ++ od.header.version ++ [10]
    ++ strBytes ("FIELDS") ++ (od.header.fields.map (fun f => 32 :: f.name)).flatten ++ [10]
    ++ strBytes ("SIZE") ++ (od.header.fields.map (fun f => 32 :: intToDec f.size)).flatten ++ [10]
    ++ strBytes ("TYPE") ++ (od.header.fields.map (fun f => [32, f.type])).flatten ++ [10]
    ++ strBytes ("COUNT") ++ (od.header.fields.map (fun f => 32 :: intToDec f.count)).flatten ++ [10]
    ++ strBytes ("WIDTH ") ++ natToDec od.numPoints ++ [10]
    ++ strBytes ("HEIGHT 1
")
    ++ strBytes ("VIEWPOINT ") ++ od.header.viewpoint ++ [10]
    ++ strBytes ("POINTS ") ++ natToDec od.numPoints ++ [10]
    ++ strBytes ("DATA ") ++ format ++ [10]

/-- `PCDParser::write(path, data, format)`: the color transform selected by
the target format, then header and payload.  The result is the file contents;
`none` is a thrown error (compression failure). -/
def writeFile (fio : FloatIO) (d : PCDData) (format : List Nat) : Option (List Nat) :=
  let isBinary := format = strBytes ("binary") ∨ format = strBytes ("binary_compressed")
  let od := if isBinary then packRGBForBinary d else unpackRGBForAscii d
  if format = strBytes ("binary_compressed") then
    match writeBinaryCompressed od with
    | none => none
    | some payload => some (writeHeaderBytes od format ++ payload)
  else if format = strBytes ("binary") then
    some (writeHeaderBytes od format ++ writeBinary od)
  else some (writeHeaderBytes od format ++ writeAscii fio od)

/-- `PCDParser::updateLabelsWithFormat`: parse, `setLabels`, rewrite with the
explicit format or (when it is empty) the originally parsed one. -/
def updateLabelsWithFormat (fio : FloatIO) (file labels format : List Nat) :
    Option (List Nat) :=
  match parse fio file with
  | none => none
  | some d =>
    let d2 := d.setLabels labels
    writeFile fio d2 (if format = [] then d2.header.dataType else format)

/-- `PCDParser::updateLabels` delegates with an empty format string. -/
def updateLabels (fio : FloatIO) (file labels : List Nat) : Option (List Nat) :=
  updateLabelsWithFormat fio file labels []

/-- `PCDParser::convertFormat`. -/
def convertFormat (fio : FloatIO) (file format : List Nat) : Option (List Nat) :=
  match parse fio file with
  | none => none
  | some d => writeFile fio d format

/-! ## Read-only views (pcd_parser.h: getFieldAsFloat, getPositions, getRGB)

`static_cast<float>(v)` on column elements is a float conversion with no
shallow embedding; the views are parameterised by an abstract cast
`castQ : ColKind → Nat → ℚ` from an element's bit pattern to the rational
value of the resulting float, and the view theorems hold for every cast. -/

/-- `PCDData::getFieldAsFloat`: the column converted element-wise, `[]` for an
out-of-range index. -/
def PCDData.getFieldAsFloat (castQ : ColKind → Nat → ℚ) (d : PCDData) (idx : Nat) :
    List ℚ :=
  if idx < d.fieldData.length then
    (d.fieldData.getD idx ⟨.f32, []⟩).vals.map
      (castQ (d.fieldData.getD idx ⟨.f32, []⟩).kind)
  else []

/-- `PCDData::getPositions`: interleaved x,y,z triples over
`n = min(x.size, y.size, z.size)`; empty when any of the three fields is
missing. -/
def PCDData.getPositions (castQ : ColKind → Nat → ℚ) (d : PCDData) : List ℚ :=
  match d.header.findField (strBytes ("x")), d.header.findField (strBytes ("y")),
      d.header.findField (strBytes ("z")) with
  | some xi, some yi, some zi =>
    let xData := d.getFieldAsFloat castQ xi
    let yData := d.getFieldAsFloat castQ yi
    let zData := d.getFieldAsFloat castQ zi
    let n := min (min xData.length yData.length) zData.length
    ((List.range n).map (fun i =>
      [xData.getD i 0, yData.getD i 0, zData.getD i 0])).flatten
  | _, _, _ => []

/-- `PCDData::getRGB`.  The separate-channel branch samples
`i < min(n, rData.size())` for the 0-255 versus 0-1 range scan (the source
indexes `gData[i]`/`bData[i]` there without their own bounds check, which for
misaligned columns is an out-of-bounds read; it is modelled by the
0-defaulting `getD`).  The packed branch extracts the `0x00RRGGBB` channels
of the stored bit pattern directly. -/
def PCDData.getRGB (castQ : ColKind → Nat → ℚ) (d : PCDData) : List ℚ :=
  let n := d.numPoints
  if n = 0 then []
  else
    match d.header.findField (strBytes ("r")), d.header.findField (strBytes ("g")),
        d.header.findField (strBytes ("b")) with
    | some ri, some gi, some bi =>
      let rData := d.getFieldAsFloat castQ ri
      let gData := d.getFieldAsFloat castQ gi
      let bData := d.getFieldAsFloat castQ bi
      let maxVal := (List.range (min n rData.length)).foldl
        (fun acc i => max acc (max (rData.getD i 0) (max (gData.getD i 0) (bData.getD i 0)))) 0
      let scale : ℚ := if 1 < maxVal then 1 / 255 else 1
      ((List.range n).map (fun i =>
        [(if i < rData.length then rData.getD i 0 else 0) * scale,
         (if i < gData.length then gData.getD i 0 else 0) * scale,
         (if i < bData.length then bData.getD i 0 else 0) * scale])).flatten
    | _, _, _ =>
      match (match d.header.findField (strBytes ("rgb")) with
        | some k => some k
        | none => d.header.findField (strBytes ("rgba"))) with
      | none => []
      | some k =>
        let f := d.header.fields.getD k ⟨[], 0, 0, 0⟩
        let fd := d.fieldData.getD k ⟨.f32, []⟩
        if f.type = 70 ∧ f.size = 4 then
          if fd.kind = .f32 then
            ((List.range n).map (fun i =>
              if i < fd.vals.length then
                [(((fd.vals.getD i 0 >>> 16) &&& 255 : Nat) : ℚ) / 255,
                 (((fd.vals.getD i 0 >>> 8) &&& 255 : Nat) : ℚ) / 255,
                 (((fd.vals.getD i 0) &&& 255 : Nat) : ℚ) / 255]
              else [0, 0, 0])).flatten
          else []
        else if f.type = 85 ∧ f.size = 4 then
          if fd.kind = .u32 then
            ((List.range n).map (fun i =>
              if i < fd.vals.length then
                [(((fd.vals.getD i 0 >>> 16) &&& 255 : Nat) : ℚ) / 255,
                 (((fd.vals.getD i 0 >>> 8) &&& 255 : Nat) : ℚ) / 255,
                 (((fd.vals.getD i 0) &&& 255 : Nat) : ℚ) / 255]
              else [0, 0, 0])).flatten
          else []
        else []

/-- `PCDData::hasRGB`. -/
def PCDData.hasRGB (d : PCDData) : Bool :=
  if (d.header.findField (strBytes ("r"))).isSome ∧
      (d.header.findField (strBytes ("g"))).isSome ∧
      (d.header.findField (strBytes ("b"))).isSome then true
  else
    match (match d.header.findField (strBytes ("rgb")) with
      | some k => some k
      | none => d.header.findField (strBytes ("rgba"))) with
    | none => false
    | some k =>
      if k < d.header.fields.length then
        let f := d.header.fields.getD k ⟨[], 0, 0, 0⟩
        (f.type = 70 ∧ f.size = 4) ∨ (f.type = 85 ∧ f.size = 4)
      else false

/-! ## Claim C10 (positions view) -/

theorem flatten_blocks_length (g : Nat → List ℚ) (hg : ∀ i, (g i).length = 3) :
    ∀ n, (((List.range n).map g).flatten).length = 3 * n := by
  intro n
  induction n with
  | zero => simp
  | succ n IH =>
    rw [List.range_succ]
    simp only [List.map_append, List.flatten_append, List.map_cons, List.map_nil,
      List.flatten_cons, List.flatten_nil, List.append_nil, List.length_append, IH, hg n]
    omega

theorem flatten_blocks_getD (g : Nat → List ℚ) (hg : ∀ i, (g i).length = 3) :
    ∀ n i j, i < n → j < 3 →
      (((List.range n).map g).flatten).getD (3 * i + j) 0 = (g i).getD j 0 := by
  intro n
  induction n with
  | zero =>
    intro i j h
    omega
  | succ n IH =>
    intro i j hi hj
    rw [List.range_succ]
    simp only [List.map_append, List.flatten_append, List.map_cons, List.map_nil,
      List.flatten_cons, List.flatten_nil, List.append_nil]
    by_cases hin : i < n
    · rw [List.getD_append _ _ _ _ (by rw [flatten_blocks_length g hg n]; omega)]
      exact IH i j hin hj
    · have hieq : i = n := by omega
      rw [List.getD_append_right _ _ _ _ (by rw [flatten_blocks_length g hg n]; omega)]
      rw [flatten_blocks_length g hg n, hieq]
      congr 1
      omega

theorem getD_map_cast (castQ : ColKind → Nat → ℚ) (k : ColKind) (l : List Nat)
    (i : Nat) (h : i < l.length) :
    (l.map (castQ k)).getD i 0 = castQ k (l.getD i 0) := by
  rw [List.getD_eq_getElem _ _ (by simpa using h), List.getD_eq_getElem _ _ h]
  simp

theorem findFieldAux_lt (target : List Nat) :
    ∀ (fields : List FieldInfo) (i k : Nat),
      findFieldAux target fields i = some k → k < i + fields.length
  | [], _, _, h => by cases h
  | f :: fs, i, k, h => by
    rw [findFieldAux] at h
    by_cases hm : lowerBytes f.name = lowerBytes target
    · rw [if_pos hm] at h
      injection h with h2
      simp only [List.length_cons]
      omega
    · rw [if_neg hm] at h
      have := findFieldAux_lt target fs (i + 1) k h
      simp only [List.length_cons]
      omega

theorem findField_lt {h : PCDHeader} {nm : List Nat} {k : Nat}
    (hf : h.findField nm = some k) : k < h.fields.length := by
  have := findFieldAux_lt nm h.fields 0 k hf
  omega

/-- C10: when `x`, `y`, `z` all resolve, `getPositions` returns `3·n` values
with `n` the minimum of the three columns' lengths, triple `i` being the
float casts of `x[i], y[i], z[i]`; when any of the three is missing it
returns `[]`.  Unequal column lengths only shorten `n` — there is no failure
path. -/
theorem c10_getPositions_spec (castQ : ColKind → Nat → ℚ) (d : PCDData)
    (hwf : d.header.fields.length = d.fieldData.length) :
    ((d.header.findField (strBytes ("x")) = none ∨
      d.header.findField (strBytes ("y")) = none ∨
      d.header.findField (strBytes ("z")) = none) →
        d.getPositions castQ = []) ∧
    (∀ xi yi zi, d.header.findField (strBytes ("x")) = some xi →
      d.header.findField (strBytes ("y")) = some yi →
      d.header.findField (strBytes ("z")) = some zi →
      (d.getPositions castQ).length
          = 3 * min (min (d.fieldData.getD xi ⟨.f32, []⟩).vals.length
              (d.fieldData.getD yi ⟨.f32, []⟩).vals.length)
              (d.fieldData.getD zi ⟨.f32, []⟩).vals.length ∧
      ∀ i, i < min (min (d.fieldData.getD xi ⟨.f32, []⟩).vals.length
              (d.fieldData.getD yi ⟨.f32, []⟩).vals.length)
              (d.fieldData.getD zi ⟨.f32, []⟩).vals.length →
        (d.getPositions castQ).getD (3 * i) 0
            = castQ (d.fieldData.getD xi ⟨.f32, []⟩).kind
                ((d.fieldData.getD xi ⟨.f32, []⟩).vals.getD i 0) ∧
        (d.getPositions castQ).getD (3 * i + 1) 0
            = castQ (d.fieldData.getD yi ⟨.f32, []⟩).kind
                ((d.fieldData.getD yi ⟨.f32, []⟩).vals.getD i 0) ∧
        (d.getPositions castQ).getD (3 * i + 2) 0
            = castQ (d.fieldData.getD zi ⟨.f32, []⟩).kind
                ((d.fieldData.getD zi ⟨.f32, []⟩).vals.getD i 0)) := by
  constructor
  · intro habs
    rw [PCDData.getPositions]
    cases hx : d.header.findField (strBytes ("x")) with
    | none => rfl
    | some xi =>
      cases hy : d.header.findField (strBytes ("y")) with
      | none => rfl
      | some yi =>
        cases hz : d.header.findField (strBytes ("z")) with
        | none => rfl
        | some zi =>
          rw [hx, hy, hz] at habs
          rcases habs with h | h | h <;> cases h
  · intro xi yi zi hx hy hz
    have hxl : xi < d.fieldData.length := by
      have := findField_lt hx
      omega
    have hyl : yi < d.fieldData.length := by
      have := findField_lt hy
      omega
    have hzl : zi < d.fieldData.length := by
      have := findField_lt hz
      omega
    rw [PCDData.getPositions, hx, hy, hz]
    simp only []
    rw [PCDData.getFieldAsFloat, if_pos hxl, PCDData.getFieldAsFloat, if_pos hyl,
      PCDData.getFieldAsFloat, if_pos hzl]
    set cx := d.fieldData.getD xi ⟨.f32, []⟩
    set cy := d.fieldData.getD yi ⟨.f32, []⟩
    set cz := d.fieldData.getD zi ⟨.f32, []⟩
    set n := min (min (cx.vals.map (castQ cx.kind)).length
      (cy.vals.map (castQ cy.kind)).length) (cz.vals.map (castQ cz.kind)).length with hn
    have hnn : n = min (min cx.vals.length cy.vals.length) cz.vals.length := by
      rw [hn]
      simp
    set g := fun i => [(cx.vals.map (castQ cx.kind)).getD i 0,
      (cy.vals.map (castQ cy.kind)).getD i 0,
      (cz.vals.map (castQ cz.kind)).getD i 0] with hgdef
    have hg : ∀ i, (g i).length = 3 := fun i => rfl
    constructor
    · rw [flatten_blocks_length g hg n, hnn]
    · intro i hi
      have hin : i < n := by
        rw [hnn]
        omega
      refine ⟨?_, ?_, ?_⟩
      · have := flatten_blocks_getD g hg n i 0 hin (by omega)
        simp only [Nat.add_zero] at this
        rw [this, hgdef]
        simp only [List.getD_cons_zero]
        exact getD_map_cast castQ cx.kind cx.vals i (by omega)
      · have := flatten_blocks_getD g hg n i 1 hin (by omega)
        rw [this, hgdef]
        simp only [List.getD_cons_succ, List.getD_cons_zero]
        exact getD_map_cast castQ cy.kind cy.vals i (by omega)
      · have := flatten_blocks_getD g hg n i 2 hin (by omega)
        rw [this, hgdef]
        simp only [List.getD_cons_succ, List.getD_cons_zero]
        exact getD_map_cast castQ cz.kind cz.vals i (by omega)

/-! ## Claim C8 (RGB view) -/

theorem foldl_max_le (f : Nat → ℚ) (c : ℚ) :
    ∀ (m : Nat) (a : ℚ), a ≤ c → (∀ i, i < m → f i ≤ c) →
      (List.range m).foldl (fun acc i => max acc (f i)) a ≤ c := by
  intro m
  induction m with
  | zero =>
    intro a ha _
    simpa using ha
  | succ m IH =>
    intro a ha h
    rw [List.range_succ, List.foldl_append]
    simp only [List.foldl_cons, List.foldl_nil]
    exact max_le (IH a ha (fun i hi => h i (by omega))) (h m (by omega))

theorem le_foldl_max (f : Nat → ℚ) :
    ∀ (m : Nat) (a : ℚ) (i : Nat), i < m →
      f i ≤ (List.range m).foldl (fun acc x => max acc (f x)) a := by
  intro m
  induction m with
  | zero =>
    intro a i hi
    omega
  | succ m IH =>
    intro a i hi
    rw [List.range_succ, List.foldl_append]
    simp only [List.foldl_cons, List.foldl_nil]
    by_cases him : i < m
    · exact le_trans (IH a i him) (le_max_left _ _)
    · have : i = m := by omega
      subst this
      exact le_max_right _ _

theorem mem_flatten_blocks {g : Nat → List ℚ} {n : Nat} {q : ℚ}
    (h : q ∈ ((List.range n).map g).flatten) : ∃ i, i < n ∧ q ∈ g i := by
  rw [List.mem_flatten] at h
  obtain ⟨l, hl, hq⟩ := h
  rw [List.mem_map] at hl
  obtain ⟨i, hi, rfl⟩ := hl
  rw [List.mem_range] at hi
  exact ⟨i, hi, hq⟩

theorem packedTriplesBounds (n : Nat) (vals : List Nat) (q : ℚ)
    (hq : q ∈ ((List.range n).map (fun i =>
      if i < vals.length then
        [(((vals.getD i 0 >>> 16) &&& 255 : Nat) : ℚ) / 255,
         (((vals.getD i 0 >>> 8) &&& 255 : Nat) : ℚ) / 255,
         (((vals.getD i 0) &&& 255 : Nat) : ℚ) / 255]
      else [0, 0, 0])).flatten) : 0 ≤ q ∧ q ≤ 1 := by
  have hdiv255 : ∀ k : Nat, k ≤ 255 → 0 ≤ (k : ℚ) / 255 ∧ (k : ℚ) / 255 ≤ 1 := by
    intro k hk
    constructor
    · positivity
    · rw [div_le_one (by norm_num : (0:ℚ) < 255)]
      exact_mod_cast hk
  obtain ⟨i, _, hqi⟩ := mem_flatten_blocks hq
  by_cases hi : i < vals.length
  · rw [if_pos hi] at hqi
    have hb1 : (vals.getD i 0 >>> 16) &&& 255 ≤ 255 := by
      rw [lzf_and255_eq]
      omega
    have hb2 : (vals.getD i 0 >>> 8) &&& 255 ≤ 255 := by
      rw [lzf_and255_eq]
      omega
    have hb3 : (vals.getD i 0) &&& 255 ≤ 255 := by
      rw [lzf_and255_eq]
      omega
    simp only [List.mem_cons, List.not_mem_nil, or_false] at hqi
    rcases hqi with rfl | rfl | rfl
    · exact hdiv255 _ hb1
    · exact hdiv255 _ hb2
    · exact hdiv255 _ hb3
  · rw [if_neg hi] at hqi
    simp only [List.mem_cons, List.not_mem_nil, or_false] at hqi
    rcases hqi with rfl | rfl | rfl <;> norm_num

theorem c8PackedCase (castQ : ColKind → Nat → ℚ) (d : PCDData) (q : ℚ)
    (hq : q ∈ (match (match d.header.findField (strBytes ("rgb")) with
        | some k => some k
        | none => d.header.findField (strBytes ("rgba"))) with
      | none => ([] : List ℚ)
      | some k =>
        let f := d.header.fields.getD k ⟨[], 0, 0, 0⟩
        let fd := d.fieldData.getD k ⟨.f32, []⟩
        if f.type = 70 ∧ f.size = 4 then
          if fd.kind = ColKind.f32 then
            ((List.range d.numPoints).map (fun i =>
              if i < fd.vals.length then
                [(((fd.vals.getD i 0 >>> 16) &&& 255 : Nat) : ℚ) / 255,
                 (((fd.vals.getD i 0 >>> 8) &&& 255 : Nat) : ℚ) / 255,
                 (((fd.vals.getD i 0) &&& 255 : Nat) : ℚ) / 255]
              else [0, 0, 0])).flatten
          else []
        else if f.type = 85 ∧ f.size = 4 then
          if fd.kind = ColKind.u32 then
            ((List.range d.numPoints).map (fun i =>
              if i < fd.vals.length then
                [(((fd.vals.getD i 0 >>> 16) &&& 255 : Nat) : ℚ) / 255,
                 (((fd.vals.getD i 0 >>> 8) &&& 255 : Nat) : ℚ) / 255,
                 (((fd.vals.getD i 0) &&& 255 : Nat) : ℚ) / 255]
              else [0, 0, 0])).flatten
          else []
        else [])) : 0 ≤ q ∧ q ≤ 1 := by
  revert hq
  cases hsel : (match d.header.findField (strBytes ("rgb")) with
      | some k => some k
      | none => d.header.findField (strBytes ("rgba"))) with
  | none =>
    intro hq
    cases hq
  | some k =>
    intro hq
    simp only [] at hq
    by_cases hf : (d.header.fields.getD k ⟨[], 0, 0, 0⟩).type = 70 ∧
        (d.header.fields.getD k ⟨[], 0, 0, 0⟩).size = 4
    · rw [if_pos hf] at hq
      by_cases hk : (d.fieldData.getD k ⟨.f32, []⟩).kind = .f32
      · rw [if_pos hk] at hq
        exact packedTriplesBounds _ _ _ hq
      · rw [if_neg hk] at hq
        cases hq
    · rw [if_neg hf] at hq
      by_cases hf2 : (d.header.fields.getD k ⟨[], 0, 0, 0⟩).type = 85 ∧
          (d.header.fields.getD k ⟨[], 0, 0, 0⟩).size = 4
      · rw [if_pos hf2] at hq
        by_cases hk : (d.fieldData.getD k ⟨.f32, []⟩).kind = .u32
        · rw [if_pos hk] at hq
          exact packedTriplesBounds _ _ _ hq
        · rw [if_neg hk] at hq
          cases hq
      · rw [if_neg hf2] at hq
        cases hq

/-- The maximum sampled channel value of the separate-channel branch
(over the full point range, as obtained when the three columns are aligned). -/
def sepMaxF (rD gD bD : List ℚ) (n : Nat) : ℚ :=
  (List.range n).foldl (fun acc i =>
    max acc (max (rD.getD i 0) (max (gD.getD i 0) (bD.getD i 0)))) 0

def sepScaleF (rD gD bD : List ℚ) (n : Nat) : ℚ :=
  if 1 < sepMaxF rD gD bD n then 1 / 255 else 1

def sepFlat (rD gD bD : List ℚ) (n : Nat) (S : ℚ) : List ℚ :=
  ((List.range n).map (fun i =>
    [rD.getD i 0 * S, gD.getD i 0 * S, bD.getD i 0 * S])).flatten

theorem sepFlat_getD (rD gD bD : List ℚ) (n : Nat) (S : ℚ) (i : Nat) (hi : i < n) :
    (sepFlat rD gD bD n S).getD (3 * i) 0 = rD.getD i 0 * S ∧
    (sepFlat rD gD bD n S).getD (3 * i + 1) 0 = gD.getD i 0 * S ∧
    (sepFlat rD gD bD n S).getD (3 * i + 2) 0 = bD.getD i 0 * S := by
  have h0 := flatten_blocks_getD
    (fun i => [rD.getD i 0 * S, gD.getD i 0 * S, bD.getD i 0 * S])
    (fun _ => rfl) n i 0 hi (by omega)
  have h1 := flatten_blocks_getD
    (fun i => [rD.getD i 0 * S, gD.getD i 0 * S, bD.getD i 0 * S])
    (fun _ => rfl) n i 1 hi (by omega)
  have h2 := flatten_blocks_getD
    (fun i => [rD.getD i 0 * S, gD.getD i 0 * S, bD.getD i 0 * S])
    (fun _ => rfl) n i 2 hi (by omega)
  simp only [Nat.add_zero, List.getD_cons_zero, List.getD_cons_succ] at h0 h1 h2
  rw [sepFlat]
  exact ⟨h0, h1, h2⟩

theorem sepScaleF_eq_div (rD gD bD : List ℚ) (n : Nat) (j : Nat) (hj : j < n)
    (h1 : 1 < rD.getD j 0 ∨ 1 < gD.getD j 0 ∨ 1 < bD.getD j 0) :
    sepScaleF rD gD bD n = 1 / 255 := by
  have hfj : 1 < max (rD.getD j 0) (max (gD.getD j 0) (bD.getD j 0)) := by
    rcases h1 with h | h | h
    · exact lt_of_lt_of_le h (le_max_left _ _)
    · exact lt_of_lt_of_le h (le_trans (le_max_left _ _) (le_max_right _ _))
    · exact lt_of_lt_of_le h (le_trans (le_max_right _ _) (le_max_right _ _))
  have hle := le_foldl_max
    (fun x => max (rD.getD x 0) (max (gD.getD x 0) (bD.getD x 0))) n 0 j hj
  have hmax : 1 < sepMaxF rD gD bD n := by
    rw [sepMaxF]
    exact lt_of_lt_of_le hfj hle
  rw [sepScaleF, if_pos hmax]

theorem sepScaleF_eq_one (rD gD bD : List ℚ) (n : Nat)
    (h : ∀ j, j < n → rD.getD j 0 ≤ 1 ∧ gD.getD j 0 ≤ 1 ∧ bD.getD j 0 ≤ 1) :
    sepScaleF rD gD bD n = 1 := by
  have hmax : sepMaxF rD gD bD n ≤ 1 := by
    rw [sepMaxF]
    refine foldl_max_le
      (fun x => max (rD.getD x 0) (max (gD.getD x 0) (bD.getD x 0))) 1 n 0
      (by norm_num) ?_
    intro j hj
    obtain ⟨ha, hb, hc⟩ := h j hj
    simp only [max_le_iff]
    exact ⟨ha, hb, hc⟩
  rw [sepScaleF, if_neg (not_lt.mpr hmax)]

theorem sepFlat_mem_bound (rD gD bD : List ℚ) (n : Nat)
    (hbound : ∀ i, i < n →
      (0 ≤ rD.getD i 0 ∧ rD.getD i 0 ≤ 255) ∧
      (0 ≤ gD.getD i 0 ∧ gD.getD i 0 ≤ 255) ∧
      (0 ≤ bD.getD i 0 ∧ bD.getD i 0 ≤ 255)) :
    ∀ q ∈ sepFlat rD gD bD n (sepScaleF rD gD bD n), 0 ≤ q ∧ q ≤ 1 := by
  intro q hq
  rw [sepFlat] at hq
  obtain ⟨i, hi, hqi⟩ := mem_flatten_blocks hq
  simp only [List.mem_cons, List.not_mem_nil, or_false] at hqi
  obtain ⟨⟨hr0, hr255⟩, ⟨hg0, hg255⟩, ⟨hb0, hb255⟩⟩ := hbound i hi
  have hch : ∀ v : ℚ, 0 ≤ v → v ≤ 255 →
      v ≤ max (rD.getD i 0) (max (gD.getD i 0) (bD.getD i 0)) →
      0 ≤ v * sepScaleF rD gD bD n ∧ v * sepScaleF rD gD bD n ≤ 1 := by
    intro v hv0 hv255 hvf
    rw [sepScaleF]
    by_cases hmax : 1 < sepMaxF rD gD bD n
    · rw [if_pos hmax]
      refine ⟨by positivity, ?_⟩
      rw [mul_one_div, div_le_one (by norm_num : (0:ℚ) < 255)]
      exact hv255
    · rw [if_neg hmax, mul_one]
      refine ⟨hv0, ?_⟩
      have hle : max (rD.getD i 0) (max (gD.getD i 0) (bD.getD i 0))
          ≤ sepMaxF rD gD bD n := by
        rw [sepMaxF]
        exact le_foldl_max
          (fun x => max (rD.getD x 0) (max (gD.getD x 0) (bD.getD x 0))) n 0 i hi
      exact le_trans hvf (le_trans hle (not_lt.mp hmax))
  rcases hqi with rfl | rfl | rfl
  · exact hch _ hr0 hr255 (le_max_left _ _)
  · exact hch _ hg0 hg255 (le_trans (le_max_left _ _) (le_max_right _ _))
  · exact hch _ hb0 hb255 (le_trans (le_max_right _ _) (le_max_right _ _))

theorem getRGB_sep_eq (castQ : ColKind → Nat → ℚ) (d : PCDData) (ri gi bi : Nat)
    (hr : d.header.findField (strBytes ("r")) = some ri)
    (hg : d.header.findField (strBytes ("g")) = some gi)
    (hb : d.header.findField (strBytes ("b")) = some bi)
    (har : (d.getFieldAsFloat castQ ri).length = d.numPoints)
    (hag : (d.getFieldAsFloat castQ gi).length = d.numPoints)
    (hab : (d.getFieldAsFloat castQ bi).length = d.numPoints)
    (hn : d.numPoints ≠ 0) :
    d.getRGB castQ = sepFlat (d.getFieldAsFloat castQ ri) (d.getFieldAsFloat castQ gi)
      (d.getFieldAsFloat castQ bi) d.numPoints
      (sepScaleF (d.getFieldAsFloat castQ ri) (d.getFieldAsFloat castQ gi)
        (d.getFieldAsFloat castQ bi) d.numPoints) := by
  rw [PCDData.getRGB]
  rw [if_neg hn, hr, hg, hb]
  simp only []
  rw [har, Nat.min_self]
  rw [sepFlat, sepScaleF, sepMaxF]
  refine congrArg List.flatten (List.map_congr_left ?_)
  intro i hi
  rw [List.mem_range] at hi
  have h2 : i < (d.getFieldAsFloat castQ gi).length := by
    rw [hag]
    omega
  have h3 : i < (d.getFieldAsFloat castQ bi).length := by
    rw [hab]
    omega
  rw [if_pos hi, if_pos h2, if_pos h3]

set_option maxHeartbeats 2000000 in
/-- C8 (amended), all branches of `getRGB`:

* separate `r`,`g`,`b` channels, columns aligned with the point count: if
  every channel value lies in `[0, 255]` then every output component lies in
  `[0, 1]`; and the view divides by 255 exactly when some sampled channel
  value exceeds 1 (component `j` of triple `i` is `chan_j(i) / 255` if some
  sampled value exceeds 1, and `chan_j(i)` unscaled otherwise — so with a
  negative or > 255 channel value the output can leave `[0, 1]`, which is the
  correction to the claim);
* packed `rgb`/`rgba` field (float32 or uint32 storage): every component is
  in `[0, 1]` unconditionally. -/
theorem c8_getRGB_spec (castQ : ColKind → Nat → ℚ) (d : PCDData) :
    (∀ ri gi bi,
      d.header.findField (strBytes ("r")) = some ri →
      d.header.findField (strBytes ("g")) = some gi →
      d.header.findField (strBytes ("b")) = some bi →
      (d.getFieldAsFloat castQ ri).length = d.numPoints →
      (d.getFieldAsFloat castQ gi).length = d.numPoints →
      (d.getFieldAsFloat castQ bi).length = d.numPoints →
      ((∀ i, i < d.numPoints →
          (0 ≤ (d.getFieldAsFloat castQ ri).getD i 0 ∧
            (d.getFieldAsFloat castQ ri).getD i 0 ≤ 255) ∧
          (0 ≤ (d.getFieldAsFloat castQ gi).getD i 0 ∧
            (d.getFieldAsFloat castQ gi).getD i 0 ≤ 255) ∧
          (0 ≤ (d.getFieldAsFloat castQ bi).getD i 0 ∧
            (d.getFieldAsFloat castQ bi).getD i 0 ≤ 255)) →
        ∀ q ∈ d.getRGB castQ, 0 ≤ q ∧ q ≤ 1) ∧
      ((∃ i, i < d.numPoints ∧
          (1 < (d.getFieldAsFloat castQ ri).getD i 0 ∨
           1 < (d.getFieldAsFloat castQ gi).getD i 0 ∨
           1 < (d.getFieldAsFloat castQ bi).getD i 0)) →
        ∀ i, i < d.numPoints →
          (d.getRGB castQ).getD (3 * i) 0 = (d.getFieldAsFloat castQ ri).getD i 0 / 255 ∧
          (d.getRGB castQ).getD (3 * i + 1) 0 = (d.getFieldAsFloat castQ gi).getD i 0 / 255 ∧
          (d.getRGB castQ).getD (3 * i + 2) 0 = (d.getFieldAsFloat castQ bi).getD i 0 / 255) ∧
      ((∀ i, i < d.numPoints →
          (d.getFieldAsFloat castQ ri).getD i 0 ≤ 1 ∧
          (d.getFieldAsFloat castQ gi).getD i 0 ≤ 1 ∧
          (d.getFieldAsFloat castQ bi).getD i 0 ≤ 1) →
        ∀ i, i < d.numPoints →
          (d.getRGB castQ).getD (3 * i) 0 = (d.getFieldAsFloat castQ ri).getD i 0 ∧
          (d.getRGB castQ).getD (3 * i + 1) 0 = (d.getFieldAsFloat castQ gi).getD i 0 ∧
          (d.getRGB castQ).getD (3 * i + 2) 0 = (d.getFieldAsFloat castQ bi).getD i 0)) ∧
    ((d.header.findField (strBytes ("r")) = none ∨
      d.header.findField (strBytes ("g")) = none ∨
      d.header.findField (strBytes ("b")) = none) →
      ∀ q ∈ d.getRGB castQ, 0 ≤ q ∧ q ≤ 1) := by
  have hdiv255 : ∀ k : Nat, k ≤ 255 → 0 ≤ (k : ℚ) / 255 ∧ (k : ℚ) / 255 ≤ 1 := by
    intro k hk
    constructor
    · positivity
    · rw [div_le_one (by norm_num : (0:ℚ) < 255)]
      exact_mod_cast hk
  have hpackBounds : ∀ (n : Nat) (vals : List Nat) (q : ℚ),
      q ∈ ((List.range n).map (fun i =>
        if i < vals.length then
          [(((vals.getD i 0 >>> 16) &&& 255 : Nat) : ℚ) / 255,
           (((vals.getD i 0 >>> 8) &&& 255 : Nat) : ℚ) / 255,
           (((vals.getD i 0) &&& 255 : Nat) : ℚ) / 255]
        else [0, 0, 0])).flatten → 0 ≤ q ∧ q ≤ 1 := by
    intro n vals q hq
    obtain ⟨i, _, hqi⟩ := mem_flatten_blocks hq
    by_cases hi : i < vals.length
    · rw [if_pos hi] at hqi
      have hb1 : (vals.getD i 0 >>> 16) &&& 255 ≤ 255 := by
        rw [lzf_and255_eq]
        omega
      have hb2 : (vals.getD i 0 >>> 8) &&& 255 ≤ 255 := by
        rw [lzf_and255_eq]
        omega
      have hb3 : (vals.getD i 0) &&& 255 ≤ 255 := by
        rw [lzf_and255_eq]
        omega
      simp only [List.mem_cons, List.not_mem_nil, or_false] at hqi
      rcases hqi with rfl | rfl | rfl
      · exact hdiv255 _ hb1
      · exact hdiv255 _ hb2
      · exact hdiv255 _ hb3
    · rw [if_neg hi] at hqi
      simp only [List.mem_cons, List.not_mem_nil, or_false] at hqi
      rcases hqi with rfl | rfl | rfl <;> norm_num
  constructor
  · intro ri gi bi hr hg hb har hag hab
    by_cases hn : d.numPoints = 0
    · have hrgb : d.getRGB castQ = [] := by
        rw [PCDData.getRGB]
        simp only []
        rw [if_pos hn]
      refine ⟨?_, ?_, ?_⟩
      · intro _ q hq
        rw [hrgb] at hq
        cases hq
      · intro _ i hi
        omega
      · intro _ i hi
        omega
    · have hrgb := getRGB_sep_eq castQ d ri gi bi hr hg hb har hag hab hn
      refine ⟨?_, ?_, ?_⟩
      · -- all channels in [0,255] → components in [0,1]
        intro hbound q hq
        rw [hrgb] at hq
        exact sepFlat_mem_bound (d.getFieldAsFloat castQ ri) (d.getFieldAsFloat castQ gi)
          (d.getFieldAsFloat castQ bi) d.numPoints hbound q hq
      · -- some sampled channel exceeds 1 → divide by 255
        intro hex i hi
        obtain ⟨j, hj, hjgt⟩ := hex
        have hSval := sepScaleF_eq_div (d.getFieldAsFloat castQ ri)
          (d.getFieldAsFloat castQ gi) (d.getFieldAsFloat castQ bi) d.numPoints j hj hjgt
        obtain ⟨h1, h2, h3⟩ := sepFlat_getD (d.getFieldAsFloat castQ ri)
          (d.getFieldAsFloat castQ gi) (d.getFieldAsFloat castQ bi) d.numPoints
          (sepScaleF (d.getFieldAsFloat castQ ri) (d.getFieldAsFloat castQ gi)
            (d.getFieldAsFloat castQ bi) d.numPoints) i hi
        rw [hrgb, h1, h2, h3, hSval, mul_one_div, mul_one_div, mul_one_div]
        exact ⟨rfl, rfl, rfl⟩
      · -- all sampled channels ≤ 1 → no division
        intro hall i hi
        have hSval := sepScaleF_eq_one (d.getFieldAsFloat castQ ri)
          (d.getFieldAsFloat castQ gi) (d.getFieldAsFloat castQ bi) d.numPoints hall
        obtain ⟨h1, h2, h3⟩ := sepFlat_getD (d.getFieldAsFloat castQ ri)
          (d.getFieldAsFloat castQ gi) (d.getFieldAsFloat castQ bi) d.numPoints
          (sepScaleF (d.getFieldAsFloat castQ ri) (d.getFieldAsFloat castQ gi)
            (d.getFieldAsFloat castQ bi) d.numPoints) i hi
        rw [hrgb, h1, h2, h3, hSval, mul_one, mul_one, mul_one]
        exact ⟨rfl, rfl, rfl⟩
  · -- packed branch: components always in [0,1]
    intro habs q hq
    rw [PCDData.getRGB] at hq
    simp only [] at hq
    by_cases hn : d.numPoints = 0
    · rw [if_pos hn] at hq
      cases hq
    · rw [if_neg hn] at hq
      cases hfr : d.header.findField (strBytes ("r")) with
      | some ri =>
        cases hfg : d.header.findField (strBytes ("g")) with
        | some gi =>
          cases hfb : d.header.findField (strBytes ("b")) with
          | some bi =>
            rw [hfr, hfg, hfb] at habs
            rcases habs with h | h | h <;> cases h
          | none =>
            rw [hfr, hfg, hfb] at hq
            exact c8PackedCase castQ d q hq
        | none =>
          cases hfb : d.header.findField (strBytes ("b")) with
          | some bi =>
            rw [hfr, hfg, hfb] at hq
            exact c8PackedCase castQ d q hq
          | none =>
            rw [hfr, hfg, hfb] at hq
            exact c8PackedCase castQ d q hq
      | none =>
        cases hfg : d.header.findField (strBytes ("g")) with
        | some gi =>
          cases hfb : d.header.findField (strBytes ("b")) with
          | some bi =>
            rw [hfr, hfg, hfb] at hq
            exact c8PackedCase castQ d q hq
          | none =>
            rw [hfr, hfg, hfb] at hq
            exact c8PackedCase castQ d q hq
        | none =>
          cases hfb : d.header.findField (strBytes ("b")) with
          | some bi =>
            rw [hfr, hfg, hfb] at hq
            exact c8PackedCase castQ d q hq
          | none =>
            rw [hfr, hfg, hfb] at hq
            exact c8PackedCase castQ d q hq
/-- A concrete bit-pattern-to-value cast: exact on the integer column kinds
(signed kinds use two's-complement interpretation, as `static_cast<float>` of
the stored integer is exact for 8/16-bit values); on the float kinds it reads
the raw pattern, which suffices for clouds without float columns. -/
def castInt : ColKind → Nat → ℚ
  | ColKind.i8, p => ((toSigned 1 p : Int) : ℚ)
  | ColKind.u8, p => (p : ℚ)
  | ColKind.i16, p => ((toSigned 2 p : Int) : ℚ)
  | ColKind.u16, p => (p : ℚ)
  | ColKind.i32, p => ((toSigned 4 p : Int) : ℚ)
  | ColKind.u32, p => (p : ℚ)
  | ColKind.f32, p => (p : ℚ)
  | ColKind.f64, p => (p : ℚ)

/-- A one-point cloud with signed 8-bit `r`,`g`,`b` channels where `r`
stores the byte 254, i.e. the value −2. -/
def c8cloud : PCDData :=
  { header := { fields := [⟨strBytes ("r"), 1, 73, 1⟩, ⟨strBytes ("g"), 1, 73, 1⟩,
      ⟨strBytes ("b"), 1, 73, 1⟩] },
    fieldData := [⟨ColKind.i8, [254]⟩, ⟨ColKind.i8, [0]⟩, ⟨ColKind.i8, [0]⟩] }

/-- C8 counterexample: a cloud whose separate `r` channel holds the signed
byte −2 (all sampled values ≤ 1, so no division happens) has `-2` as the
first component of its RGB view, which lies outside `[0, 1]`. -/
theorem c8_negative_channel :
    (c8cloud.getRGB castInt).getD 0 0 = -2 ∧ ¬ (0 ≤ (-2 : ℚ) ∧ (-2 : ℚ) ≤ 1) := by
  have hr : c8cloud.getFieldAsFloat castInt 0 = [-2] := by
    norm_num [PCDData.getFieldAsFloat, c8cloud, castInt, toSigned]
  have hg : c8cloud.getFieldAsFloat castInt 1 = [0] := by
    norm_num [PCDData.getFieldAsFloat, c8cloud, castInt, toSigned]
  have hb : c8cloud.getFieldAsFloat castInt 2 = [0] := by
    norm_num [PCDData.getFieldAsFloat, c8cloud, castInt, toSigned]
  have h := getRGB_sep_eq castInt c8cloud 0 1 2 (by decide) (by decide) (by decide)
    (by rw [hr]; rfl) (by rw [hg]; rfl) (by rw [hb]; rfl) (by decide)
  rw [hr, hg, hb, show c8cloud.numPoints = 1 from rfl] at h
  have hs1 : sepScaleF [-2] [0] [0] 1 = 1 := by
    refine sepScaleF_eq_one _ _ _ _ ?_
    intro j hj
    have hj0 : j = 0 := by omega
    subst hj0
    exact ⟨show (-2 : ℚ) ≤ 1 by norm_num, show (0 : ℚ) ≤ 1 by norm_num,
      show (0 : ℚ) ≤ 1 by norm_num⟩
  have hd := (sepFlat_getD [-2] [0] [0] 1 (sepScaleF [-2] [0] [0] 1) 0 (by norm_num)).1
  simp only [Nat.mul_zero, List.getD_cons_zero] at hd
  rw [hs1, mul_one] at hd
  rw [h, hs1]
  exact ⟨hd, by norm_num⟩

/-- A one-point cloud with unsigned 8-bit `r`,`g`,`b` channels 128, 64, 32. -/
def c8wcloud : PCDData :=
  { header := { fields := [⟨strBytes ("r"), 1, 85, 1⟩, ⟨strBytes ("g"), 1, 85, 1⟩,
      ⟨strBytes ("b"), 1, 85, 1⟩] },
    fieldData := [⟨ColKind.u8, [128]⟩, ⟨ColKind.u8, [64]⟩, ⟨ColKind.u8, [32]⟩] }

/-- C8 witness: on a concrete `u8` cloud with a channel value above 1, the
view divides each channel by 255. -/
theorem c8_getRGB_witness :
    (c8wcloud.getRGB castInt).getD (3 * 0) 0
      = (c8wcloud.getFieldAsFloat castInt 0).getD 0 0 / 255 ∧
    (c8wcloud.getRGB castInt).getD (3 * 0 + 1) 0
      = (c8wcloud.getFieldAsFloat castInt 1).getD 0 0 / 255 ∧
    (c8wcloud.getRGB castInt).getD (3 * 0 + 2) 0
      = (c8wcloud.getFieldAsFloat castInt 2).getD 0 0 / 255 :=
  ((c8_getRGB_spec castInt c8wcloud).1 0 1 2 (by decide) (by decide) (by decide)
    (by decide) (by decide) (by decide)).2.1
    ⟨0, by decide, Or.inl (by decide)⟩ 0 (by decide)

/-- A cloud with `x`,`y`,`z` columns of unequal lengths 2, 1, 3. -/
def c10cloud : PCDData :=
  { header := { fields := [⟨strBytes ("x"), 4, 70, 1⟩, ⟨strBytes ("y"), 4, 70, 1⟩,
      ⟨strBytes ("z"), 4, 70, 1⟩] },
    fieldData := [⟨ColKind.u8, [1, 2]⟩, ⟨ColKind.u8, [3]⟩, ⟨ColKind.u8, [4, 5, 6]⟩] }

/-- C10 witness: on a concrete cloud with column lengths 2, 1, 3 the
positions view has length `3 * min(min(2,1),3) = 3`. -/
theorem c10_getPositions_witness :
    (c10cloud.getPositions castInt).length
        = 3 * min (min (c10cloud.fieldData.getD 0 ⟨.f32, []⟩).vals.length
            (c10cloud.fieldData.getD 1 ⟨.f32, []⟩).vals.length)
            (c10cloud.fieldData.getD 2 ⟨.f32, []⟩).vals.length :=
  ((c10_getPositions_spec castInt c10cloud (by decide)).2 0 1 2
    (by decide) (by decide) (by decide)).1

/-! ## Claim C7 (pack after unpack) -/

theorem findRGBFieldAux_lt :
    ∀ (fields : List FieldInfo) (i k : Nat),
      findRGBFieldAux fields i = some k → k < i + fields.length
  | [], _, _, h => by cases h
  | f :: fs, i, k, h => by
    rw [findRGBFieldAux] at h
    by_cases hm : lowerBytes f.name = strBytes ("rgb") ∧ f.type = 70 ∧ f.size = 4
    · rw [if_pos hm] at h
      injection h with h2
      simp only [List.length_cons]
      omega
    · rw [if_neg hm] at h
      have := findRGBFieldAux_lt fs (i + 1) k h
      simp only [List.length_cons]
      omega

/-- Packing the three extracted bytes loses the high byte: the rebuilt
pattern is the original reduced modulo `2^24`. -/
theorem packUnpackVal (p : Nat) :
    ((((p >>> 16) &&& 255) <<< 16) ||| (((p >>> 8) &&& 255) <<< 8)) ||| (p &&& 255)
      = p % 16777216 := by
  rw [lzf_and255_eq, lzf_and255_eq, lzf_and255_eq,
    Nat.shiftRight_eq_div_pow, Nat.shiftRight_eq_div_pow,
    Nat.shiftLeft_eq, Nat.shiftLeft_eq]
  have hB : p / 2 ^ 8 % 256 * 2 ^ 8 < 2 ^ 16 := by
    have : p / 2 ^ 8 % 256 < 256 := Nat.mod_lt _ (by norm_num)
    omega
  have hC : p % 256 < 2 ^ 8 := by
    have : p % 256 < 256 := Nat.mod_lt _ (by norm_num)
    omega
  have h1 := @Nat.mul_add_lt_is_or 16 (p / 2 ^ 8 % 256 * 2 ^ 8) hB (p / 2 ^ 16 % 256)
  have h2 := @Nat.mul_add_lt_is_or 8 (p % 256)
    hC (2 ^ 8 * (p / 2 ^ 16 % 256) + p / 2 ^ 8 % 256)
  rw [Nat.mul_comm (p / 2 ^ 16 % 256) (2 ^ 16), ← h1]
  have he : 2 ^ 16 * (p / 2 ^ 16 % 256) + p / 2 ^ 8 % 256 * 2 ^ 8
      = 2 ^ 8 * (2 ^ 8 * (p / 2 ^ 16 % 256) + p / 2 ^ 8 % 256) := by ring
  rw [he, ← h2]
  omega

theorem packRebuildAux_front (k : Nat) (F : FieldInfo) (C : Column) :
    ∀ (pre : List (FieldInfo × Column)) (i : Nat) (rest : List (FieldInfo × Column)),
      i + pre.length ≤ k →
      packRebuildAux k (k + 1) (k + 2) F C (pre ++ rest) i
        = pre ++ packRebuildAux k (k + 1) (k + 2) F C rest (i + pre.length) := by
  intro pre
  induction pre with
  | nil =>
    intro i rest h
    simp
  | cons x pre IH =>
    intro i rest h
    obtain ⟨f, c⟩ := x
    simp only [List.length_cons] at h
    rw [List.cons_append]
    simp only [packRebuildAux]
    rw [if_neg (by omega), if_neg (by omega)]
    rw [IH (i + 1) rest (by omega)]
    simp only [List.cons_append, List.length_cons]
    have harith : i + 1 + pre.length = i + (pre.length + 1) := by omega
    rw [harith]

theorem packRebuildAux_suffix (k : Nat) (F : FieldInfo) (C : Column) :
    ∀ (l : List (FieldInfo × Column)) (i : Nat), k + 2 < i →
      packRebuildAux k (k + 1) (k + 2) F C l i = l := by
  intro l
  induction l with
  | nil =>
    intro i _
    rfl
  | cons x l IH =>
    intro i h
    obtain ⟨f, c⟩ := x
    simp only [packRebuildAux]
    rw [if_neg (by omega), if_neg (by omega), IH (i + 1) (by omega)]

theorem packRebuildAux_at_r (k : Nat) (F : FieldInfo) (C : Column)
    (f : FieldInfo) (c : Column) (rest : List (FieldInfo × Column)) :
    packRebuildAux k (k + 1) (k + 2) F C ((f, c) :: rest) k
      = (F, C) :: packRebuildAux k (k + 1) (k + 2) F C rest (k + 1) := by
  simp only [packRebuildAux, if_true]

theorem packRebuildAux_at_g (k : Nat) (F : FieldInfo) (C : Column)
    (f : FieldInfo) (c : Column) (rest : List (FieldInfo × Column)) :
    packRebuildAux k (k + 1) (k + 2) F C ((f, c) :: rest) (k + 1)
      = packRebuildAux k (k + 1) (k + 2) F C rest (k + 2) := by
  simp only [packRebuildAux]
  rw [if_neg (by omega : ¬(k + 1 = k)), if_pos (Or.inl trivial)]

theorem packRebuildAux_at_b (k : Nat) (F : FieldInfo) (C : Column)
    (f : FieldInfo) (c : Column) (rest : List (FieldInfo × Column)) :
    packRebuildAux k (k + 1) (k + 2) F C ((f, c) :: rest) (k + 2)
      = packRebuildAux k (k + 1) (k + 2) F C rest (k + 3) := by
  simp only [packRebuildAux]
  rw [if_neg (by omega : ¬(k + 2 = k)), if_pos (Or.inr trivial)]

theorem snd_mem_enumFrom {α : Type} :
    ∀ (l : List α) (n : Nat) (x : Nat × α), x ∈ List.enumFrom n l → x.2 ∈ l := by
  intro l
  induction l with
  | nil =>
    intro n x hx
    cases hx
  | cons a l IH =>
    intro n x hx
    rw [List.enumFrom] at hx
    rcases List.mem_cons.mp hx with h | h
    · subst h
      exact List.mem_cons_self a l
    · exact List.mem_cons_of_mem a (IH (n + 1) x h)

theorem foldl_lastU8_no_match (nm : List Nat) :
    ∀ (l : List (Nat × FieldInfo)) (acc : Option Nat),
      (∀ x ∈ l, ¬(lowerBytes x.2.name = nm ∧ x.2.type = 85 ∧ x.2.size = 1)) →
      l.foldl (fun acc x =>
        if lowerBytes x.2.name = nm ∧ x.2.type = 85 ∧ x.2.size = 1 then some x.1 else acc)
        acc = acc := by
  intro l
  induction l with
  | nil =>
    intro acc _
    rfl
  | cons x l IH =>
    intro acc h
    rw [List.foldl_cons, if_neg (h x (List.mem_cons_self x l))]
    exact IH acc (fun y hy => h y (List.mem_cons_of_mem x hy))

theorem findLastU8_no_match_right (nm : List Nat) (A B : List FieldInfo)
    (hB : ∀ f ∈ B, ¬(lowerBytes f.name = nm ∧ f.type = 85 ∧ f.size = 1)) :
    findLastU8 nm (A ++ B) = findLastU8 nm A := by
  rw [findLastU8, findLastU8,
    show (A ++ B).enum = List.enumFrom 0 (A ++ B) from rfl,
    List.enumFrom_append, List.foldl_append]
  exact foldl_lastU8_no_match nm _ _ (fun x hx => hB x.2 (snd_mem_enumFrom B _ x hx))

theorem findLastU8_triple_r (nm : List Nat) (A B : List FieldInfo)
    (f0 f1 f2 : FieldInfo)
    (h0 : lowerBytes f0.name = nm ∧ f0.type = 85 ∧ f0.size = 1)
    (h1 : ¬(lowerBytes f1.name = nm ∧ f1.type = 85 ∧ f1.size = 1))
    (h2 : ¬(lowerBytes f2.name = nm ∧ f2.type = 85 ∧ f2.size = 1))
    (hB : ∀ f ∈ B, ¬(lowerBytes f.name = nm ∧ f.type = 85 ∧ f.size = 1)) :
    findLastU8 nm (A ++ [f0, f1, f2] ++ B) = some A.length := by
  rw [findLastU8_no_match_right nm (A ++ [f0, f1, f2]) B hB]
  rw [findLastU8,
    show (A ++ [f0, f1, f2]).enum = List.enumFrom 0 (A ++ [f0, f1, f2]) from rfl,
    List.enumFrom_append, List.foldl_append]
  simp only [List.enumFrom, List.foldl_cons, List.foldl_nil]
  rw [if_pos h0, if_neg h1, if_neg h2]
  simp

theorem findLastU8_triple_g (nm : List Nat) (A B : List FieldInfo)
    (f0 f1 f2 : FieldInfo)
    (h1 : lowerBytes f1.name = nm ∧ f1.type = 85 ∧ f1.size = 1)
    (h2 : ¬(lowerBytes f2.name = nm ∧ f2.type = 85 ∧ f2.size = 1))
    (hB : ∀ f ∈ B, ¬(lowerBytes f.name = nm ∧ f.type = 85 ∧ f.size = 1)) :
    findLastU8 nm (A ++ [f0, f1, f2] ++ B) = some (A.length + 1) := by
  rw [findLastU8_no_match_right nm (A ++ [f0, f1, f2]) B hB]
  rw [findLastU8,
    show (A ++ [f0, f1, f2]).enum = List.enumFrom 0 (A ++ [f0, f1, f2]) from rfl,
    List.enumFrom_append, List.foldl_append]
  simp only [List.enumFrom, List.foldl_cons, List.foldl_nil]
  rw [if_pos h1, if_neg h2]
  simp

theorem findLastU8_triple_b (nm : List Nat) (A B : List FieldInfo)
    (f0 f1 f2 : FieldInfo)
    (h2 : lowerBytes f2.name = nm ∧ f2.type = 85 ∧ f2.size = 1)
    (hB : ∀ f ∈ B, ¬(lowerBytes f.name = nm ∧ f.type = 85 ∧ f.size = 1)) :
    findLastU8 nm (A ++ [f0, f1, f2] ++ B) = some (A.length + 2) := by
  rw [findLastU8_no_match_right nm (A ++ [f0, f1, f2]) B hB]
  rw [findLastU8,
    show (A ++ [f0, f1, f2]).enum = List.enumFrom 0 (A ++ [f0, f1, f2]) from rfl,
    List.enumFrom_append, List.foldl_append]
  simp only [List.enumFrom, List.foldl_cons, List.foldl_nil]
  rw [if_pos h2]
  simp

theorem getD_take_insert3 {α : Type} (L : List α) (k : Nat) (hk : k ≤ L.length)
    (c0 c1 c2 : α) (dft : α) (j : Nat) (hj : j < 3) :
    ((L.take k ++ [c0, c1, c2]) ++ L.drop (k + 1)).getD (k + j) dft
      = [c0, c1, c2].getD j dft := by
  have hlen : (L.take k).length = k := by
    rw [List.length_take]
    omega
  rw [List.getD_append _ _ _ _ (by
    rw [List.length_append, hlen]
    simp only [List.length_cons, List.length_nil]
    omega)]
  rw [List.getD_append_right _ _ _ _ (by rw [hlen]; omega)]
  rw [hlen]
  congr 1
  omega

theorem packMap_eq (vals : List Nat) :
    (List.range (vals.map (fun p => (p >>> 16) &&& 255)).length).map (fun i =>
      (((vals.map (fun p => (p >>> 16) &&& 255)).getD i 0) <<< 16) |||
      (((vals.map (fun p => (p >>> 8) &&& 255)).getD i 0) <<< 8) |||
      ((vals.map (fun p => p &&& 255)).getD i 0))
    = vals.map (fun p => p % 16777216) := by
  refine List.ext_getElem (by simp) ?_
  intro i h1 h2
  simp only [List.length_map, List.length_range] at h1 h2
  simp only [List.getElem_map, List.getElem_range]
  have hb1 : i < (vals.map (fun p => (p >>> 16) &&& 255)).length := by
    rw [List.length_map]
    exact h2
  have hb2 : i < (vals.map (fun p => (p >>> 8) &&& 255)).length := by
    rw [List.length_map]
    exact h2
  have hb3 : i < (vals.map (fun p => p &&& 255)).length := by
    rw [List.length_map]
    exact h2
  rw [List.getD_eq_getElem _ _ hb1, List.getD_eq_getElem _ _ hb2,
    List.getD_eq_getElem _ _ hb3]
  simp only [List.getElem_map]
  exact packUnpackVal vals[i]

theorem packRebuild_full (k : Nat) (F : FieldInfo) (C : Column)
    (zipA zipB : List (FieldInfo × Column)) (m0 m1 m2 : FieldInfo × Column)
    (hlen : zipA.length = k) :
    packRebuildAux k (k + 1) (k + 2) F C (zipA ++ ([m0, m1, m2] ++ zipB)) 0
      = zipA ++ (F, C) :: zipB := by
  obtain ⟨f0, c0⟩ := m0
  obtain ⟨f1, c1⟩ := m1
  obtain ⟨f2, c2⟩ := m2
  rw [packRebuildAux_front k F C zipA 0 ([(f0, c0), (f1, c1), (f2, c2)] ++ zipB)
    (by omega)]
  rw [Nat.zero_add, hlen]
  simp only [List.cons_append, List.nil_append]
  rw [packRebuildAux_at_r, packRebuildAux_at_g, packRebuildAux_at_b,
    packRebuildAux_suffix k F C zipB (k + 3) (by omega)]

/-- C7 (amended): with a packed float `rgb` field at index `k` (storage
`vector<float>`) and no stray `uint8` `r`/`g`/`b` fields after it,
`packRGBForBinary ∘ unpackRGBForAscii` rebuilds the field layout with the
`rgb` field `⟨rgb, 4, F, 1⟩` back at index `k`, but each packed bit pattern
comes back reduced modulo `2^24`: the high (alpha) byte is zeroed, so the
round trip is exact precisely for patterns below `2^24`. -/
theorem c7_pack_unpack_mod24 (d : PCDData) (k : Nat)
    (hwf : d.header.fields.length = d.fieldData.length)
    (hfind : findRGBFieldAux d.header.fields 0 = some k)
    (hkind : (d.fieldData.getD k ⟨.f32, []⟩).kind = .f32)
    (hBr : ∀ f ∈ d.header.fields.drop (k + 1),
      ¬(lowerBytes f.name = strBytes ("r") ∧ f.type = 85 ∧ f.size = 1))
    (hBg : ∀ f ∈ d.header.fields.drop (k + 1),
      ¬(lowerBytes f.name = strBytes ("g") ∧ f.type = 85 ∧ f.size = 1))
    (hBb : ∀ f ∈ d.header.fields.drop (k + 1),
      ¬(lowerBytes f.name = strBytes ("b") ∧ f.type = 85 ∧ f.size = 1)) :
    (packRGBForBinary (unpackRGBForAscii d)).header.fields
        = d.header.fields.take k
            ++ ⟨strBytes ("rgb"), 4, 70, 1⟩ :: d.header.fields.drop (k + 1) ∧
    (packRGBForBinary (unpackRGBForAscii d)).fieldData
        = d.fieldData.take k
            ++ ⟨ColKind.f32, (d.fieldData.getD k ⟨.f32, []⟩).vals.map
                  (fun p => p % 16777216)⟩ :: d.fieldData.drop (k + 1) := by
  have hk : k < d.header.fields.length := by
    have := findRGBFieldAux_lt d.header.fields 0 k hfind
    omega
  have hk' : k < d.fieldData.length := by omega
  have htakeF : (d.header.fields.take k).length = k := by
    rw [List.length_take]
    omega
  have htakeC : (d.fieldData.take k).length = k := by
    rw [List.length_take]
    omega
  have hdropFC : (d.header.fields.drop (k + 1)).length
      = (d.fieldData.drop (k + 1)).length := by
    rw [List.length_drop, List.length_drop, hwf]
  have hU : unpackRGBForAscii d =
      { header := { d.header with fields :=
          (d.header.fields.take k
            ++ [⟨strBytes ("r"), 1, 85, 1⟩, ⟨strBytes ("g"), 1, 85, 1⟩,
                ⟨strBytes ("b"), 1, 85, 1⟩]
            ++ d.header.fields.drop (k + 1)) },
        fieldData :=
          (d.fieldData.take k
            ++ [⟨.u8, ((d.fieldData.getD k ⟨.f32, []⟩).vals.map
                  (fun p => (p >>> 16) &&& 255))⟩,
                ⟨.u8, ((d.fieldData.getD k ⟨.f32, []⟩).vals.map
                  (fun p => (p >>> 8) &&& 255))⟩,
                ⟨.u8, ((d.fieldData.getD k ⟨.f32, []⟩).vals.map
                  (fun p => p &&& 255))⟩]
            ++ d.fieldData.drop (k + 1)) } := by
    rw [unpackRGBForAscii, hfind]
    simp only []
    rw [if_pos hkind]
  have hfr : findLastU8 (strBytes ("r"))
      (d.header.fields.take k
        ++ [⟨strBytes ("r"), 1, 85, 1⟩, ⟨strBytes ("g"), 1, 85, 1⟩,
            ⟨strBytes ("b"), 1, 85, 1⟩]
        ++ d.header.fields.drop (k + 1)) = some k := by
    rw [findLastU8_triple_r (strBytes ("r")) _ _ _ _ _ (by decide) (by decide)
      (by decide) hBr, htakeF]
  have hfg : findLastU8 (strBytes ("g"))
      (d.header.fields.take k
        ++ [⟨strBytes ("r"), 1, 85, 1⟩, ⟨strBytes ("g"), 1, 85, 1⟩,
            ⟨strBytes ("b"), 1, 85, 1⟩]
        ++ d.header.fields.drop (k + 1)) = some (k + 1) := by
    rw [findLastU8_triple_g (strBytes ("g")) _ _ _ _ _ (by decide)
      (by decide) hBg, htakeF]
  have hfb : findLastU8 (strBytes ("b"))
      (d.header.fields.take k
        ++ [⟨strBytes ("r"), 1, 85, 1⟩, ⟨strBytes ("g"), 1, 85, 1⟩,
            ⟨strBytes ("b"), 1, 85, 1⟩]
        ++ d.header.fields.drop (k + 1)) = some (k + 2) := by
    rw [findLastU8_triple_b (strBytes ("b")) _ _ _ _ _ (by decide) hBb, htakeF]
  have hg0 := getD_take_insert3 d.fieldData k (Nat.le_of_lt hk')
    (⟨.u8, ((d.fieldData.getD k ⟨.f32, []⟩).vals.map (fun p => (p >>> 16) &&& 255))⟩)
    (⟨.u8, ((d.fieldData.getD k ⟨.f32, []⟩).vals.map (fun p => (p >>> 8) &&& 255))⟩)
    (⟨.u8, ((d.fieldData.getD k ⟨.f32, []⟩).vals.map (fun p => p &&& 255))⟩)
    (⟨.u8, []⟩) 0 (by omega)
  have hg1 := getD_take_insert3 d.fieldData k (Nat.le_of_lt hk')
    (⟨.u8, ((d.fieldData.getD k ⟨.f32, []⟩).vals.map (fun p => (p >>> 16) &&& 255))⟩)
    (⟨.u8, ((d.fieldData.getD k ⟨.f32, []⟩).vals.map (fun p => (p >>> 8) &&& 255))⟩)
    (⟨.u8, ((d.fieldData.getD k ⟨.f32, []⟩).vals.map (fun p => p &&& 255))⟩)
    (⟨.u8, []⟩) 1 (by omega)
  have hg2 := getD_take_insert3 d.fieldData k (Nat.le_of_lt hk')
    (⟨.u8, ((d.fieldData.getD k ⟨.f32, []⟩).vals.map (fun p => (p >>> 16) &&& 255))⟩)
    (⟨.u8, ((d.fieldData.getD k ⟨.f32, []⟩).vals.map (fun p => (p >>> 8) &&& 255))⟩)
    (⟨.u8, ((d.fieldData.getD k ⟨.f32, []⟩).vals.map (fun p => p &&& 255))⟩)
    (⟨.u8, []⟩) 2 (by omega)
  simp only [Nat.add_zero, List.getD_cons_zero, List.getD_cons_succ] at hg0 hg1 hg2
  have hziplen : (List.zip (d.header.fields.take k) (d.fieldData.take k)).length
      = k := by
    rw [List.length_zip, htakeF, htakeC]
    omega
  have hPack : packRGBForBinary (unpackRGBForAscii d) =
      { header := { d.header with fields :=
          (d.header.fields.take k
            ++ ⟨strBytes ("rgb"), 4, 70, 1⟩ :: d.header.fields.drop (k + 1)) },
        fieldData :=
          (d.fieldData.take k
            ++ ⟨ColKind.f32, (d.fieldData.getD k ⟨.f32, []⟩).vals.map
                  (fun p => p % 16777216)⟩ :: d.fieldData.drop (k + 1)) } := by
    rw [hU, packRGBForBinary]
    simp only []
    rw [hfr, hfg, hfb]
    simp only []
    rw [hg0, hg1, hg2]
    simp only []
    rw [if_pos ⟨trivial, trivial, trivial⟩]
    rw [packMap_eq]
    rw [List.zip_append (by
      simp only [List.length_append, List.length_cons, List.length_nil, htakeF, htakeC])]
    rw [List.zip_append (htakeF.trans htakeC.symm)]
    simp only [List.zip_cons_cons, List.zip_nil_right]
    rw [List.append_assoc]
    rw [packRebuild_full k (⟨strBytes ("rgb"), 4, 70, 1⟩ : FieldInfo)
      (⟨ColKind.f32, (d.fieldData.getD k ⟨.f32, []⟩).vals.map
        (fun p => p % 16777216)⟩ : Column)
      (List.zip (d.header.fields.take k) (d.fieldData.take k))
      (List.zip (d.header.fields.drop (k + 1)) (d.fieldData.drop (k + 1)))
      (⟨strBytes ("r"), 1, 85, 1⟩,
        ⟨.u8, ((d.fieldData.getD k ⟨.f32, []⟩).vals.map (fun p => (p >>> 16) &&& 255))⟩)
      (⟨strBytes ("g"), 1, 85, 1⟩,
        ⟨.u8, ((d.fieldData.getD k ⟨.f32, []⟩).vals.map (fun p => (p >>> 8) &&& 255))⟩)
      (⟨strBytes ("b"), 1, 85, 1⟩,
        ⟨.u8, ((d.fieldData.getD k ⟨.f32, []⟩).vals.map (fun p => p &&& 255))⟩)
      hziplen]
    simp only [List.map_append, List.map_cons]
    rw [List.map_fst_zip _ _ (le_of_eq (htakeF.trans htakeC.symm)),
      List.map_fst_zip _ _ (le_of_eq hdropFC),
      List.map_snd_zip _ _ (le_of_eq (htakeC.trans htakeF.symm)),
      List.map_snd_zip _ _ (le_of_eq hdropFC.symm)]
  exact ⟨by rw [hPack], by rw [hPack]⟩

/-- A one-point cloud with a packed float `rgb` field whose bit pattern has
the high (alpha) byte set: `2^24`. -/
def c7cloud : PCDData :=
  { header := { fields := [⟨strBytes ("rgb"), 4, 70, 1⟩] },
    fieldData := [⟨ColKind.f32, [16777216]⟩] }

/-- C7 counterexample: the pattern `2^24` (only the alpha byte set) comes
back as `0` after unpack-then-pack — the round trip is not exact. -/
theorem c7_alpha_lost :
    ((packRGBForBinary (unpackRGBForAscii c7cloud)).fieldData.getD 0
        ⟨.f32, []⟩).vals = [0] ∧
    (c7cloud.fieldData.getD 0 ⟨.f32, []⟩).vals = [16777216] := by
  decide

/-- A one-point cloud with a packed float `rgb` field with pattern
`0x123456 < 2^24`. -/
def c7wcloud : PCDData :=
  { header := { fields := [⟨strBytes ("rgb"), 4, 70, 1⟩] },
    fieldData := [⟨ColKind.f32, [1193046]⟩] }

/-- C7 witness: the amended round-trip theorem applied to a concrete
one-field cloud. -/
theorem c7_pack_unpack_witness :
    (packRGBForBinary (unpackRGBForAscii c7wcloud)).header.fields
        = c7wcloud.header.fields.take 0
            ++ ⟨strBytes ("rgb"), 4, 70, 1⟩ :: c7wcloud.header.fields.drop (0 + 1) ∧
    (packRGBForBinary (unpackRGBForAscii c7wcloud)).fieldData
        = c7wcloud.fieldData.take 0
            ++ ⟨ColKind.f32, (c7wcloud.fieldData.getD 0 ⟨.f32, []⟩).vals.map
                  (fun p => p % 16777216)⟩ :: c7wcloud.fieldData.drop (0 + 1) :=
  c7_pack_unpack_mod24 c7wcloud 0 (by decide) (by decide) (by decide) (by decide)
    (by decide) (by decide)

/-! ## Claim C5 (ascii token-failure recovery) -/

/-- C5: for every mapped `(TYPE, SIZE)` combination, a token whose numeric
parse fails makes the row loop push the column's default zero value (growing
the column by exactly one, keeping it aligned with the token position); the
row loop is never aborted by a failed parse — it always recurses on the
remaining fields — and a row with fewer tokens than fields simply stops,
leaving the remaining columns untouched. -/
theorem c5_ascii_token_recovery (fio : FloatIO) :
    (∀ (f : FieldInfo) (c : Column) (tok : List Nat),
      ((f.type = 73 ∧ (f.size = 1 ∨ f.size = 2) ∧ stoiTok tok = none) ∨
       (f.type = 73 ∧ f.size = 4 ∧ stolTok tok = none) ∨
       (f.type = 85 ∧ (f.size = 1 ∨ f.size = 2 ∨ f.size = 4) ∧ stoulTok tok = none) ∨
       (f.type = 70 ∧ f.size = 4 ∧ fio.stof tok = none) ∨
       (f.type = 70 ∧ f.size = 8 ∧ fio.stod tok = none)) →
      asciiProcessTok fio f c tok = pushDefault c ∧
      (pushDefault c).vals.length = c.vals.length + 1) ∧
    (∀ (f : FieldInfo) (fs : List FieldInfo) (c : Column) (cs : List Column)
        (s tok rest : List Nat), extractTok s = (some tok, rest) →
      parseAsciiRow fio (f :: fs) (c :: cs) s
        = asciiProcessTok fio f c tok :: parseAsciiRow fio fs cs rest) ∧
    (∀ (f : FieldInfo) (fs : List FieldInfo) (c : Column) (cs : List Column)
        (s r : List Nat), extractTok s = (none, r) →
      parseAsciiRow fio (f :: fs) (c :: cs) s = c :: cs) := by
  refine ⟨?_, ?_, ?_⟩
  · intro f c tok h
    refine ⟨?_, by simp [pushDefault]⟩
    rw [asciiProcessTok]
    rcases h with ⟨ht, hsz, hfail⟩ | ⟨ht, hsz, hfail⟩ | ⟨ht, hsz, hfail⟩ |
      ⟨ht, hsz, hfail⟩ | ⟨ht, hsz, hfail⟩
    · rw [if_pos ht]
      rcases hsz with hsz | hsz
      · rw [if_pos hsz, hfail]
      · rw [if_neg (by omega), if_pos hsz, hfail]
    · rw [if_pos ht, if_neg (by omega), if_neg (by omega), if_pos hsz, hfail]
    · rw [if_neg (by omega), if_pos ht]
      rcases hsz with hsz | hsz | hsz
      · rw [if_pos hsz, hfail]
      · rw [if_neg (by omega), if_pos hsz, hfail]
      · rw [if_neg (by omega), if_neg (by omega), if_pos hsz, hfail]
    · rw [if_neg (by omega), if_neg (by omega), if_pos ht, if_pos hsz, hfail]
    · rw [if_neg (by omega), if_neg (by omega), if_pos ht, if_neg (by omega),
        if_pos hsz, hfail]
  · intro f fs c cs s tok rest hext
    rw [parseAsciiRow, hext]
  · intro f fs c cs s r hext
    rw [parseAsciiRow, hext]

/-- A concrete float text codec: patterns print as decimal digit strings and
parse back with the same digit scan the integer paths use. -/
def fio0 : FloatIO :=
  { stof := fun t => match numFromTok t with
      | some (false, n) => some n
      | _ => none,
    stod := fun t => match numFromTok t with
      | some (false, n) => some n
      | _ => none,
    print32 := natToDec,
    print64 := natToDec }

/-- C5 witness: an `I`/`SIZE 1` field with the unparsable token `x` pushes
the default zero and grows the column from 1 to 2 values. -/
theorem c5_ascii_witness :
    asciiProcessTok fio0 ⟨strBytes ("a"), 1, 73, 1⟩ ⟨ColKind.i8, [5]⟩ (strBytes ("x"))
        = pushDefault ⟨ColKind.i8, [5]⟩ ∧
    (pushDefault (⟨ColKind.i8, [5]⟩ : Column)).vals.length
        = (⟨ColKind.i8, [5]⟩ : Column).vals.length + 1 :=
  (c5_ascii_token_recovery fio0).1 ⟨strBytes ("a"), 1, 73, 1⟩ ⟨ColKind.i8, [5]⟩
    (strBytes ("x")) (Or.inl ⟨rfl, Or.inl rfl, by decide⟩)

/-! ## Claim C4 (DATA-line error handling) -/

/-- C4 (amended): a `DATA` value other than `ascii`, `binary`,
`binary_compressed` makes `parse` fail — but a *missing* `DATA` line does
not: the header's `dataType` field merely keeps its default value `ascii`
(see the counterexample, where the whole file is empty and `parse`
succeeds). -/
theorem c4_unknown_data_rejected (fio : FloatIO) (file : List Nat)
    (h1 : (parseHeader file).1.dataType ≠ strBytes ("ascii"))
    (h2 : (parseHeader file).1.dataType ≠ strBytes ("binary"))
    (h3 : (parseHeader file).1.dataType ≠ strBytes ("binary_compressed")) :
    parse fio file = none := by
  rw [parse]
  rcases hpe : parseHeader file with ⟨hdr, payload⟩
  rw [hpe] at h1 h2 h3
  simp only [] at h1 h2 h3
  simp only []
  rw [if_neg h1, if_neg h2, if_neg h3]

/-- C4 counterexample: a file with no `DATA` line at all (here: the empty
file) still parses successfully — the header loop just runs off the end of
the stream, `dataType` stays at its default `ascii`, and the ascii decoder
returns an empty cloud. -/
theorem c4_missing_data_accepted :
    parse fio0 [] = some ⟨{ fields := [] }, []⟩ := by
  have hloop : parseHeaderLoop [] ⟨{}, [], [], [], []⟩ = (⟨{}, [], [], [], []⟩, []) := by
    rw [parseHeaderLoop.eq_def]
  have hhdr : parseHeader [] = ({ fields := [] }, []) := by
    rw [parseHeader, hloop]
    simp [buildFields]
  rw [parse, hhdr]
  simp only []
  rw [if_true]
  rw [parseAsciiData]
  simp only [List.map_nil]
  rw [parseAsciiLines.eq_def]

/-- An unknown `DATA` token: the smallest file exercising the amended
theorem's hypotheses. -/
def c4file : List Nat := strBytes ("DATA foo
")

/-- C4 witness: `DATA foo` is rejected. -/
theorem c4_witness : parse fio0 c4file = none := by
  have hstep : parseHeaderLoop c4file ⟨{}, [], [], [], []⟩
      = (⟨{ dataType := strBytes ("foo") }, [], [], [], []⟩, []) := by
    rw [parseHeaderLoop.eq_def]
    decide
  have hph : parseHeader c4file = ({ dataType := strBytes ("foo") }, []) := by
    rw [parseHeader, hstep]
    simp [buildFields]
  exact c4_unknown_data_rejected fio0 c4file (by rw [hph]; decide)
    (by rw [hph]; decide) (by rw [hph]; decide)

/-! ## Claim C9 (row count = first column length) -/

theorem packRGB_setWP (d : PCDData) (w p : Int) :
    packRGBForBinary { d with header := { d.header with width := w, points := p } }
      = { packRGBForBinary d with header :=
          { (packRGBForBinary d).header with width := w, points := p } } := by
  rw [packRGBForBinary, packRGBForBinary]
  simp only []
  cases h1 : findLastU8 (strBytes ("r")) d.header.fields with
  | none => rfl
  | some rIdx =>
    cases h2 : findLastU8 (strBytes ("g")) d.header.fields with
    | none => rfl
    | some gIdx =>
      cases h3 : findLastU8 (strBytes ("b")) d.header.fields with
      | none => rfl
      | some bIdx =>
        simp only []
        by_cases hc : (d.fieldData.getD rIdx ⟨.u8, []⟩).kind = .u8 ∧
            (d.fieldData.getD gIdx ⟨.u8, []⟩).kind = .u8 ∧
            (d.fieldData.getD bIdx ⟨.u8, []⟩).kind = .u8
        · rw [if_pos hc, if_pos hc]
        · rw [if_neg hc, if_neg hc]

theorem unpackRGB_setWP (d : PCDData) (w p : Int) :
    unpackRGBForAscii { d with header := { d.header with width := w, points := p } }
      = { unpackRGBForAscii d with header :=
          { (unpackRGBForAscii d).header with width := w, points := p } } := by
  rw [unpackRGBForAscii, unpackRGBForAscii]
  simp only []
  cases h1 : findRGBFieldAux d.header.fields 0 with
  | none => rfl
  | some k =>
    simp only []
    by_cases hc : (d.fieldData.getD k ⟨.f32, []⟩).kind = .f32
    · rw [if_pos hc, if_pos hc]
    · rw [if_neg hc, if_neg hc]

/-- C9: the row count of every post-decode operation is the length of the
first column (0 with no columns): that is exactly `numPoints`, which never
reads the header; the emitted `WIDTH`/`POINTS` are printed from
`numPoints`; and overwriting the parsed header's `width`/`points` with
arbitrary values changes nothing about the header text, any payload
encoding, or the whole written file. -/
theorem c9_row_count_semantics (fio : FloatIO) (d : PCDData) (format : List Nat)
    (w p : Int) :
    (d.fieldData = [] → d.numPoints = 0) ∧
    (∀ c cs, d.fieldData = c :: cs → d.numPoints = c.vals.length) ∧
    (∀ h' : PCDHeader, (⟨h', d.fieldData⟩ : PCDData).numPoints = d.numPoints) ∧
    (∃ pre mid post, writeHeaderBytes d format
        = pre ++ (strBytes ("WIDTH ") ++ natToDec d.numPoints ++ [10])
          ++ mid ++ (strBytes ("POINTS ") ++ natToDec d.numPoints ++ [10]) ++ post) ∧
    (writeHeaderBytes { d with header := { d.header with width := w, points := p } }
        format = writeHeaderBytes d format) ∧
    (writeAscii fio { d with header := { d.header with width := w, points := p } }
        = writeAscii fio d) ∧
    (writeBinary { d with header := { d.header with width := w, points := p } }
        = writeBinary d) ∧
    (writeBinaryCompressed { d with header := { d.header with width := w, points := p } }
        = writeBinaryCompressed d) ∧
    (writeFile fio { d with header := { d.header with width := w, points := p } }
        format = writeFile fio d format) := by
  refine ⟨?_, ?_, ?_, ?_, ?_, ?_, ?_, ?_, ?_⟩
  · intro h
    rw [PCDData.numPoints, h]
  · intro c cs h
    rw [PCDData.numPoints, h]
  · intro h'
    rfl
  · refine ⟨strBytes ("# .PCD v0.7 - Point Cloud Data file format\n")
        ++ (strBytes ("VERSION ") ++ d.header.version ++ [10])
        ++ (strBytes ("FIELDS")
            ++ (d.header.fields.map (fun f => 32 :: f.name)).flatten ++ [10])
        ++ (strBytes ("SIZE")
            ++ (d.header.fields.map (fun f => 32 :: intToDec f.size)).flatten ++ [10])
        ++ (strBytes ("TYPE")
            ++ (d.header.fields.map (fun f => [32, f.type])).flatten ++ [10])
        ++ (strBytes ("COUNT")
            ++ (d.header.fields.map (fun f => 32 :: intToDec f.count)).flatten ++ [10]),
      strBytes ("HEIGHT 1\n") ++ (strBytes ("VIEWPOINT ") ++ d.header.viewpoint ++ [10]),
      strBytes ("DATA ") ++ format ++ [10], ?_⟩
    rw [writeHeaderBytes]
    simp only [List.append_assoc]
  · rfl
  · rfl
  · rfl
  · rfl
  · rw [writeFile, writeFile]
    simp only []
    by_cases hbc : format = strBytes ("binary_compressed")
    · have hbin : format = strBytes ("binary") ∨ format = strBytes ("binary_compressed") :=
        Or.inr hbc
      rw [if_pos hbin, if_pos hbin, if_pos hbc, if_pos hbc, packRGB_setWP]
      rfl
    · by_cases hb : format = strBytes ("binary")
      · have hbin : format = strBytes ("binary") ∨ format = strBytes ("binary_compressed") :=
          Or.inl hb
        rw [if_pos hbin, if_pos hbin, if_neg hbc, if_neg hbc, if_pos hb, if_pos hb,
          packRGB_setWP]
        rfl
      · have hbin : ¬(format = strBytes ("binary") ∨ format = strBytes ("binary_compressed")) := by
          tauto
        rw [if_neg hbin, if_neg hbin, if_neg hbc, if_neg hbc, if_neg hb, if_neg hb,
          unpackRGB_setWP]
        rfl

/-- C9 witness: a three-value first column gives `numPoints = 3`. -/
theorem c9_row_count_witness :
    (⟨{}, [⟨ColKind.u8, [1, 2, 3]⟩]⟩ : PCDData).numPoints
      = (⟨ColKind.u8, [1, 2, 3]⟩ : Column).vals.length :=
  ((c9_row_count_semantics fio0 ⟨{}, [⟨ColKind.u8, [1, 2, 3]⟩]⟩ [] 7 9).2.1)
    ⟨ColKind.u8, [1, 2, 3]⟩ [] rfl

/-! ## Claims C3 and C6: header and payload round trips.

Tokenization toolkit: how the extraction primitives behave on the byte
streams the writer emits. -/

theorem takeWhile_append_stop (p : Nat → Bool) :
    ∀ (K t : List Nat), (∀ c ∈ K, p c = true) → (∀ c, t.head? = some c → p c = false) →
      (K ++ t).takeWhile p = K := by
  intro K
  induction K with
  | nil =>
    intro t _ ht
    cases t with
    | nil => rfl
    | cons c r =>
      rw [List.nil_append, List.takeWhile_cons, if_neg (by rw [ht c rfl]; simp)]
  | cons a K IH =>
    intro t hK ht
    rw [List.cons_append, List.takeWhile_cons, if_pos (hK a (List.mem_cons_self a K))]
    rw [IH t (fun c hc => hK c (List.mem_cons_of_mem a hc)) ht]

theorem dropWhile_append_all (p : Nat → Bool) :
    ∀ (K t : List Nat), (∀ c ∈ K, p c = true) →
      (K ++ t).dropWhile p = t.dropWhile p := by
  intro K
  induction K with
  | nil =>
    intro t _
    rw [List.nil_append]
  | cons a K IH =>
    intro t hK
    rw [List.cons_append, List.dropWhile_cons, if_pos (hK a (List.mem_cons_self a K))]
    exact IH t (fun c hc => hK c (List.mem_cons_of_mem a hc))

theorem dropWhile_head_false (p : Nat → Bool) (l : List Nat)
    (h : ∀ c, l.head? = some c → p c = false) : l.dropWhile p = l := by
  cases l with
  | nil => rfl
  | cons c r => rw [List.dropWhile_cons, if_neg (by rw [h c rfl]; simp)]

theorem head?_append_left {K t : List Nat} (h : K ≠ []) :
    (K ++ t).head? = K.head? := by
  cases K with
  | nil => exact absurd rfl h
  | cons a l => rfl

theorem lineOf_append (L r : List Nat) (h : ∀ c ∈ L, (c != 10) = true) :
    lineOf (L ++ 10 :: r) = L := by
  rw [lineOf]
  exact takeWhile_append_stop _ L (10 :: r) h (fun c hc => by
    injection hc with hc
    rw [← hc]
    simp)

theorem restOf_append (L r : List Nat) (h : ∀ c ∈ L, (c != 10) = true) :
    restOf (L ++ 10 :: r) = r := by
  rw [restOf, dropWhile_append_all _ L (10 :: r) h, List.dropWhile_cons]
  rw [if_neg (by simp)]
  rfl

theorem extractTok_ws_cons (c : Nat) (hc : isWSByte c = true) (s : List Nat) :
    extractTok (c :: s) = extractTok s := by
  rw [extractTok, extractTok, List.dropWhile_cons, if_pos hc]

theorem extractTok_front (K t : List Nat) (hK : K ≠ [])
    (hws : ∀ c ∈ K, isWSByte c = false)
    (ht : ∀ c, t.head? = some c → isWSByte c = true) :
    extractTok (K ++ t) = (some K, t) := by
  rw [extractTok]
  have hdrop : (K ++ t).dropWhile isWSByte = K ++ t := by
    refine dropWhile_head_false _ _ (fun c hc => ?_)
    rw [head?_append_left hK] at hc
    exact hws c (List.mem_of_mem_head? hc)
  have htake : (K ++ t).takeWhile (fun c => !isWSByte c) = K := by
    refine takeWhile_append_stop _ K t (fun c hc => by rw [hws c hc]; rfl)
      (fun c hc => by rw [ht c hc]; rfl)
  rw [hdrop, htake, if_neg hK, List.drop_left]

theorem extractTok_exact (K : List Nat) (hK : K ≠ [])
    (hws : ∀ c ∈ K, isWSByte c = false) :
    extractTok K = (some K, []) := by
  have := extractTok_front K [] hK hws (fun c hc => by cases hc)
  rwa [List.append_nil] at this

theorem extractInt_ws_cons (c : Nat) (hc : isWSByte c = true) (s : List Nat) :
    extractInt (c :: s) = extractInt s := by
  rw [extractInt, extractInt, List.dropWhile_cons, if_pos hc]

theorem isDigit_not_ws {c : Nat} (h : isDigitByte c = true) : isWSByte c = false := by
  rw [isDigitByte] at h
  rw [isWSByte]
  simp only [Bool.and_eq_true, decide_eq_true_eq] at h
  simp only [Bool.or_eq_false_iff, decide_eq_false_iff_not]
  omega

theorem isWS_not_digit {c : Nat} (h : isWSByte c = true) : isDigitByte c = false := by
  rw [isWSByte] at h
  rw [isDigitByte]
  simp only [Bool.or_eq_true, decide_eq_true_eq] at h
  simp only [Bool.and_eq_false_iff, decide_eq_false_iff_not]
  omega

theorem digitsToNat_append (ds : List Nat) (d : Nat) :
    digitsToNat (ds ++ [d]) = digitsToNat ds * 10 + (d - 48) := by
  rw [digitsToNat, digitsToNat, List.foldl_append, List.foldl_cons, List.foldl_nil]

theorem natToDecAux_spec :
    ∀ (fuel n : Nat), n < fuel →
      natToDecAux fuel n ≠ [] ∧ (∀ c ∈ natToDecAux fuel n, isDigitByte c = true) ∧
        digitsToNat (natToDecAux fuel n) = n := by
  intro fuel
  induction fuel with
  | zero =>
    intro n h
    omega
  | succ fuel IH =>
    intro n h
    rw [natToDecAux]
    by_cases h10 : n < 10
    · rw [if_pos h10]
      refine ⟨by simp, ?_, ?_⟩
      · intro c hc
        rw [List.mem_singleton] at hc
        subst hc
        rw [isDigitByte]
        simp only [Bool.and_eq_true, decide_eq_true_eq]
        omega
      · rw [digitsToNat]
        simp only [List.foldl_cons, List.foldl_nil]
        omega
    · rw [if_neg h10]
      obtain ⟨hne, hdig, hval⟩ := IH (n / 10) (by omega)
      refine ⟨by simp [hne], ?_, ?_⟩
      · intro c hc
        rw [List.mem_append] at hc
        rcases hc with hc | hc
        · exact hdig c hc
        · rw [List.mem_singleton] at hc
          subst hc
          rw [isDigitByte]
          simp only [Bool.and_eq_true, decide_eq_true_eq]
          omega
      · rw [digitsToNat_append, hval]
        omega

theorem natToDec_ne_nil (n : Nat) : natToDec n ≠ [] :=
  (natToDecAux_spec (n + 1) n (by omega)).1

theorem natToDec_digits (n : Nat) : ∀ c ∈ natToDec n, isDigitByte c = true :=
  (natToDecAux_spec (n + 1) n (by omega)).2.1

theorem digitsToNat_natToDec (n : Nat) : digitsToNat (natToDec n) = n :=
  (natToDecAux_spec (n + 1) n (by omega)).2.2

theorem natToDec_not_ws (n : Nat) : ∀ c ∈ natToDec n, isWSByte c = false :=
  fun c hc => isDigit_not_ws (natToDec_digits n c hc)

theorem extractInt_natToDec_append (n : Nat) (t : List Nat)
    (ht : ∀ c, t.head? = some c → isWSByte c = true) :
    extractInt (natToDec n ++ t) = (some (n : Int), t) := by
  have hne := natToDec_ne_nil n
  have hdigits := natToDec_digits n
  have hhead : ∀ c, (natToDec n ++ t).head? = some c → isDigitByte c = true := by
    intro c hc
    rw [head?_append_left hne] at hc
    exact hdigits c (List.mem_of_mem_head? hc)
  rw [extractInt]
  have hdrop : (natToDec n ++ t).dropWhile isWSByte = natToDec n ++ t :=
    dropWhile_head_false _ _ (fun c hc => isDigit_not_ws (hhead c hc))
  rw [hdrop]
  have hno45 : ¬((natToDec n ++ t).head? = some 45 ∨ (natToDec n ++ t).head? = some 43) := by
    intro h
    rcases h with h | h
    · have := hhead 45 h
      rw [isDigitByte] at this
      simp at this
    · have := hhead 43 h
      rw [isDigitByte] at this
      simp at this
  rw [if_neg hno45]
  have htake : (natToDec n ++ t).takeWhile isDigitByte = natToDec n :=
    takeWhile_append_stop _ _ t hdigits (fun c hc => isWS_not_digit (ht c hc))
  rw [htake, if_neg hne]
  have hneg : ¬((natToDec n ++ t).head? = some 45) := fun h => hno45 (Or.inl h)
  rw [if_neg hneg, digitsToNat_natToDec, List.drop_left]

theorem extractInt_intToDec_append (v : Int) (t : List Nat)
    (ht : ∀ c, t.head? = some c → isWSByte c = true) :
    extractInt (intToDec v ++ t) = (some v, t) := by
  rw [intToDec]
  by_cases hv : v < 0
  · rw [if_pos hv]
    have hne := natToDec_ne_nil (-v).toNat
    have hdigits := natToDec_digits (-v).toNat
    have hhead : ∀ c, (natToDec (-v).toNat ++ t).head? = some c → isDigitByte c = true := by
      intro c hc
      rw [head?_append_left hne] at hc
      exact hdigits c (List.mem_of_mem_head? hc)
    rw [List.cons_append, extractInt]
    have h1 : (45 :: (natToDec (-v).toNat ++ t)).dropWhile isWSByte
        = 45 :: (natToDec (-v).toNat ++ t) := by
      rw [List.dropWhile_cons]
      rw [if_neg ?_]
      rw [isWSByte]
      simp
    rw [h1]
    simp only [List.head?_cons]
    rw [if_pos (Or.inl trivial)]
    simp only [List.tail_cons]
    have htake : (natToDec (-v).toNat ++ t).takeWhile isDigitByte = natToDec (-v).toNat :=
      takeWhile_append_stop _ _ t hdigits (fun c hc => isWS_not_digit (ht c hc))
    rw [htake, if_neg hne, if_pos trivial, digitsToNat_natToDec, List.drop_left]
    have : ((-v).toNat : Int) = -v := Int.toNat_of_nonneg (by omega)
    rw [this]
    simp
  · rw [if_neg hv]
    rw [extractInt_natToDec_append v.toNat t ht]
    have : (v.toNat : Int) = v := Int.toNat_of_nonneg (by omega)
    rw [this]

theorem extractChar_ws_digit (c : Nat) (hc : isWSByte c = false) (rest : List Nat) :
    extractChar (c :: rest) = (some c, rest) := by
  rw [extractChar, List.dropWhile_cons, if_neg (by rw [hc]; simp)]

theorem readTokOr_space (v old : List Nat) (hne : v ≠ [])
    (hws : ∀ c ∈ v, isWSByte c = false) :
    readTokOr (32 :: v) old = v := by
  rw [readTokOr, extractTok_ws_cons 32 (by rw [isWSByte]; simp), extractTok_exact v hne hws]

theorem readIntOr_space (n : Nat) (old : Int) :
    readIntOr (32 :: natToDec n) old = (n : Int) := by
  rw [readIntOr]
  have hdrop : (32 :: natToDec n).dropWhile isWSByte = (natToDec n).dropWhile isWSByte := by
    rw [List.dropWhile_cons, if_pos (by rw [isWSByte]; simp)]
  have hdrop2 : (natToDec n).dropWhile isWSByte = natToDec n :=
    dropWhile_head_false _ _ (fun c hc =>
      isDigit_not_ws (natToDec_digits n c (List.mem_of_mem_head? hc)))
  rw [hdrop, hdrop2, if_neg (natToDec_ne_nil n)]
  have hext : extractInt (32 :: natToDec n) = (some (n : Int), []) := by
    rw [extractInt_ws_cons 32 (by rw [isWSByte]; simp)]
    have := extractInt_natToDec_append n [] (fun c hc => by cases hc)
    rwa [List.append_nil] at this
  rw [hext]

theorem readViewpoint_space (vp old : List Nat) :
    readViewpoint (32 :: vp) old = vp := by
  rw [readViewpoint, if_neg (by simp)]

theorem flatten_spaceCons_head (ns : List (List Nat)) :
    ∀ c, ((ns.map (fun n => 32 :: n)).flatten).head? = some c → isWSByte c = true := by
  cases ns with
  | nil =>
    intro c hc
    cases hc
  | cons m ms =>
    intro c hc
    simp only [List.map_cons, List.flatten_cons, List.cons_append, List.head?_cons] at hc
    injection hc with hc
    rw [← hc, isWSByte]
    simp

theorem extractTok_nil : extractTok [] = (none, []) := rfl

theorem readTokensLoop_nil : readTokensLoop [] = [] := by
  rw [readTokensLoop.eq_def]
  split
  · rfl
  · rename_i t rest h
    rw [extractTok_nil] at h
    cases h

theorem readTokensLoop_flatten :
    ∀ names : List (List Nat),
      (∀ n ∈ names, n ≠ [] ∧ ∀ c ∈ n, isWSByte c = false) →
      readTokensLoop ((names.map (fun n => 32 :: n)).flatten) = names := by
  intro names
  induction names with
  | nil =>
    intro _
    exact readTokensLoop_nil
  | cons n ns IH =>
    intro h
    obtain ⟨hne, hws⟩ := h n (List.mem_cons_self n ns)
    simp only [List.map_cons, List.flatten_cons, List.cons_append]
    have htok : extractTok (32 :: (n ++ ((ns.map (fun n => 32 :: n)).flatten)))
        = (some n, (ns.map (fun n => 32 :: n)).flatten) := by
      rw [extractTok_ws_cons 32 (by rw [isWSByte]; simp)]
      exact extractTok_front n _ hne hws (flatten_spaceCons_head ns)
    rw [readTokensLoop.eq_def]
    split
    · rename_i h2
      rw [htok] at h2
      cases h2
    · rename_i t rest h2
      rw [htok] at h2
      injection h2 with h2a h2b
      injection h2a with h2a
      rw [← h2a, ← h2b]
      rw [IH (fun m hm => h m (List.mem_cons_of_mem n hm))]

theorem extractInt_nil : extractInt [] = (none, []) := rfl

theorem readIntsLoop_nil : readIntsLoop [] = [] := by
  rw [readIntsLoop.eq_def]
  split
  · rfl
  · rename_i v rest h
    rw [extractInt_nil] at h
    cases h

theorem readIntsLoop_flatten :
    ∀ vs : List Int,
      readIntsLoop ((vs.map (fun v => 32 :: intToDec v)).flatten) = vs := by
  intro vs
  induction vs with
  | nil => exact readIntsLoop_nil
  | cons v vs IH =>
    simp only [List.map_cons, List.flatten_cons, List.cons_append]
    have hint : extractInt (32 :: (intToDec v ++ ((vs.map (fun v => 32 :: intToDec v)).flatten)))
        = (some v, (vs.map (fun v => 32 :: intToDec v)).flatten) := by
      rw [extractInt_ws_cons 32 (by rw [isWSByte]; simp)]
      refine extractInt_intToDec_append v _ (fun c hc => ?_)
      cases vs with
      | nil => cases hc
      | cons w ws =>
        simp only [List.map_cons, List.flatten_cons, List.cons_append,
          List.head?_cons] at hc
        injection hc with hc
        rw [← hc, isWSByte]
        simp
    rw [readIntsLoop.eq_def]
    split
    · rename_i h2
      rw [hint] at h2
      cases h2
    · rename_i w rest h2
      rw [hint] at h2
      injection h2 with h2a h2b
      injection h2a with h2a
      rw [← h2a, ← h2b, IH]

theorem extractChar_nil : extractChar [] = (none, []) := rfl

theorem readCharsLoop_nil : readCharsLoop [] = [] := by
  rw [readCharsLoop.eq_def]
  split
  · rfl
  · rename_i c rest h
    rw [extractChar_nil] at h
    cases h

theorem readCharsLoop_flatten :
    ∀ tys : List Nat, (∀ t ∈ tys, isWSByte t = false) →
      readCharsLoop ((tys.map (fun t => [32, t])).flatten) = tys := by
  intro tys
  induction tys with
  | nil =>
    intro _
    exact readCharsLoop_nil
  | cons t ts IH =>
    intro h
    simp only [List.map_cons, List.flatten_cons, List.cons_append, List.nil_append]
    have hchar : extractChar (32 :: t :: ((ts.map (fun t => [32, t])).flatten))
        = (some t, (ts.map (fun t => [32, t])).flatten) := by
      rw [extractChar, List.dropWhile_cons, if_pos (by rw [isWSByte]; simp),
        List.dropWhile_cons, if_neg (by rw [h t (List.mem_cons_self t ts)]; simp)]
    rw [readCharsLoop.eq_def]
    split
    · rename_i h2
      rw [hchar] at h2
      cases h2
    · rename_i c rest h2
      rw [hchar] at h2
      injection h2 with h2a h2b
      injection h2a with h2a
      rw [← h2a, ← h2b, IH (fun u hu => h u (List.mem_cons_of_mem t hu))]

theorem not_ws_ne10 {c : Nat} (h : isWSByte c = false) : (c != 10) = true := by
  rw [isWSByte] at h
  simp only [Bool.or_eq_false_iff, decide_eq_false_iff_not] at h
  simp only [bne_iff_ne, ne_eq]
  omega

/-- One `getline` iteration of the header loop on a stream whose first line
is `L` (newline-free): the loop body applied to `L`, with the remainder `r`
as the continuation stream. -/
theorem parseHeaderLoop_line (L r : List Nat) (st : HeaderScan)
    (hnoNL : ∀ c ∈ L, (c != 10) = true) :
    parseHeaderLoop (L ++ 10 :: r) st
      = if L = [] || L.head? = some 35 then parseHeaderLoop r st
        else
          match extractTok L with
          | (none, _) => parseHeaderLoop r st
          | (some key, lr) =>
            if key = strBytes ("VERSION") then
              parseHeaderLoop r
                { st with header := { st.header with version := readTokOr lr st.header.version } }
            else if key = strBytes ("FIELDS") then
              parseHeaderLoop r { st with fieldNames := st.fieldNames ++ readTokensLoop lr }
            else if key = strBytes ("SIZE") then
              parseHeaderLoop r { st with sizes := st.sizes ++ readIntsLoop lr }
            else if key = strBytes ("TYPE") then
              parseHeaderLoop r { st with types := st.types ++ readCharsLoop lr }
            else if key = strBytes ("COUNT") then
              parseHeaderLoop r { st with counts := st.counts ++ readIntsLoop lr }
            else if key = strBytes ("WIDTH") then
              parseHeaderLoop r
                { st with header := { st.header with width := readIntOr lr st.header.width } }
            else if key = strBytes ("HEIGHT") then
              parseHeaderLoop r
                { st with header := { st.header with height := readIntOr lr st.header.height } }
            else if key = strBytes ("VIEWPOINT") then
              parseHeaderLoop r
                { st with header :=
                    { st.header with viewpoint := readViewpoint lr st.header.viewpoint } }
            else if key = strBytes ("POINTS") then
              parseHeaderLoop r
                { st with header := { st.header with points := readIntOr lr st.header.points } }
            else if key = strBytes ("DATA") then
              ({ st with header := { st.header with dataType := readTokOr lr st.header.dataType } },
                r)
            else parseHeaderLoop r st := by
  cases L with
  | nil =>
    rw [List.nil_append, parseHeaderLoop.eq_def]
    simp [lineOf, restOf]
  | cons a L =>
    rw [List.cons_append, parseHeaderLoop.eq_def]
    simp only []
    have hline : lineOf (a :: (L ++ 10 :: r)) = a :: L := by
      have := lineOf_append (a :: L) r hnoNL
      rwa [List.cons_append] at this
    have hrest : restOf (a :: (L ++ 10 :: r)) = r := by
      have := restOf_append (a :: L) r hnoNL
      rwa [List.cons_append] at this
    rw [hline, hrest]

/-- Guard and key-token resolution for one header line `K ++ t`. -/
theorem parseHeaderLoop_keyed (K t r : List Nat) (st : HeaderScan)
    (hKne : K ≠ []) (hKws : ∀ c ∈ K, isWSByte c = false)
    (hK35 : K.head? ≠ some 35)
    (htws : ∀ c, t.head? = some c → isWSByte c = true)
    (htnoNL : ∀ c ∈ t, (c != 10) = true) :
    parseHeaderLoop ((K ++ t) ++ 10 :: r) st
      = if K = strBytes ("VERSION") then
          parseHeaderLoop r
            { st with header := { st.header with version := readTokOr t st.header.version } }
        else if K = strBytes ("FIELDS") then
          parseHeaderLoop r { st with fieldNames := st.fieldNames ++ readTokensLoop t }
        else if K = strBytes ("SIZE") then
          parseHeaderLoop r { st with sizes := st.sizes ++ readIntsLoop t }
        else if K = strBytes ("TYPE") then
          parseHeaderLoop r { st with types := st.types ++ readCharsLoop t }
        else if K = strBytes ("COUNT") then
          parseHeaderLoop r { st with counts := st.counts ++ readIntsLoop t }
        else if K = strBytes ("WIDTH") then
          parseHeaderLoop r
            { st with header := { st.header with width := readIntOr t st.header.width } }
        else if K = strBytes ("HEIGHT") then
          parseHeaderLoop r
            { st with header := { st.header with height := readIntOr t st.header.height } }
        else if K = strBytes ("VIEWPOINT") then
          parseHeaderLoop r
            { st with header :=
                { st.header with viewpoint := readViewpoint t st.header.viewpoint } }
        else if K = strBytes ("POINTS") then
          parseHeaderLoop r
            { st with header := { st.header with points := readIntOr t st.header.points } }
        else if K = strBytes ("DATA") then
          ({ st with header := { st.header with dataType := readTokOr t st.header.dataType } },
            r)
        else parseHeaderLoop r st := by
  have hnoNL : ∀ c ∈ K ++ t, (c != 10) = true := by
    intro c hc
    rw [List.mem_append] at hc
    rcases hc with hc | hc
    · exact not_ws_ne10 (hKws c hc)
    · exact htnoNL c hc
  rw [parseHeaderLoop_line (K ++ t) r st hnoNL]
  have hne : K ++ t ≠ [] := by
    intro h
    rw [List.append_eq_nil] at h
    exact hKne h.1
  have hh : (K ++ t).head? ≠ some 35 := by
    rw [head?_append_left hKne]
    exact hK35
  rw [if_neg (by
    simp only [Bool.or_eq_true, decide_eq_true_eq]
    rintro (h | h)
    · exact hne h
    · exact hh h)]
  rw [extractTok_front K t hKne hKws htws]

theorem phl_comment (r : List Nat) (st : HeaderScan) :
    parseHeaderLoop (strBytes ("# .PCD v0.7 - Point Cloud Data file format")
      ++ 10 :: r) st = parseHeaderLoop r st := by
  rw [parseHeaderLoop_line _ r st (by decide)]
  rw [if_pos (by decide)]

theorem phl_VERSION (v r : List Nat) (st : HeaderScan) (hne : v ≠ [])
    (hws : ∀ c ∈ v, isWSByte c = false) :
    parseHeaderLoop (strBytes ("VERSION ") ++ (v ++ 10 :: r)) st
      = parseHeaderLoop r { st with header := { st.header with version := v } } := by
  have hsplit : strBytes ("VERSION ") ++ (v ++ 10 :: r)
      = (strBytes ("VERSION") ++ (32 :: v)) ++ 10 :: r := by
    rw [show strBytes ("VERSION ") = strBytes ("VERSION") ++ [32] from rfl]
    simp [List.append_assoc]
  rw [hsplit, parseHeaderLoop_keyed (strBytes ("VERSION")) (32 :: v) r st
    (by decide) (by decide) (by decide)
    (fun c hc => by injection hc with hc; rw [← hc]; rfl)
    (by
      intro c hc
      rcases List.mem_cons.mp hc with h | h
      · rw [h]
        rfl
      · exact not_ws_ne10 (hws c h))]
  rw [if_pos rfl, readTokOr_space v st.header.version hne hws]

theorem flatten_cons32_head {α : Type} (f : α → List Nat) (ns : List α) :
    ∀ c, ((ns.map (fun x => 32 :: f x)).flatten).head? = some c → isWSByte c = true := by
  cases ns with
  | nil =>
    intro c hc
    cases hc
  | cons m ms =>
    intro c hc
    simp only [List.map_cons, List.flatten_cons, List.cons_append, List.head?_cons] at hc
    injection hc with hc
    rw [← hc, isWSByte]
    simp

theorem mem_flatten_cons32 {α : Type} (f : α → List Nat) (ns : List α) (c : Nat)
    (hc : c ∈ (ns.map (fun x => 32 :: f x)).flatten) :
    c = 32 ∨ ∃ x ∈ ns, c ∈ f x := by
  rw [List.mem_flatten] at hc
  obtain ⟨l, hl, hcl⟩ := hc
  rw [List.mem_map] at hl
  obtain ⟨x, hx, rfl⟩ := hl
  rcases List.mem_cons.mp hcl with h | h
  · exact Or.inl h
  · exact Or.inr ⟨x, hx, h⟩

theorem phl_FIELDS (names : List (List Nat)) (r : List Nat) (st : HeaderScan)
    (hns : ∀ n ∈ names, n ≠ [] ∧ ∀ c ∈ n, isWSByte c = false) :
    parseHeaderLoop (strBytes ("FIELDS")
        ++ ((names.map (fun n => 32 :: n)).flatten ++ 10 :: r)) st
      = parseHeaderLoop r { st with fieldNames := st.fieldNames ++ names } := by
  rw [← List.append_assoc]
  rw [parseHeaderLoop_keyed (strBytes ("FIELDS")) _ r st (by decide) (by decide) (by decide)
    (flatten_spaceCons_head names)
    (by
      intro c hc
      rcases mem_flatten_cons32 (fun n => n) names c hc with h | ⟨n, hn, hcn⟩
      · rw [h]
        rfl
      · exact not_ws_ne10 ((hns n hn).2 c hcn))]
  rw [if_neg (by decide), if_pos rfl, readTokensLoop_flatten names hns]

theorem intToDec_not_ws (v : Int) : ∀ c ∈ intToDec v, isWSByte c = false := by
  intro c hc
  rw [intToDec] at hc
  by_cases hv : v < 0
  · rw [if_pos hv] at hc
    rcases List.mem_cons.mp hc with h | h
    · rw [h]
      rfl
    · exact natToDec_not_ws _ c h
  · rw [if_neg hv] at hc
    exact natToDec_not_ws _ c hc

theorem phl_SIZE (vs : List Int) (r : List Nat) (st : HeaderScan) :
    parseHeaderLoop (strBytes ("SIZE")
        ++ ((vs.map (fun v => 32 :: intToDec v)).flatten ++ 10 :: r)) st
      = parseHeaderLoop r { st with sizes := st.sizes ++ vs } := by
  rw [← List.append_assoc]
  rw [parseHeaderLoop_keyed (strBytes ("SIZE")) _ r st (by decide) (by decide) (by decide)
    (flatten_cons32_head intToDec vs)
    (by
      intro c hc
      rcases mem_flatten_cons32 intToDec vs c hc with h | ⟨v, _, hcv⟩
      · rw [h]
        rfl
      · exact not_ws_ne10 (intToDec_not_ws v c hcv))]
  rw [if_neg (by decide), if_neg (by decide), if_pos rfl, readIntsLoop_flatten vs]

theorem phl_TYPE (tys : List Nat) (r : List Nat) (st : HeaderScan)
    (hts : ∀ t ∈ tys, isWSByte t = false) :
    parseHeaderLoop (strBytes ("TYPE")
        ++ ((tys.map (fun t => [32, t])).flatten ++ 10 :: r)) st
      = parseHeaderLoop r { st with types := st.types ++ tys } := by
  rw [← List.append_assoc]
  have hshape : (tys.map (fun t => [32, t])) = tys.map (fun t => 32 :: [t]) := rfl
  rw [parseHeaderLoop_keyed (strBytes ("TYPE")) _ r st (by decide) (by decide) (by decide)
    (by rw [hshape]; exact flatten_cons32_head (fun t => [t]) tys)
    (by
      rw [hshape]
      intro c hc
      rcases mem_flatten_cons32 (fun t => [t]) tys c hc with h | ⟨t, ht, hct⟩
      · rw [h]
        rfl
      · rw [List.mem_singleton] at hct
        rw [hct]
        exact not_ws_ne10 (hts t ht))]
  rw [if_neg (by decide), if_neg (by decide), if_neg (by decide), if_pos rfl,
    readCharsLoop_flatten tys hts]

theorem phl_COUNT (vs : List Int) (r : List Nat) (st : HeaderScan) :
    parseHeaderLoop (strBytes ("COUNT")
        ++ ((vs.map (fun v => 32 :: intToDec v)).flatten ++ 10 :: r)) st
      = parseHeaderLoop r { st with counts := st.counts ++ vs } := by
  rw [← List.append_assoc]
  rw [parseHeaderLoop_keyed (strBytes ("COUNT")) _ r st (by decide) (by decide) (by decide)
    (flatten_cons32_head intToDec vs)
    (by
      intro c hc
      rcases mem_flatten_cons32 intToDec vs c hc with h | ⟨v, _, hcv⟩
      · rw [h]
        rfl
      · exact not_ws_ne10 (intToDec_not_ws v c hcv))]
  rw [if_neg (by decide), if_neg (by decide), if_neg (by decide), if_neg (by decide),
    if_pos rfl, readIntsLoop_flatten vs]

theorem phl_WIDTH (n : Nat) (r : List Nat) (st : HeaderScan) :
    parseHeaderLoop (strBytes ("WIDTH ") ++ (natToDec n ++ 10 :: r)) st
      = parseHeaderLoop r
          { st with header := { st.header with width := (n : Int) } } := by
  have hsplit : strBytes ("WIDTH ") ++ (natToDec n ++ 10 :: r)
      = (strBytes ("WIDTH") ++ (32 :: natToDec n)) ++ 10 :: r := by
    rw [show strBytes ("WIDTH ") = strBytes ("WIDTH") ++ [32] from rfl]
    simp [List.append_assoc]
  rw [hsplit, parseHeaderLoop_keyed (strBytes ("WIDTH")) (32 :: natToDec n) r st
    (by decide) (by decide) (by decide)
    (fun c hc => by injection hc with hc; rw [← hc]; rfl)
    (by
      intro c hc
      rcases List.mem_cons.mp hc with h | h
      · rw [h]
        rfl
      · exact not_ws_ne10 (natToDec_not_ws n c h))]
  rw [if_neg (by decide), if_neg (by decide), if_neg (by decide), if_neg (by decide),
    if_neg (by decide), if_pos rfl, readIntOr_space n st.header.width]

theorem phl_HEIGHT (r : List Nat) (st : HeaderScan) :
    parseHeaderLoop (strBytes ("HEIGHT 1") ++ 10 :: r) st
      = parseHeaderLoop r
          { st with header := { st.header with height := 1 } } := by
  have hsplit : strBytes ("HEIGHT 1") ++ 10 :: r
      = (strBytes ("HEIGHT") ++ [32, 49]) ++ 10 :: r := by
    rfl
  rw [hsplit, parseHeaderLoop_keyed (strBytes ("HEIGHT")) [32, 49] r st
    (by decide) (by decide) (by decide)
    (fun c hc => by injection hc with hc; rw [← hc]; rfl)
    (by decide)]
  rw [if_neg (by decide), if_neg (by decide), if_neg (by decide), if_neg (by decide),
    if_neg (by decide), if_neg (by decide), if_pos rfl]
  have h1 : readIntOr [32, 49] st.header.height = 1 := by
    rw [readIntOr, if_neg (by decide),
      show extractInt [32, 49] = (some 1, []) from by decide]
  rw [h1]

theorem phl_VIEWPOINT (vp r : List Nat) (st : HeaderScan)
    (hvp : ∀ c ∈ vp, (c != 10) = true) :
    parseHeaderLoop (strBytes ("VIEWPOINT ") ++ (vp ++ 10 :: r)) st
      = parseHeaderLoop r
          { st with header := { st.header with viewpoint := vp } } := by
  have hsplit : strBytes ("VIEWPOINT ") ++ (vp ++ 10 :: r)
      = (strBytes ("VIEWPOINT") ++ (32 :: vp)) ++ 10 :: r := by
    rw [show strBytes ("VIEWPOINT ") = strBytes ("VIEWPOINT") ++ [32] from rfl]
    simp [List.append_assoc]
  rw [hsplit, parseHeaderLoop_keyed (strBytes ("VIEWPOINT")) (32 :: vp) r st
    (by decide) (by decide) (by decide)
    (fun c hc => by injection hc with hc; rw [← hc]; rfl)
    (by
      intro c hc
      rcases List.mem_cons.mp hc with h | h
      · rw [h]
        rfl
      · exact hvp c h)]
  rw [if_neg (by decide), if_neg (by decide), if_neg (by decide), if_neg (by decide),
    if_neg (by decide), if_neg (by decide), if_neg (by decide), if_pos rfl,
    readViewpoint_space vp st.header.viewpoint]

theorem phl_POINTS (n : Nat) (r : List Nat) (st : HeaderScan) :
    parseHeaderLoop (strBytes ("POINTS ") ++ (natToDec n ++ 10 :: r)) st
      = parseHeaderLoop r
          { st with header := { st.header with points := (n : Int) } } := by
  have hsplit : strBytes ("POINTS ") ++ (natToDec n ++ 10 :: r)
      = (strBytes ("POINTS") ++ (32 :: natToDec n)) ++ 10 :: r := by
    rw [show strBytes ("POINTS ") = strBytes ("POINTS") ++ [32] from rfl]
    simp [List.append_assoc]
  rw [hsplit, parseHeaderLoop_keyed (strBytes ("POINTS")) (32 :: natToDec n) r st
    (by decide) (by decide) (by decide)
    (fun c hc => by injection hc with hc; rw [← hc]; rfl)
    (by
      intro c hc
      rcases List.mem_cons.mp hc with h | h
      · rw [h]
        rfl
      · exact not_ws_ne10 (natToDec_not_ws n c h))]
  rw [if_neg (by decide), if_neg (by decide), if_neg (by decide), if_neg (by decide),
    if_neg (by decide), if_neg (by decide), if_neg (by decide), if_neg (by decide),
    if_pos rfl, readIntOr_space n st.header.points]

theorem phl_DATA (fmt r : List Nat) (st : HeaderScan) (hne : fmt ≠ [])
    (hws : ∀ c ∈ fmt, isWSByte c = false) :
    parseHeaderLoop (strBytes ("DATA ") ++ (fmt ++ 10 :: r)) st
      = ({ st with header := { st.header with dataType := fmt } }, r) := by
  have hsplit : strBytes ("DATA ") ++ (fmt ++ 10 :: r)
      = (strBytes ("DATA") ++ (32 :: fmt)) ++ 10 :: r := by
    rw [show strBytes ("DATA ") = strBytes ("DATA") ++ [32] from rfl]
    simp [List.append_assoc]
  rw [hsplit, parseHeaderLoop_keyed (strBytes ("DATA")) (32 :: fmt) r st
    (by decide) (by decide) (by decide)
    (fun c hc => by injection hc with hc; rw [← hc]; rfl)
    (by
      intro c hc
      rcases List.mem_cons.mp hc with h | h
      · rw [h]
        rfl
      · exact not_ws_ne10 (hws c h))]
  rw [if_neg (by decide), if_neg (by decide), if_neg (by decide), if_neg (by decide),
    if_neg (by decide), if_neg (by decide), if_neg (by decide), if_neg (by decide),
    if_neg (by decide), if_pos rfl, readTokOr_space fmt st.header.dataType hne hws]

theorem buildFields_maps (h' : PCDHeader) (fs : List FieldInfo) :
    buildFields ⟨h', fs.map (fun f => f.name), fs.map (fun f => f.size),
      fs.map (fun f => f.type), fs.map (fun f => f.count)⟩ = fs := by
  rw [buildFields]
  refine List.ext_getElem (by simp) ?_
  intro i h1 h2
  simp only [List.getElem_map, List.getElem_range]
  have hi : i < fs.length := by
    simp only [List.length_map, List.length_range] at h1
    exact h1
  rw [List.getD_eq_getElem _ _ (by simp only [List.length_map]; exact hi),
    List.getD_eq_getElem _ _ (by simp only [List.length_map]; exact hi),
    List.getD_eq_getElem _ _ (by simp only [List.length_map]; exact hi),
    List.getD_eq_getElem _ _ (by simp only [List.length_map]; exact hi)]
  simp only [List.getElem_map]

/-- The header round trip: parsing a stream that starts with the canonical
header text written for cloud `od` and format string `format` consumes
exactly the header text and reconstructs the fields, version and viewpoint
verbatim, with `WIDTH`/`POINTS` set to the written `numPoints`. -/
theorem parseHeader_write (od : PCDData) (format payload : List Nat)
    (hvne : od.header.version ≠ [])
    (hvws : ∀ c ∈ od.header.version, isWSByte c = false)
    (hnames : ∀ f ∈ od.header.fields, f.name ≠ [] ∧ ∀ c ∈ f.name, isWSByte c = false)
    (htys : ∀ f ∈ od.header.fields, isWSByte f.type = false)
    (hvp : ∀ c ∈ od.header.viewpoint, (c != 10) = true)
    (hfne : format ≠ [])
    (hfws : ∀ c ∈ format, isWSByte c = false) :
    parseHeader (writeHeaderBytes od format ++ payload)
      = ({ version := od.header.version, fields := od.header.fields,
           width := (od.numPoints : Int), height := 1,
           viewpoint := od.header.viewpoint, points := (od.numPoints : Int),
           dataType := format }, payload) := by
  have hmapn : od.header.fields.map (fun f => 32 :: f.name)
      = (od.header.fields.map (fun f => f.name)).map (fun n => 32 :: n) := by
    rw [List.map_map]
    rfl
  have hmaps : od.header.fields.map (fun f => 32 :: intToDec f.size)
      = (od.header.fields.map (fun f => f.size)).map (fun v => 32 :: intToDec v) := by
    rw [List.map_map]
    rfl
  have hmapt : od.header.fields.map (fun f => [32, f.type])
      = (od.header.fields.map (fun f => f.type)).map (fun t => [32, t]) := by
    rw [List.map_map]
    rfl
  have hmapc : od.header.fields.map (fun f => 32 :: intToDec f.count)
      = (od.header.fields.map (fun f => f.count)).map (fun v => 32 :: intToDec v) := by
    rw [List.map_map]
    rfl
  have hloop : parseHeaderLoop (writeHeaderBytes od format ++ payload)
      ⟨{}, [], [], [], []⟩
      = (⟨{ version := od.header.version,
            width := (od.numPoints : Int), height := 1,
            viewpoint := od.header.viewpoint, points := (od.numPoints : Int),
            dataType := format },
          od.header.fields.map (fun f => f.name),
          od.header.fields.map (fun f => f.size),
          od.header.fields.map (fun f => f.type),
          od.header.fields.map (fun f => f.count)⟩, payload) := by
    rw [writeHeaderBytes]
    rw [show strBytes ("# .PCD v0.7 - Point Cloud Data file format\n")
        = strBytes ("# .PCD v0.7 - Point Cloud Data file format") ++ [10] from rfl,
      show strBytes ("HEIGHT 1\n") = strBytes ("HEIGHT 1") ++ [10] from rfl]
    rw [hmapn, hmaps, hmapt, hmapc]
    simp only [List.append_assoc, List.singleton_append, List.cons_append,
      List.nil_append]
    rw [phl_comment]
    rw [phl_VERSION _ _ _ hvne hvws]
    rw [phl_FIELDS _ _ _ (by
      intro n hn
      rw [List.mem_map] at hn
      obtain ⟨f, hf, rfl⟩ := hn
      exact hnames f hf)]
    rw [phl_SIZE]
    rw [phl_TYPE _ _ _ (by
      intro t ht
      rw [List.mem_map] at ht
      obtain ⟨f, hf, rfl⟩ := ht
      exact htys f hf)]
    rw [phl_COUNT]
    rw [phl_WIDTH]
    rw [phl_HEIGHT]
    rw [phl_VIEWPOINT _ _ _ hvp]
    rw [phl_POINTS]
    rw [phl_DATA _ _ _ hfne hfws]
    rfl
  rw [parseHeader, hloop]
  simp only []
  rw [buildFields_maps]

/-! ### Payload round trips: little-endian values, binary rows, field-major
blocks. -/

theorem leBytes_length : ∀ (w v : Nat), (leBytes w v).length = w
  | 0, _ => rfl
  | w + 1, v => by
    rw [leBytes, List.length_cons, leBytes_length w (v / 256)]

theorem leVal_leBytes : ∀ (w v : Nat), v < 256 ^ w → ∀ t,
    leVal w (leBytes w v ++ t) = v
  | 0, v, hv, t => by
    have : v = 0 := by
      rw [pow_zero] at hv
      omega
    rw [this, leVal]
  | w + 1, v, hv, t => by
    rw [leBytes, leVal, List.cons_append]
    simp only [List.headD_cons, List.tail_cons]
    rw [leVal_leBytes w (v / 256) (by
      rw [pow_succ] at hv
      omega) t]
    omega

/-- Well-formedness of a field descriptor and its column: `COUNT 1`, a
recognized `(TYPE, SIZE)` combination matching the storage kind, and stored
bit patterns in range for the width. -/
def fieldColWF (f : FieldInfo) (c : Column) : Prop :=
  f.count = 1 ∧
  ((f.type = 73 ∧ f.size = 1 ∧ c.kind = ColKind.i8) ∨
   (f.type = 73 ∧ f.size = 2 ∧ c.kind = ColKind.i16) ∨
   (f.type = 73 ∧ f.size = 4 ∧ c.kind = ColKind.i32) ∨
   (f.type = 85 ∧ f.size = 1 ∧ c.kind = ColKind.u8) ∨
   (f.type = 85 ∧ f.size = 2 ∧ c.kind = ColKind.u16) ∨
   (f.type = 85 ∧ f.size = 4 ∧ c.kind = ColKind.u32) ∨
   (f.type = 70 ∧ f.size = 4 ∧ c.kind = ColKind.f32) ∨
   (f.type = 70 ∧ f.size = 8 ∧ c.kind = ColKind.f64)) ∧
  (∀ v ∈ c.vals, v < 256 ^ c.kind.width)

theorem fieldColWF_size {f : FieldInfo} {c : Column} (h : fieldColWF f c) :
    (f.size * f.count).toNat = c.kind.width := by
  obtain ⟨hcnt, hc, _⟩ := h
  rcases hc with ⟨_, hs, hk⟩ | ⟨_, hs, hk⟩ | ⟨_, hs, hk⟩ | ⟨_, hs, hk⟩ |
    ⟨_, hs, hk⟩ | ⟨_, hs, hk⟩ | ⟨_, hs, hk⟩ | ⟨_, hs, hk⟩ <;>
    rw [hs, hcnt, hk] <;> rfl

theorem fieldColWF_createStorage {f : FieldInfo} {c : Column} (h : fieldColWF f c) :
    f.createStorage = ⟨c.kind, []⟩ := by
  obtain ⟨_, hc, _⟩ := h
  rw [FieldInfo.createStorage]
  rcases hc with ⟨ht, hs, hk⟩ | ⟨ht, hs, hk⟩ | ⟨ht, hs, hk⟩ | ⟨ht, hs, hk⟩ |
    ⟨ht, hs, hk⟩ | ⟨ht, hs, hk⟩ | ⟨ht, hs, hk⟩ | ⟨ht, hs, hk⟩ <;>
    rw [ht, hs, hk] <;> norm_num

theorem fieldColWF_binReadField {f : FieldInfo} {c : Column} (h : fieldColWF f c)
    (cur : Column) (hkind : cur.kind = c.kind) (buf : List Nat) (offset : Nat) :
    binReadField f cur buf offset
      = { cur with vals := cur.vals ++ [leVal c.kind.width (buf.drop offset)] } := by
  obtain ⟨_, hc, _⟩ := h
  rw [binReadField]
  rcases hc with ⟨ht, hs, hk⟩ | ⟨ht, hs, hk⟩ | ⟨ht, hs, hk⟩ | ⟨ht, hs, hk⟩ |
    ⟨ht, hs, hk⟩ | ⟨ht, hs, hk⟩ | ⟨ht, hs, hk⟩ | ⟨ht, hs, hk⟩ <;>
    rw [ht, hs, hk] <;> norm_num <;>
    rw [pushValue, if_pos (by rw [hkind, hk])] <;>
    rw [hkind, hk] <;>
    rfl

theorem take_succ_getD {α : Type} [Inhabited α] (l : List α) (i : Nat)
    (h : i < l.length) (dft : α) :
    l.take (i + 1) = l.take i ++ [l.getD i dft] := by
  rw [List.take_succ, List.getD_eq_getElem _ _ h]
  rw [List.getElem?_eq_getElem h]
  rfl

theorem getD_mem {α : Type} [Inhabited α] (l : List α) (i : Nat) (d : α)
    (h : i < l.length) : l.getD i d ∈ l := by
  rw [List.getD_eq_getElem _ _ h]
  exact List.getElem_mem h

theorem binRowLoop_row (pt : Nat) :
    ∀ (fs : List FieldInfo) (cs : List Column),
      List.Forall₂ fieldColWF fs cs →
      ∀ (pre : List Nat),
      (∀ c ∈ cs, pt < c.vals.length) →
      binRowLoop fs (cs.map (fun c => ⟨c.kind, c.vals.take pt⟩))
        (pre ++ (cs.map (fun c => leBytes c.kind.width (c.vals.getD pt 0))).flatten)
        pre.length
        = cs.map (fun c => ⟨c.kind, c.vals.take (pt + 1)⟩) := by
  intro fs cs hwf
  induction hwf with
  | nil =>
    intro pre _
    rfl
  | @cons f c fs cs hfc hrest IH =>
    intro pre halign
    have hpt : pt < c.vals.length := halign c (List.mem_cons_self c cs)
    simp only [List.map_cons, List.flatten_cons]
    simp only [binRowLoop]
    rw [fieldColWF_binReadField hfc ⟨c.kind, c.vals.take pt⟩ rfl]
    rw [List.drop_left]
    rw [leVal_leBytes c.kind.width (c.vals.getD pt 0)
      (hfc.2.2 (c.vals.getD pt 0) (getD_mem c.vals pt 0 hpt)) _]
    rw [fieldColWF_size hfc]
    have hIH := IH (pre ++ leBytes c.kind.width (c.vals.getD pt 0))
      (fun c2 hc2 => halign c2 (List.mem_cons_of_mem c hc2))
    rw [List.append_assoc, List.length_append, leBytes_length] at hIH
    rw [hIH]
    have hcol : ({ kind := c.kind, vals := c.vals.take pt ++ [c.vals.getD pt 0] } : Column)
        = ⟨c.kind, c.vals.take (pt + 1)⟩ := by
      rw [← take_succ_getD c.vals pt hpt 0]
    rw [hcol]

theorem row_flatten_length (cs : List Column) (pt : Nat) :
    ((cs.map (fun c => leBytes c.kind.width (c.vals.getD pt 0))).flatten).length
      = (cs.map (fun c => c.kind.width)).sum := by
  rw [List.length_flatten, List.map_map]
  congr 1
  refine List.map_congr_left ?_
  intro c _
  simp only [Function.comp_apply, leBytes_length]

theorem parseBinaryLoop_write (fs : List FieldInfo) (cs : List Column) (npts : Nat)
    (hwf : List.Forall₂ fieldColWF fs cs)
    (halign : ∀ c ∈ cs, c.vals.length = npts) :
    ∀ (m k : Nat), k + m = npts →
      parseBinaryLoop fs ((cs.map (fun c => c.kind.width)).sum) m
        (cs.map (fun c => ⟨c.kind, c.vals.take k⟩))
        (((List.range m).map (fun j =>
          (cs.map (fun c => leBytes c.kind.width (c.vals.getD (k + j) 0))).flatten)).flatten)
        = cs := by
  intro m
  induction m with
  | zero =>
    intro k hk
    rw [parseBinaryLoop]
    have : ∀ c ∈ cs, (⟨c.kind, c.vals.take k⟩ : Column) = c := by
      intro c hc
      have : c.vals.take k = c.vals := by
        rw [show k = npts from by omega, ← halign c hc, List.take_length]
      rw [this]
    calc cs.map (fun c => (⟨c.kind, c.vals.take k⟩ : Column))
        = cs.map id := List.map_congr_left this
      _ = cs := List.map_id cs
  | succ m IH =>
    intro k hk
    rw [List.range_succ_eq_map]
    simp only [List.map_cons, List.flatten_cons, List.map_map, Nat.add_zero]
    rw [parseBinaryLoop]
    have hrowlen := row_flatten_length cs k
    rw [if_neg (by
      rw [List.length_append, hrowlen]
      omega)]
    rw [List.take_left' hrowlen, List.drop_left' hrowlen]
    have hrow := binRowLoop_row k fs cs hwf []
      (fun c hc => by rw [halign c hc]; omega)
    simp only [List.nil_append, List.length_nil] at hrow
    rw [hrow]
    have hmap : (List.range m).map ((fun j =>
        (cs.map (fun c => leBytes c.kind.width (c.vals.getD (k + j) 0))).flatten)
          ∘ (fun j => j + 1))
        = (List.range m).map (fun j =>
          (cs.map (fun c => leBytes c.kind.width (c.vals.getD (k + 1 + j) 0))).flatten) := by
      refine List.map_congr_left ?_
      intro j _
      simp only [Function.comp_apply]
      have : k + (j + 1) = k + 1 + j := by omega
      rw [this]
    rw [hmap, IH (k + 1) (by omega)]

theorem map_createStorage (fs : List FieldInfo) (cs : List Column)
    (hwf : List.Forall₂ fieldColWF fs cs) :
    fs.map FieldInfo.createStorage = cs.map (fun c => ⟨c.kind, []⟩) := by
  induction hwf with
  | nil => rfl
  | @cons f c fs cs hfc _ IH =>
    simp only [List.map_cons]
    rw [fieldColWF_createStorage hfc, IH]

theorem fieldColWF_size_int {f : FieldInfo} {c : Column} (h : fieldColWF f c) :
    f.size * f.count = (c.kind.width : Int) := by
  obtain ⟨hcnt, hc, _⟩ := h
  rcases hc with ⟨_, hs, hk⟩ | ⟨_, hs, hk⟩ | ⟨_, hs, hk⟩ | ⟨_, hs, hk⟩ |
    ⟨_, hs, hk⟩ | ⟨_, hs, hk⟩ | ⟨_, hs, hk⟩ | ⟨_, hs, hk⟩ <;>
    rw [hs, hcnt, hk] <;> rfl

theorem getPointSize_wf (fs : List FieldInfo) (cs : List Column)
    (hwf : List.Forall₂ fieldColWF fs cs) :
    ∀ a : Int, fs.foldl (fun acc f => acc + f.size * f.count) a
      = a + (((cs.map (fun c => c.kind.width)).sum : Nat) : Int) := by
  induction hwf with
  | nil =>
    intro a
    simp
  | @cons f c fs cs hfc _ IH =>
    intro a
    simp only [List.foldl_cons, List.map_cons, List.sum_cons]
    rw [IH (a + f.size * f.count), fieldColWF_size_int hfc]
    push_cast
    ring

theorem parseBinaryData_write (hdr : PCDHeader) (cs : List Column) (npts : Nat)
    (hwf : List.Forall₂ fieldColWF hdr.fields cs)
    (halign : ∀ c ∈ cs, c.vals.length = npts)
    (hpts : hdr.points.toNat = npts) :
    parseBinaryData hdr
      (((List.range npts).map (fun pt =>
        (cs.map (fun c => leBytes c.kind.width (c.vals.getD pt 0))).flatten)).flatten)
      = cs := by
  rw [parseBinaryData, hpts]
  have hpsz : hdr.getPointSize.toNat = (cs.map (fun c => c.kind.width)).sum := by
    rw [PCDHeader.getPointSize, getPointSize_wf hdr.fields cs hwf 0]
    rw [zero_add, Int.toNat_natCast]
  rw [hpsz, map_createStorage hdr.fields cs hwf]
  have h0 : cs.map (fun c => (⟨c.kind, []⟩ : Column))
      = cs.map (fun c => ⟨c.kind, c.vals.take 0⟩) := rfl
  rw [h0]
  have := parseBinaryLoop_write hdr.fields cs npts hwf halign npts 0 (by omega)
  simpa using this

theorem drop_append_le {α : Type} :
    ∀ (l1 : List α) (n : Nat), n ≤ l1.length → ∀ l2 : List α,
      (l1 ++ l2).drop n = l1.drop n ++ l2 := by
  intro l1
  induction l1 with
  | nil =>
    intro n hn l2
    have : n = 0 := by
      simp only [List.length_nil] at hn
      omega
    rw [this]
    rfl
  | cons a l1 IH =>
    intro n hn l2
    cases n with
    | zero => rfl
    | succ n =>
      simp only [List.length_cons] at hn
      rw [List.cons_append, List.drop_succ_cons, List.drop_succ_cons]
      exact IH n (by omega) l2

theorem flatten_blocksW_drop (g : Nat → List Nat) (w : Nat)
    (hg : ∀ i, (g i).length = w) :
    ∀ (pt n : Nat), pt ≤ n →
      (((List.range n).map g).flatten).drop (pt * w)
        = ((List.range (n - pt)).map (fun j => g (pt + j))).flatten := by
  intro pt
  induction pt with
  | zero =>
    intro n _
    simp only [Nat.zero_mul, List.drop_zero, Nat.sub_zero]
    congr 1
    refine List.map_congr_left ?_
    intro j _
    rw [Nat.zero_add]
  | succ pt IH =>
    intro n hn
    have h2 := IH n (by omega)
    have hstep : (pt + 1) * w = pt * w + w := by ring
    rw [hstep, List.drop_add, h2]
    have hnpt : n - pt = (n - (pt + 1)) + 1 := by omega
    rw [hnpt, List.range_succ_eq_map]
    simp only [List.map_cons, List.flatten_cons, List.map_map, Nat.add_zero]
    rw [List.drop_left' (hg pt)]
    congr 1
    refine List.map_congr_left ?_
    intro j _
    simp only [Function.comp_apply]
    have : pt + (j + 1) = pt + 1 + j := by omega
    rw [this]

theorem flatten_blocksW_length (g : Nat → List Nat) (w : Nat)
    (hg : ∀ i, (g i).length = w) (n : Nat) :
    (((List.range n).map g).flatten).length = n * w := by
  induction n with
  | zero => simp
  | succ n IH =>
    rw [List.range_succ]
    simp only [List.map_append, List.flatten_append, List.map_cons, List.map_nil,
      List.flatten_cons, List.flatten_nil, List.append_nil, List.length_append, IH, hg n]
    ring

theorem fieldBuffer_aligned (c : Column) (npts : Nat) (h : c.vals.length = npts) :
    fieldBuffer c npts
      = ((List.range npts).map (fun pt =>
          leBytes c.kind.width (c.vals.getD pt 0))).flatten := by
  rw [fieldBuffer]
  congr 1
  refine List.map_congr_left ?_
  intro pt hpt
  rw [List.mem_range] at hpt
  rw [if_pos (by omega)]

theorem fieldBuffer_length (c : Column) (npts : Nat) :
    (fieldBuffer c npts).length = npts * c.kind.width := by
  rw [fieldBuffer]
  refine flatten_blocksW_length _ _ ?_ npts
  intro i
  by_cases h : i < c.vals.length
  · rw [if_pos h, leBytes_length]
  · rw [if_neg h, List.length_replicate]

theorem fmReadFieldLoop_write (f : FieldInfo) (c : Column) (hfc : fieldColWF f c)
    (pre post : List Nat) (npts : Nat) (hlen : c.vals.length = npts) :
    ∀ (n pt : Nat), pt + n = npts →
      fmReadFieldLoop f
        (pre ++ ((((List.range npts).map (fun j =>
          leBytes c.kind.width (c.vals.getD j 0))).flatten) ++ post))
        pre.length n pt ⟨c.kind, c.vals.take pt⟩
      = ⟨c.kind, c.vals⟩ := by
  intro n
  induction n with
  | zero =>
    intro pt hpt
    rw [fmReadFieldLoop]
    have : c.vals.take pt = c.vals := by
      rw [show pt = npts from by omega, ← hlen, List.take_length]
    rw [this]
  | succ n IH =>
    intro pt hpt
    rw [fmReadFieldLoop]
    rw [fieldColWF_binReadField hfc ⟨c.kind, c.vals.take pt⟩ rfl]
    rw [fieldColWF_size hfc]
    have hdrop : (pre ++ ((((List.range npts).map (fun j =>
        leBytes c.kind.width (c.vals.getD j 0))).flatten) ++ post)).drop
          (pre.length + pt * c.kind.width)
        = leBytes c.kind.width (c.vals.getD pt 0)
          ++ ((((List.range (npts - (pt + 1))).map (fun j =>
            leBytes c.kind.width (c.vals.getD (pt + 1 + j) 0))).flatten) ++ post) := by
      rw [List.drop_add, List.drop_left]
      rw [drop_append_le _ _ (by
        rw [flatten_blocksW_length _ c.kind.width (fun i => leBytes_length _ _) npts]
        have : pt < npts := by omega
        exact Nat.mul_le_mul_right _ (by omega)) post]
      rw [flatten_blocksW_drop _ c.kind.width (fun i => leBytes_length _ _) pt npts
        (by omega)]
      have hnpt : npts - pt = (npts - (pt + 1)) + 1 := by omega
      rw [hnpt, List.range_succ_eq_map]
      simp only [List.map_cons, List.flatten_cons, List.map_map, Nat.add_zero]
      rw [List.append_assoc]
      congr 2
      refine congrArg List.flatten (List.map_congr_left ?_)
      intro j _
      simp only [Function.comp_apply]
      have : pt + (j + 1) = pt + 1 + j := by omega
      rw [this]
    rw [hdrop]
    rw [leVal_leBytes c.kind.width (c.vals.getD pt 0)
      (hfc.2.2 (c.vals.getD pt 0) (getD_mem c.vals pt 0 (by omega))) _]
    have hcol : ({ kind := c.kind, vals := c.vals.take pt ++ [c.vals.getD pt 0] } : Column)
        = ⟨c.kind, c.vals.take (pt + 1)⟩ := by
      rw [← take_succ_getD c.vals pt (by omega) 0]
    rw [hcol]
    exact IH (pt + 1) (by omega)

theorem fmLoop_write (npts : Nat) :
    ∀ (fs : List FieldInfo) (cs : List Column), List.Forall₂ fieldColWF fs cs →
      (∀ c ∈ cs, c.vals.length = npts) →
      ∀ (pre : List Nat),
      fmLoop (pre ++ (cs.map (fun c => fieldBuffer c npts)).flatten) npts fs
        (cs.map (fun c => ⟨c.kind, []⟩)) pre.length
      = cs := by
  intro fs cs hwf
  induction hwf with
  | nil =>
    intro _ pre
    rfl
  | @cons f c fs cs hfc hrest IH =>
    intro halign pre
    have hlen : c.vals.length = npts := halign c (List.mem_cons_self c cs)
    simp only [List.map_cons, List.flatten_cons]
    rw [fmLoop]
    have hbuf : fieldBuffer c npts
        = ((List.range npts).map (fun pt =>
            leBytes c.kind.width (c.vals.getD pt 0))).flatten :=
      fieldBuffer_aligned c npts hlen
    have hread := fmReadFieldLoop_write f c hfc pre
      ((cs.map (fun c => fieldBuffer c npts)).flatten) npts hlen npts 0 (by omega)
    rw [← hbuf] at hread
    simp only [List.take_zero] at hread
    have hIH := IH (fun c2 hc2 => halign c2 (List.mem_cons_of_mem c hc2))
      (pre ++ fieldBuffer c npts)
    rw [List.append_assoc, List.length_append, fieldBuffer_length,
      Nat.mul_comm npts c.kind.width] at hIH
    rw [fieldColWF_size hfc, hread, hIH]

/-! ### Ascii payload: row/line structure of `writeAscii` under re-parsing. -/

theorem intToDec_ne_nil (v : Int) : intToDec v ≠ [] := by
  rw [intToDec]
  by_cases hv : v < 0
  · rw [if_pos hv]
    simp
  · rw [if_neg hv]
    exact natToDec_ne_nil _

theorem asciiValTok_wf (fio : FloatIO)
    (hf32 : ∀ p, fio.print32 p ≠ [] ∧ ∀ b ∈ fio.print32 p, isWSByte b = false)
    (hf64 : ∀ p, fio.print64 p ≠ [] ∧ ∀ b ∈ fio.print64 p, isWSByte b = false)
    (c : Column) (pt : Nat) (hpt : pt < c.vals.length) :
    asciiValTok fio c pt ≠ [] ∧ ∀ b ∈ asciiValTok fio c pt, isWSByte b = false := by
  rw [asciiValTok, if_pos hpt]
  cases hck : c.kind <;>
    simp only [] <;>
    first
      | exact ⟨intToDec_ne_nil _, intToDec_not_ws _⟩
      | exact hf32 _
      | exact hf64 _

theorem asciiProcessTok_len (fio : FloatIO) (f : FieldInfo) (c cur : Column)
    (tok : List Nat) (hfc : fieldColWF f c) (hk : cur.kind = c.kind) :
    (asciiProcessTok fio f cur tok).kind = cur.kind ∧
    (asciiProcessTok fio f cur tok).vals.length = cur.vals.length + 1 := by
  obtain ⟨_, hcomb, _⟩ := hfc
  rcases hcomb with ⟨ht, hs, hkc⟩ | ⟨ht, hs, hkc⟩ | ⟨ht, hs, hkc⟩ | ⟨ht, hs, hkc⟩ |
    ⟨ht, hs, hkc⟩ | ⟨ht, hs, hkc⟩ | ⟨ht, hs, hkc⟩ | ⟨ht, hs, hkc⟩ <;>
  rw [asciiProcessTok, ht, hs] <;>
  norm_num <;>
  (first
    | (split
       · rw [pushValue, if_pos (by rw [hk, hkc])]
         exact ⟨rfl, by simp⟩
       · exact ⟨rfl, by simp [pushDefault]⟩))

theorem parseAsciiRow_writeAux (fio : FloatIO)
    (hf32 : ∀ p, fio.print32 p ≠ [] ∧ ∀ b ∈ fio.print32 p, isWSByte b = false)
    (hf64 : ∀ p, fio.print64 p ≠ [] ∧ ∀ b ∈ fio.print64 p, isWSByte b = false)
    (pt : Nat) :
    ∀ (fs : List FieldInfo) (cs : List Column), List.Forall₂ fieldColWF fs cs →
      ∀ (cur : List Column), List.Forall₂ (fun c cu => cu.kind = c.kind) cs cur →
      (∀ c ∈ cs, pt < c.vals.length) →
      List.Forall₂ (fun c o => o.kind = c.kind) cs
        (parseAsciiRow fio fs cur
          ((cs.map (fun c => 32 :: asciiValTok fio c pt)).flatten)) ∧
      List.Forall₂ (fun cu o => o.vals.length = cu.vals.length + 1) cur
        (parseAsciiRow fio fs cur
          ((cs.map (fun c => 32 :: asciiValTok fio c pt)).flatten)) := by
  intro fs cs hwf
  induction hwf with
  | nil =>
    intro cur hcur _
    cases hcur
    exact ⟨List.Forall₂.nil, List.Forall₂.nil⟩
  | @cons f c fs cs hfc hrest IH =>
    intro cur hcur halign
    cases hcur with
    | cons hk hcur =>
      rename_i cu cur
      have hpt : pt < c.vals.length := halign c (List.mem_cons_self c cs)
      obtain ⟨htne, htws⟩ := asciiValTok_wf fio hf32 hf64 c pt hpt
      simp only [List.map_cons, List.flatten_cons, List.cons_append]
      have htok : extractTok (32 :: (asciiValTok fio c pt
          ++ ((cs.map (fun c => 32 :: asciiValTok fio c pt)).flatten)))
          = (some (asciiValTok fio c pt),
            (cs.map (fun c => 32 :: asciiValTok fio c pt)).flatten) := by
        rw [extractTok_ws_cons 32 (by rw [isWSByte]; simp)]
        exact extractTok_front _ _ htne htws
          (flatten_cons32_head (fun c => asciiValTok fio c pt) cs)
      rw [parseAsciiRow, htok]
      obtain ⟨IH1, IH2⟩ := IH cur hcur
        (fun c2 hc2 => halign c2 (List.mem_cons_of_mem c hc2))
      obtain ⟨hpk, hpl⟩ := asciiProcessTok_len fio f c cu (asciiValTok fio c pt) hfc hk
      exact ⟨List.Forall₂.cons (by rw [hpk, hk]) IH1,
        List.Forall₂.cons hpl IH2⟩

theorem parseAsciiRow_write (fio : FloatIO)
    (hf32 : ∀ p, fio.print32 p ≠ [] ∧ ∀ b ∈ fio.print32 p, isWSByte b = false)
    (hf64 : ∀ p, fio.print64 p ≠ [] ∧ ∀ b ∈ fio.print64 p, isWSByte b = false)
    (pt : Nat) (f : FieldInfo) (c : Column) (fs : List FieldInfo) (cs : List Column)
    (hfc : fieldColWF f c) (hrest : List.Forall₂ fieldColWF fs cs)
    (cu : Column) (cur : List Column) (hk : cu.kind = c.kind)
    (hcur : List.Forall₂ (fun c cu => cu.kind = c.kind) cs cur)
    (halign : ∀ c2 ∈ c :: cs, pt < c2.vals.length) :
    List.Forall₂ (fun c o => o.kind = c.kind) (c :: cs)
      (parseAsciiRow fio (f :: fs) (cu :: cur) (writeAsciiRow fio (c :: cs) pt)) ∧
    List.Forall₂ (fun cu o => o.vals.length = cu.vals.length + 1) (cu :: cur)
      (parseAsciiRow fio (f :: fs) (cu :: cur) (writeAsciiRow fio (c :: cs) pt)) := by
  have hpt : pt < c.vals.length := halign c (List.mem_cons_self c cs)
  obtain ⟨htne, htws⟩ := asciiValTok_wf fio hf32 hf64 c pt hpt
  rw [writeAsciiRow]
  have htok : extractTok (asciiValTok fio c pt
      ++ ((cs.map (fun c2 => 32 :: asciiValTok fio c2 pt)).flatten))
      = (some (asciiValTok fio c pt),
        (cs.map (fun c2 => 32 :: asciiValTok fio c2 pt)).flatten) :=
    extractTok_front _ _ htne htws
      (flatten_cons32_head (fun c2 => asciiValTok fio c2 pt) cs)
  rw [parseAsciiRow, htok]
  obtain ⟨IH1, IH2⟩ := parseAsciiRow_writeAux fio hf32 hf64 pt fs cs hrest cur hcur
    (fun c2 hc2 => halign c2 (List.mem_cons_of_mem c hc2))
  obtain ⟨hpk, hpl⟩ := asciiProcessTok_len fio f c cu (asciiValTok fio c pt) hfc hk
  exact ⟨List.Forall₂.cons (by rw [hpk, hk]) IH1,
    List.Forall₂.cons hpl IH2⟩

theorem parseAsciiLines_line (fio : FloatIO) (fs : List FieldInfo)
    (cols : List Column) (L r : List Nat)
    (hnoNL : ∀ c ∈ L, (c != 10) = true) :
    parseAsciiLines fio fs cols (L ++ 10 :: r)
      = if L = [] then parseAsciiLines fio fs cols r
        else parseAsciiLines fio fs (parseAsciiRow fio fs cols L) r := by
  cases L with
  | nil =>
    rw [List.nil_append, parseAsciiLines.eq_def]
    simp [lineOf, restOf]
  | cons a L =>
    rw [List.cons_append, parseAsciiLines.eq_def]
    simp only []
    have hline : lineOf (a :: (L ++ 10 :: r)) = a :: L := by
      have := lineOf_append (a :: L) r hnoNL
      rwa [List.cons_append] at this
    have hrest : restOf (a :: (L ++ 10 :: r)) = r := by
      have := restOf_append (a :: L) r hnoNL
      rwa [List.cons_append] at this
    rw [hline, hrest]

theorem asciiValTok_not_ws (fio : FloatIO)
    (hf32 : ∀ p, fio.print32 p ≠ [] ∧ ∀ b ∈ fio.print32 p, isWSByte b = false)
    (hf64 : ∀ p, fio.print64 p ≠ [] ∧ ∀ b ∈ fio.print64 p, isWSByte b = false)
    (c : Column) (pt : Nat) :
    ∀ b ∈ asciiValTok fio c pt, isWSByte b = false := by
  by_cases hpt : pt < c.vals.length
  · exact (asciiValTok_wf fio hf32 hf64 c pt hpt).2
  · rw [asciiValTok, if_neg hpt]
    intro b hb
    cases hb

theorem writeAsciiRow_noNL (fio : FloatIO)
    (hf32 : ∀ p, fio.print32 p ≠ [] ∧ ∀ b ∈ fio.print32 p, isWSByte b = false)
    (hf64 : ∀ p, fio.print64 p ≠ [] ∧ ∀ b ∈ fio.print64 p, isWSByte b = false)
    (cs : List Column) (pt : Nat) :
    ∀ b ∈ writeAsciiRow fio cs pt, (b != 10) = true := by
  cases cs with
  | nil =>
    intro b hb
    cases hb
  | cons c cs =>
    intro b hb
    rw [writeAsciiRow] at hb
    rw [List.mem_append] at hb
    rcases hb with hb | hb
    · exact not_ws_ne10 (asciiValTok_not_ws fio hf32 hf64 c pt b hb)
    · rcases mem_flatten_cons32 (fun c2 => asciiValTok fio c2 pt) cs b hb with h | ⟨c2, _, hb2⟩
      · rw [h]
        rfl
      · exact not_ws_ne10 (asciiValTok_not_ws fio hf32 hf64 c2 pt b hb2)

theorem forall₂_len_step (k : Nat) :
    ∀ (cs cur out : List Column),
      List.Forall₂ (fun c cu => cu.kind = c.kind ∧ cu.vals.length = k) cs cur →
      List.Forall₂ (fun c o => o.kind = c.kind) cs out →
      List.Forall₂ (fun cu o => o.vals.length = cu.vals.length + 1) cur out →
      List.Forall₂ (fun c o => o.kind = c.kind ∧ o.vals.length = k + 1) cs out := by
  intro cs
  induction cs with
  | nil =>
    intro cur out h1 h2 _
    cases h1
    cases h2
    exact List.Forall₂.nil
  | cons c cs IH =>
    intro cur out h1 h2 h3
    rcases h1 with _ | ⟨⟨hck, hcl⟩, h1⟩
    rcases h2 with _ | ⟨hok, h2⟩
    rcases h3 with _ | ⟨hol, h3⟩
    exact List.Forall₂.cons ⟨hok, by omega⟩ (IH _ _ h1 h2 h3)

theorem parseAsciiLines_write (fio : FloatIO)
    (hf32 : ∀ p, fio.print32 p ≠ [] ∧ ∀ b ∈ fio.print32 p, isWSByte b = false)
    (hf64 : ∀ p, fio.print64 p ≠ [] ∧ ∀ b ∈ fio.print64 p, isWSByte b = false)
    (fs : List FieldInfo) (c0 : Column) (cs : List Column)
    (hwf : List.Forall₂ fieldColWF fs (c0 :: cs))
    (npts : Nat) (halign : ∀ c ∈ c0 :: cs, c.vals.length = npts) :
    ∀ (m k : Nat), k + m = npts →
      ∀ (cur : List Column),
        List.Forall₂ (fun c cu => cu.kind = c.kind ∧ cu.vals.length = k) (c0 :: cs) cur →
        List.Forall₂ (fun c o => o.kind = c.kind ∧ o.vals.length = npts) (c0 :: cs)
          (parseAsciiLines fio fs cur
            (((List.range m).map (fun j =>
              writeAsciiRow fio (c0 :: cs) (k + j) ++ [10])).flatten)) := by
  intro m
  induction m with
  | zero =>
    intro k hk cur hcur
    simp only [List.range_zero, List.map_nil, List.flatten_nil]
    rw [parseAsciiLines.eq_def]
    simp only []
    refine List.Forall₂.imp ?_ hcur
    intro c cu ⟨h1, h2⟩
    exact ⟨h1, by omega⟩
  | succ m IH =>
    intro k hk cur hcur
    rw [List.range_succ_eq_map]
    simp only [List.map_cons, List.flatten_cons, List.map_map, Nat.add_zero]
    rw [List.append_assoc, List.singleton_append]
    rw [parseAsciiLines_line fio fs cur _ _
      (writeAsciiRow_noNL fio hf32 hf64 (c0 :: cs) k)]
    have hk0 : k < c0.vals.length := by
      rw [halign c0 (List.mem_cons_self c0 cs)]
      omega
    have hrowne : writeAsciiRow fio (c0 :: cs) k ≠ [] := by
      rw [writeAsciiRow]
      have := (asciiValTok_wf fio hf32 hf64 c0 k hk0).1
      intro h
      rw [List.append_eq_nil] at h
      exact this h.1
    rw [if_neg hrowne]
    rcases hwf with _ | ⟨hfc, hrest⟩
    rename_i f fs
    rcases hcur with _ | ⟨⟨hck, hcl⟩, hcur⟩
    rename_i cu cur
    obtain ⟨hrow1, hrow2⟩ := parseAsciiRow_write fio hf32 hf64 k f c0 fs cs hfc hrest
      cu cur hck (List.Forall₂.imp (fun c cu h => h.1) hcur)
      (fun c2 hc2 => by rw [halign c2 hc2]; omega)
    have hnext := forall₂_len_step k (c0 :: cs) (cu :: cur) _
      (List.Forall₂.cons ⟨hck, hcl⟩ hcur) hrow1 hrow2
    have hmap : (List.range m).map ((fun j =>
        writeAsciiRow fio (c0 :: cs) (k + j) ++ [10]) ∘ (fun j => j + 1))
        = (List.range m).map (fun j =>
          writeAsciiRow fio (c0 :: cs) (k + 1 + j) ++ [10]) := by
      refine List.map_congr_left ?_
      intro j _
      simp only [Function.comp_apply]
      have : k + (j + 1) = k + 1 + j := by omega
      rw [this]
    rw [hmap]
    exact IH (k + 1) (by omega) _ hnext

theorem parseAsciiLines_nil_fields (fio : FloatIO) :
    ∀ (N : Nat) (s : List Nat), s.length ≤ N → parseAsciiLines fio [] [] s = [] := by
  intro N
  induction N with
  | zero =>
    intro s hs
    have : s = [] := by
      cases s with
      | nil => rfl
      | cons a l => simp at hs
    rw [this, parseAsciiLines.eq_def]
  | succ N IH =>
    intro s hs
    rw [parseAsciiLines.eq_def]
    cases s with
    | nil => rfl
    | cons a s2 =>
      simp only []
      have hlt : (restOf (a :: s2)).length < (a :: s2).length :=
        restOf_length_lt (by simp)
      simp only [List.length_cons] at hlt hs
      by_cases hline : lineOf (a :: s2) = []
      · rw [if_pos hline]
        exact IH _ (by omega)
      · rw [if_neg hline]
        rw [show parseAsciiRow fio [] [] (lineOf (a :: s2)) = [] from rfl]
        exact IH _ (by omega)

/-- Cloud well-formedness for the write/parse round trip: printable header
text, recognized field/column pairs, aligned column lengths, in-range
bit patterns. -/
def cloudWF (od : PCDData) : Prop :=
  od.header.version ≠ [] ∧ (∀ c ∈ od.header.version, isWSByte c = false) ∧
  (∀ f ∈ od.header.fields, f.name ≠ [] ∧ ∀ c ∈ f.name, isWSByte c = false) ∧
  (∀ f ∈ od.header.fields, isWSByte f.type = false) ∧
  (∀ c ∈ od.header.viewpoint, (c != 10) = true) ∧
  List.Forall₂ fieldColWF od.header.fields od.fieldData ∧
  (∀ c ∈ od.fieldData, c.vals.length = od.numPoints)

theorem parse_write_binary (fio : FloatIO) (od : PCDData) (hwf : cloudWF od) :
    parse fio (writeHeaderBytes od (strBytes ("binary")) ++ writeBinary od)
      = some ⟨{ version := od.header.version, fields := od.header.fields,
                width := (od.numPoints : Int), height := 1,
                viewpoint := od.header.viewpoint, points := (od.numPoints : Int),
                dataType := strBytes ("binary") }, od.fieldData⟩ := by
  obtain ⟨h1, h2, h3, h4, h5, h6, h7⟩ := hwf
  rw [parse]
  rw [parseHeader_write od (strBytes ("binary")) _ h1 h2 h3 h4 h5 (by decide) (by decide)]
  simp only []
  rw [if_neg (by decide), if_true]
  have hrows : writeBinary od = ((List.range od.numPoints).map (fun pt =>
      (od.fieldData.map (fun c => leBytes c.kind.width (c.vals.getD pt 0))).flatten)).flatten := by
    rw [writeBinary]
    congr 1
    refine List.map_congr_left ?_
    intro pt hpt
    rw [List.mem_range] at hpt
    congr 1
    refine List.map_congr_left ?_
    intro c hc
    rw [if_pos (by rw [h7 c hc]; omega)]
  rw [hrows]
  refine congrArg some (congrArg (PCDData.mk _) ?_)
  exact parseBinaryData_write _ od.fieldData od.numPoints h6 h7 (Int.toNat_natCast _)

theorem parse_write_binary_compressed (fio : FloatIO) (od : PCDData) (hwf : cloudWF od)
    (hne : (od.fieldData.map (fun c => fieldBuffer c od.numPoints)).flatten ≠ [])
    (hbound : ((od.fieldData.map (fun c => fieldBuffer c od.numPoints)).flatten).length
      + ((od.fieldData.map (fun c => fieldBuffer c od.numPoints)).flatten).length / 32 + 1
      < 4294967296) :
    ∃ payload, writeBinaryCompressed od = some payload ∧
      parse fio (writeHeaderBytes od (strBytes ("binary_compressed")) ++ payload)
        = some ⟨{ version := od.header.version, fields := od.header.fields,
                  width := (od.numPoints : Int), height := 1,
                  viewpoint := od.header.viewpoint, points := (od.numPoints : Int),
                  dataType := strBytes ("binary_compressed") }, od.fieldData⟩ := by
  obtain ⟨h1, h2, h3, h4, h5, h6, h7⟩ := hwf
  obtain ⟨out, hcomp, hdecomp, hlen⟩ := lzfCompress_roundtrip
    ((od.fieldData.map (fun c => fieldBuffer c od.numPoints)).flatten) hne
  have hucne : 0 < ((od.fieldData.map (fun c => fieldBuffer c od.numPoints)).flatten).length := by
    cases hu : (od.fieldData.map (fun c => fieldBuffer c od.numPoints)).flatten with
    | nil => exact absurd hu hne
    | cons a l => simp
  refine ⟨leBytes 4 out.length
      ++ leBytes 4 ((od.fieldData.map (fun c => fieldBuffer c od.numPoints)).flatten).length
      ++ out, ?_, ?_⟩
  · rw [writeBinaryCompressed]
    rw [hcomp]
  · rw [parse]
    rw [parseHeader_write od (strBytes ("binary_compressed")) _ h1 h2 h3 h4 h5
      (by decide) (by decide)]
    simp only []
    rw [if_neg (by decide), if_neg (by decide), if_true]
    rw [parseBinaryCompressedData]
    rw [if_neg (by
      simp only [List.length_append, leBytes_length]
      omega)]
    have hq1 : leVal 4 (leBytes 4 out.length
        ++ (leBytes 4 ((od.fieldData.map (fun c => fieldBuffer c od.numPoints)).flatten).length
          ++ out)) = out.length :=
      leVal_leBytes 4 out.length
        (by rw [show (256 : Nat) ^ 4 = 4294967296 from by norm_num]; omega) _
    have hq2 : (leBytes 4 out.length
        ++ (leBytes 4 ((od.fieldData.map (fun c => fieldBuffer c od.numPoints)).flatten).length
          ++ out)).drop 4
        = leBytes 4 ((od.fieldData.map (fun c => fieldBuffer c od.numPoints)).flatten).length
          ++ out := List.drop_left' (leBytes_length 4 _)
    have hq3 : leVal 4 (leBytes 4
        ((od.fieldData.map (fun c => fieldBuffer c od.numPoints)).flatten).length ++ out)
        = ((od.fieldData.map (fun c => fieldBuffer c od.numPoints)).flatten).length :=
      leVal_leBytes 4 _
        (by rw [show (256 : Nat) ^ 4 = 4294967296 from by norm_num]; omega) _
    have hq4 : (leBytes 4 out.length
        ++ (leBytes 4 ((od.fieldData.map (fun c => fieldBuffer c od.numPoints)).flatten).length
          ++ out)).drop 8 = out := by
      rw [show (8 : Nat) = 4 + 4 from rfl, List.drop_add]
      rw [List.drop_left' (leBytes_length 4 _), List.drop_left' (leBytes_length 4 _)]
    rw [List.append_assoc, hq1, hq2, hq3, hq4]
    rw [if_neg (by omega)]
    rw [List.take_of_length_le (by omega)]
    rw [hdecomp]
    simp only []
    rw [if_neg (by
      push_neg
      constructor
      · omega
      · rfl)]
    refine congrArg some (congrArg (PCDData.mk _) ?_)
    rw [map_createStorage _ _ h6, Int.toNat_natCast]
    have := fmLoop_write od.numPoints _ _ h6 h7 []
    simp only [List.nil_append, List.length_nil] at this
    exact this

theorem forall₂_map_init (cs : List Column) :
    List.Forall₂ (fun (c cu : Column) => cu.kind = c.kind ∧ cu.vals.length = 0) cs
      (cs.map (fun c => (⟨c.kind, []⟩ : Column))) := by
  induction cs with
  | nil => exact List.Forall₂.nil
  | cons c cs IH => exact List.Forall₂.cons ⟨rfl, rfl⟩ IH

theorem parse_write_ascii (fio : FloatIO)
    (hf32 : ∀ p, fio.print32 p ≠ [] ∧ ∀ b ∈ fio.print32 p, isWSByte b = false)
    (hf64 : ∀ p, fio.print64 p ≠ [] ∧ ∀ b ∈ fio.print64 p, isWSByte b = false)
    (od : PCDData) (hwf : cloudWF od) :
    ∃ pd, parse fio (writeHeaderBytes od (strBytes ("ascii")) ++ writeAscii fio od)
        = some pd ∧
      pd.numPoints = od.numPoints ∧
      pd.header.fields = od.header.fields ∧
      pd.header.dataType = strBytes ("ascii") := by
  obtain ⟨h1, h2, h3, h4, h5, h6, h7⟩ := hwf
  rw [parse]
  rw [parseHeader_write od (strBytes ("ascii")) _ h1 h2 h3 h4 h5 (by decide) (by decide)]
  simp only []
  rw [if_true]
  refine ⟨_, rfl, ?_, rfl, rfl⟩
  rw [parseAsciiData]
  simp only []
  cases hcs : od.fieldData with
  | nil =>
    have hlen0 : od.header.fields.length = 0 := by
      have := List.Forall₂.length_eq h6
      rw [hcs] at this
      simpa using this
    have hfs : od.header.fields = [] := List.eq_nil_of_length_eq_zero hlen0
    have hz : od.numPoints = 0 := by
      rw [PCDData.numPoints, hcs]
    rw [hfs]
    simp only [List.map_nil]
    rw [parseAsciiLines_nil_fields fio (writeAscii fio od).length _ (le_refl _)]
    rw [PCDData.numPoints, hz]
  | cons c0 cs =>
    rw [hcs] at h6
    cases hfs : od.header.fields with
    | nil =>
      rw [hfs] at h6
      cases h6
    | cons f fs =>
      rw [hfs] at h6
      cases h6 with
      | cons hfc hrest =>
      have halign : ∀ c ∈ c0 :: cs, c.vals.length = od.numPoints := by
        intro c hc
        rw [← hcs] at hc
        exact h7 c hc
      have hwa : writeAscii fio od = ((List.range od.numPoints).map (fun j =>
          writeAsciiRow fio (c0 :: cs) (0 + j) ++ [10])).flatten := by
        rw [writeAscii, hcs]
        congr 1
        refine List.map_congr_left ?_
        intro j _
        rw [Nat.zero_add]
      rw [hwa]
      have hinit : List.Forall₂
          (fun (c cu : Column) => cu.kind = c.kind ∧ cu.vals.length = 0)
          (c0 :: cs) (((f :: fs).map FieldInfo.createStorage)) := by
        rw [map_createStorage (f :: fs) (c0 :: cs) (List.Forall₂.cons hfc hrest)]
        exact forall₂_map_init (c0 :: cs)
      have hout := parseAsciiLines_write fio hf32 hf64 (f :: fs) c0 cs
        (List.Forall₂.cons hfc hrest) od.numPoints halign od.numPoints 0
        (by omega) _ hinit
      rw [List.forall₂_cons_left_iff] at hout
      obtain ⟨o, out2, ⟨hok, hol⟩, _, hshape⟩ := hout
      rw [PCDData.numPoints]
      simp only []
      rw [hshape]
      exact hol

/-! ## C3: write/parse round trips per encoding -/

theorem numPoints_hdr (h h2 : PCDHeader) (fd : List Column) :
    PCDData.numPoints ⟨h, fd⟩ = PCDData.numPoints ⟨h2, fd⟩ := rfl

/-- Witness cloud for C3: a single float `x` field; both colour transforms are
the identity on it. -/
def c3w : PCDData :=
  { header := { version := strBytes ("0.7"),
                fields := [⟨strBytes ("x"), 4, 70, 1⟩],
                width := 1, height := 1,
                viewpoint := strBytes ("0 0 0 1 0 0 0"),
                points := 1, dataType := strBytes ("ascii") },
    fieldData := [⟨.f32, [1065353216]⟩] }

/-- Counterexample cloud for C3: separate `uint8` `r`,`g`,`b` colour fields,
which `write` merges into one packed `rgb` float field before a binary dump. -/
def c3cex : PCDData :=
  { header := { version := strBytes ("0.7"),
                fields := [⟨strBytes ("r"), 1, 85, 1⟩, ⟨strBytes ("g"), 1, 85, 1⟩,
                           ⟨strBytes ("b"), 1, 85, 1⟩],
                width := 1, height := 1, viewpoint := strBytes ("0"),
                points := 1, dataType := strBytes ("ascii") },
    fieldData := [⟨.u8, [1]⟩, ⟨.u8, [2]⟩, ⟨.u8, [3]⟩] }

/-- What `write` actually dumps for `c3cex` in a binary format: the packed
cloud. -/
def c3od : PCDData := packRGBForBinary c3cex

/-- **C3** (amended): for a well-formed cloud on which the format-selected
colour transform is the identity (no separate `r`,`g`,`b` `uint8` fields for
the binary formats, no packed `rgb` float field for ascii), writing with each
of the three encodings and re-parsing the file succeeds and preserves the
point count and the field list; for `binary` and `binary_compressed` every
column's values come back bit-for-bit identical.  (The float-printer
hypotheses say the ascii printer emits nonempty whitespace-free tokens; the
`hne`/`hbound` hypotheses are the compressor's nonempty-input and 32-bit
size-header preconditions.) -/
theorem c3_write_parse_roundtrip (fio : FloatIO) (od : PCDData)
    (hwf : cloudWF od)
    (hf32 : ∀ p, fio.print32 p ≠ [] ∧ ∀ b ∈ fio.print32 p, isWSByte b = false)
    (hf64 : ∀ p, fio.print64 p ≠ [] ∧ ∀ b ∈ fio.print64 p, isWSByte b = false)
    (hunpack : unpackRGBForAscii od = od)
    (hpack : packRGBForBinary od = od)
    (hne : (od.fieldData.map (fun c => fieldBuffer c od.numPoints)).flatten ≠ [])
    (hbound : ((od.fieldData.map (fun c => fieldBuffer c od.numPoints)).flatten).length
      + ((od.fieldData.map (fun c => fieldBuffer c od.numPoints)).flatten).length / 32 + 1
      < 4294967296) :
    (∃ file pd, writeFile fio od (strBytes ("ascii")) = some file ∧
       parse fio file = some pd ∧ pd.numPoints = od.numPoints ∧
       pd.header.fields = od.header.fields) ∧
    (∃ file pd, writeFile fio od (strBytes ("binary")) = some file ∧
       parse fio file = some pd ∧ pd.numPoints = od.numPoints ∧
       pd.header.fields = od.header.fields ∧ pd.fieldData = od.fieldData) ∧
    (∃ file pd, writeFile fio od (strBytes ("binary_compressed")) = some file ∧
       parse fio file = some pd ∧ pd.numPoints = od.numPoints ∧
       pd.header.fields = od.header.fields ∧ pd.fieldData = od.fieldData) := by
  refine ⟨?_, ?_, ?_⟩
  · obtain ⟨pd, hp, hnp, hf, _⟩ := parse_write_ascii fio hf32 hf64 od hwf
    refine ⟨writeHeaderBytes od (strBytes ("ascii")) ++ writeAscii fio od, pd, ?_, hp, hnp, hf⟩
    rw [writeFile]
    rw [if_neg (by decide), if_neg (by decide), if_neg (by decide), hunpack]
  · refine ⟨writeHeaderBytes od (strBytes ("binary")) ++ writeBinary od,
      _, ?_, parse_write_binary fio od hwf, numPoints_hdr _ od.header _, rfl, rfl⟩
    rw [writeFile]
    rw [if_neg (by decide), if_pos (by decide), if_pos (by decide), hpack]
  · obtain ⟨payload, hwbc, hp⟩ := parse_write_binary_compressed fio od hwf hne hbound
    refine ⟨writeHeaderBytes od (strBytes ("binary_compressed")) ++ payload,
      _, ?_, hp, numPoints_hdr _ od.header _, rfl, rfl⟩
    rw [writeFile]
    rw [if_pos (by decide), if_pos (by decide), hpack, hwbc]

/-- **C3 counterexample** to the unamended claim: `c3cex` has separate `uint8`
`r`,`g`,`b` fields; writing it as `binary` and re-parsing yields a cloud with
the same point count but the `r` field (present in `c3cex` at index 0) is
gone — the columns are not reproduced bit-for-bit. -/
theorem c3_rgb_fields_not_preserved :
    ∃ file pd, writeFile fio0 c3cex (strBytes ("binary")) = some file ∧
      parse fio0 file = some pd ∧
      pd.numPoints = c3cex.numPoints ∧
      c3cex.header.findField (strBytes ("r")) = some 0 ∧
      pd.header.findField (strBytes ("r")) = none ∧
      pd.fieldData ≠ c3cex.fieldData := by
  have hwf : cloudWF c3od := ⟨by decide, by decide, by decide, by decide, by decide,
    List.Forall₂.cons (by unfold fieldColWF; decide) List.Forall₂.nil, by decide⟩
  refine ⟨writeHeaderBytes c3od (strBytes ("binary")) ++ writeBinary c3od,
    _, ?_, parse_write_binary fio0 c3od hwf, rfl, by decide, by decide, by decide⟩
  rw [writeFile]
  rw [if_neg (by decide), if_pos (by decide), if_pos (by decide)]
  rfl

/-- **C3 witness**: the round trip instantiated at the concrete one-point
cloud `c3w` and the decimal float printer `fio0`. -/
theorem c3_write_parse_roundtrip_witness :
    (∃ file pd, writeFile fio0 c3w (strBytes ("ascii")) = some file ∧
       parse fio0 file = some pd ∧ pd.numPoints = c3w.numPoints ∧
       pd.header.fields = c3w.header.fields) ∧
    (∃ file pd, writeFile fio0 c3w (strBytes ("binary")) = some file ∧
       parse fio0 file = some pd ∧ pd.numPoints = c3w.numPoints ∧
       pd.header.fields = c3w.header.fields ∧ pd.fieldData = c3w.fieldData) ∧
    (∃ file pd, writeFile fio0 c3w (strBytes ("binary_compressed")) = some file ∧
       parse fio0 file = some pd ∧ pd.numPoints = c3w.numPoints ∧
       pd.header.fields = c3w.header.fields ∧ pd.fieldData = c3w.fieldData) :=
  c3_write_parse_roundtrip fio0 c3w
    ⟨by decide, by decide, by decide, by decide, by decide,
      List.Forall₂.cons (by unfold fieldColWF; decide) List.Forall₂.nil, by decide⟩
    (fun p => ⟨natToDec_ne_nil p, natToDec_not_ws p⟩)
    (fun p => ⟨natToDec_ne_nil p, natToDec_not_ws p⟩)
    rfl rfl (by decide) (by decide)

/-! ## C6: updateLabels frame conditions -/

/-- The header that re-parsing a just-written file reports (width/points
recomputed from the column sizes, `HEIGHT 1`, the written format). -/
def reHeader (od : PCDData) (format : List Nat) : PCDHeader :=
  { version := od.header.version, fields := od.header.fields,
    width := (od.numPoints : Int), height := 1,
    viewpoint := od.header.viewpoint, points := (od.numPoints : Int),
    dataType := format }

theorem setLabels_none (d : PCDData) (labels : List Nat)
    (hff : findFieldAux (strBytes ("label")) d.header.fields 0 = none) :
    d.setLabels labels
      = ⟨d.header.addField (strBytes ("label")) 4 85 1,
         d.fieldData ++ [⟨ColKind.u32, labels⟩]⟩ := by
  rw [PCDData.setLabels, PCDHeader.findField, hff]

theorem setLabels_some (d : PCDData) (labels : List Nat) (idx : Nat)
    (hff : findFieldAux (strBytes ("label")) d.header.fields 0 = some idx) :
    d.setLabels labels = ⟨d.header, d.fieldData.set idx ⟨ColKind.u32, labels⟩⟩ := by
  rw [PCDData.setLabels, PCDHeader.findField, hff]

theorem forall₂_append_wf {l1 : List FieldInfo} {l2 : List Column}
    {p1 : List FieldInfo} {p2 : List Column}
    (h : List.Forall₂ fieldColWF l1 l2) (hp : List.Forall₂ fieldColWF p1 p2) :
    List.Forall₂ fieldColWF (l1 ++ p1) (l2 ++ p2) := by
  induction h with
  | nil => exact hp
  | cons hx hrest IH => exact List.Forall₂.cons hx IH

theorem forall₂_set_col (d0 : FieldInfo) (fs : List FieldInfo) (cs : List Column)
    (h : List.Forall₂ fieldColWF fs cs) :
    ∀ (idx : Nat) (c : Column), fieldColWF (fs.getD idx d0) c →
      List.Forall₂ fieldColWF fs (cs.set idx c) := by
  induction h with
  | nil => intro idx c _; cases idx <;> exact List.Forall₂.nil
  | cons hfc hrest IH =>
    intro idx c hidx
    cases idx with
    | zero => exact List.Forall₂.cons hidx hrest
    | succ n => exact List.Forall₂.cons hfc (IH n c hidx)

theorem numPoints_append_eq (h : PCDHeader) (d : PCDData) (x : Column)
    (hx : x.vals.length = d.numPoints) :
    PCDData.numPoints ⟨h, d.fieldData ++ [x]⟩ = d.numPoints := by
  cases hfd : d.fieldData with
  | nil =>
    have hz : d.numPoints = 0 := by rw [PCDData.numPoints, hfd]
    rw [hz]
    rw [show PCDData.numPoints ⟨h, [] ++ [x]⟩ = x.vals.length from rfl]
    rw [hx, hz]
  | cons c rest =>
    rw [show PCDData.numPoints ⟨h, (c :: rest) ++ [x]⟩ = c.vals.length from rfl]
    rw [PCDData.numPoints, hfd]

theorem numPoints_set_eq (h : PCDHeader) (d : PCDData) (x : Column) (idx : Nat)
    (hx : x.vals.length = d.numPoints) :
    PCDData.numPoints ⟨h, d.fieldData.set idx x⟩ = d.numPoints := by
  cases hfd : d.fieldData with
  | nil =>
    have hz : d.numPoints = 0 := by rw [PCDData.numPoints, hfd]
    rw [hz]
    rw [show ([] : List Column).set idx x = [] from by cases idx <;> rfl]
    rw [show PCDData.numPoints ⟨h, ([] : List Column)⟩ = 0 from rfl]
  | cons c rest =>
    cases idx with
    | zero =>
      rw [show (c :: rest).set 0 x = x :: rest from rfl]
      rw [show PCDData.numPoints ⟨h, x :: rest⟩ = x.vals.length from rfl]
      exact hx
    | succ n =>
      rw [show (c :: rest).set (n + 1) x = c :: rest.set n x from rfl]
      rw [show PCDData.numPoints ⟨h, c :: rest.set n x⟩ = c.vals.length from rfl]
      rw [PCDData.numPoints, hfd]

theorem updateLabels_binary_eq (fio : FloatIO) (od : PCDData) (labels : List Nat)
    (hwf : cloudWF od) :
    updateLabels fio (writeHeaderBytes od (strBytes ("binary")) ++ writeBinary od) labels
      = writeFile fio
          (PCDData.setLabels ⟨reHeader od (strBytes ("binary")), od.fieldData⟩ labels)
          ((PCDData.setLabels ⟨reHeader od (strBytes ("binary")), od.fieldData⟩
              labels).header.dataType) := by
  have hp : parse fio (writeHeaderBytes od (strBytes ("binary")) ++ writeBinary od)
      = some ⟨reHeader od (strBytes ("binary")), od.fieldData⟩ :=
    parse_write_binary fio od hwf
  rw [updateLabels, updateLabelsWithFormat, hp]
  simp only []
  rw [if_true]

/-- Witness cloud for C6: one float `x` field, no `label` field yet. -/
def c6w : PCDData :=
  { header := { version := strBytes ("0.7"),
                fields := [⟨strBytes ("x"), 4, 70, 1⟩],
                width := 1, height := 1, viewpoint := strBytes ("0"),
                points := 1, dataType := strBytes ("ascii") },
    fieldData := [⟨.f32, [3]⟩] }

/-- Counterexample cloud for C6: a one-point cloud whose only field is the
`uint32` `label` field itself. -/
def c6cloud : PCDData :=
  { header := { version := strBytes ("0.7"),
                fields := [⟨strBytes ("label"), 4, 85, 1⟩],
                width := 1, height := 1, viewpoint := strBytes ("0"),
                points := 1, dataType := strBytes ("ascii") },
    fieldData := [⟨.u32, [7]⟩] }

/-- `c6cloud` after `setLabels [5, 6]`, as rewritten by `updateLabels`. -/
def c6od2 : PCDData :=
  { header := { version := strBytes ("0.7"),
                fields := [⟨strBytes ("label"), 4, 85, 1⟩],
                width := 1, height := 1, viewpoint := strBytes ("0"),
                points := 1, dataType := strBytes ("binary") },
    fieldData := [⟨.u32, [5, 6]⟩] }

/-- **C6** (amended): on a well-formed binary file, `updateLabels` parses,
replaces (or appends) the `label` column and rewrites; with as many labels
as original points (`hlab`) the re-parsed file keeps the original point
count, every column other than `label` is byte-identical (`++ [..]` keeps
the originals, `set idx` touches only the label column), and when `label`
was absent it is created as FIELDS entry `label`, SIZE 4, TYPE U, COUNT 1
holding a `uint32` column.  `hlf` says an existing `label` field is itself
the 4-byte unsigned field the new column replaces; `hpack2` says the
rewritten cloud has no separate `r`,`g`,`b` `uint8` triple the binary
colour transform would merge. -/
theorem c6_updateLabels_spec (fio : FloatIO) (od : PCDData) (labels : List Nat)
    (hwf : cloudWF od)
    (hlab : labels.length = od.numPoints)
    (hlabv : ∀ v ∈ labels, v < 256 ^ 4)
    (hlf : ∀ idx, od.header.findField (strBytes ("label")) = some idx →
      fieldColWF (od.header.fields.getD idx ⟨[], 0, 0, 0⟩) ⟨ColKind.u32, labels⟩)
    (hpack2 : packRGBForBinary
        (PCDData.setLabels ⟨reHeader od (strBytes ("binary")), od.fieldData⟩ labels)
      = PCDData.setLabels ⟨reHeader od (strBytes ("binary")), od.fieldData⟩ labels) :
    ∃ file2 pd2,
      updateLabels fio (writeHeaderBytes od (strBytes ("binary")) ++ writeBinary od) labels
        = some file2 ∧
      parse fio file2 = some pd2 ∧
      pd2.numPoints = od.numPoints ∧
      (od.header.findField (strBytes ("label")) = none →
        pd2.header.fields = od.header.fields ++ [⟨strBytes ("label"), 4, 85, 1⟩] ∧
        pd2.fieldData = od.fieldData ++ [⟨ColKind.u32, labels⟩]) ∧
      (∀ idx, od.header.findField (strBytes ("label")) = some idx →
        pd2.header.fields = od.header.fields ∧
        pd2.fieldData = od.fieldData.set idx ⟨ColKind.u32, labels⟩) := by
  obtain ⟨h1, h2, h3, h4, h5, h6, h7⟩ := hwf
  have hlwf : fieldColWF ⟨strBytes ("label"), 4, 85, 1⟩ ⟨ColKind.u32, labels⟩ :=
    ⟨rfl, Or.inr (Or.inr (Or.inr (Or.inr (Or.inr (Or.inl ⟨rfl, rfl, rfl⟩))))), hlabv⟩
  cases hff : od.header.findField (strBytes ("label")) with
  | none =>
    have hffA : findFieldAux (strBytes ("label")) od.header.fields 0 = none := hff
    have hd2 : PCDData.setLabels ⟨reHeader od (strBytes ("binary")), od.fieldData⟩ labels
        = ⟨{ reHeader od (strBytes ("binary")) with
              fields := od.header.fields ++ [⟨strBytes ("label"), 4, 85, 1⟩] },
           od.fieldData ++ [⟨ColKind.u32, labels⟩]⟩ := by
      rw [setLabels_none ⟨reHeader od (strBytes ("binary")), od.fieldData⟩ labels hffA]
      rfl
    have hwf2 : cloudWF
        (PCDData.setLabels ⟨reHeader od (strBytes ("binary")), od.fieldData⟩ labels) := by
      rw [hd2]
      refine ⟨h1, h2, ?_, ?_, h5, ?_, ?_⟩
      · intro f hf
        have hf2 : f ∈ od.header.fields ++ [(⟨strBytes ("label"), 4, 85, 1⟩ : FieldInfo)] := hf
        rcases List.mem_append.mp hf2 with hm | hm
        · exact h3 f hm
        · have hfe := List.mem_singleton.mp hm
          subst hfe
          exact ⟨by decide, by decide⟩
      · intro f hf
        have hf2 : f ∈ od.header.fields ++ [(⟨strBytes ("label"), 4, 85, 1⟩ : FieldInfo)] := hf
        rcases List.mem_append.mp hf2 with hm | hm
        · exact h4 f hm
        · have hfe := List.mem_singleton.mp hm
          subst hfe
          decide
      · exact forall₂_append_wf h6 (List.Forall₂.cons hlwf List.Forall₂.nil)
      · intro c hc
        have hc2 : c ∈ od.fieldData ++ [(⟨ColKind.u32, labels⟩ : Column)] := hc
        have hnp2 : PCDData.numPoints
            ⟨{ reHeader od (strBytes ("binary")) with
                fields := od.header.fields ++ [⟨strBytes ("label"), 4, 85, 1⟩] },
             od.fieldData ++ [⟨ColKind.u32, labels⟩]⟩ = od.numPoints :=
          numPoints_append_eq _ od _ hlab
        rw [hnp2]
        rcases List.mem_append.mp hc2 with hm | hm
        · exact h7 c hm
        · have hce := List.mem_singleton.mp hm
          subst hce
          exact hlab
    have hp2 := parse_write_binary fio
      (PCDData.setLabels ⟨reHeader od (strBytes ("binary")), od.fieldData⟩ labels) hwf2
    have hdt : (PCDData.setLabels ⟨reHeader od (strBytes ("binary")), od.fieldData⟩
        labels).header.dataType = strBytes ("binary") := by
      rw [hd2]
      rfl
    refine ⟨_, _, ?_, hp2, ?_, ?_, ?_⟩
    · rw [updateLabels_binary_eq fio od labels ⟨h1, h2, h3, h4, h5, h6, h7⟩, hdt]
      rw [writeFile]
      rw [if_neg (by decide), if_pos (by decide), if_pos (by decide), hpack2]
    · rw [hd2]
      exact numPoints_append_eq _ od _ hlab
    · intro _
      exact ⟨by rw [hd2] <;> rfl, by rw [hd2] <;> rfl⟩
    · intro idx hidx
      exact Option.noConfusion hidx
  | some idx =>
    have hffA : findFieldAux (strBytes ("label")) od.header.fields 0 = some idx := hff
    have hd2 : PCDData.setLabels ⟨reHeader od (strBytes ("binary")), od.fieldData⟩ labels
        = ⟨reHeader od (strBytes ("binary")),
           od.fieldData.set idx ⟨ColKind.u32, labels⟩⟩ := by
      rw [setLabels_some ⟨reHeader od (strBytes ("binary")), od.fieldData⟩ labels idx hffA]
    have hwf2 : cloudWF
        (PCDData.setLabels ⟨reHeader od (strBytes ("binary")), od.fieldData⟩ labels) := by
      rw [hd2]
      refine ⟨h1, h2, h3, h4, h5, ?_, ?_⟩
      · exact forall₂_set_col ⟨[], 0, 0, 0⟩ od.header.fields od.fieldData h6 idx
          ⟨ColKind.u32, labels⟩ (hlf idx hff)
      · intro c hc
        have hc2 : c ∈ od.fieldData.set idx (⟨ColKind.u32, labels⟩ : Column) := hc
        have hnp2 : PCDData.numPoints
            ⟨reHeader od (strBytes ("binary")),
             od.fieldData.set idx ⟨ColKind.u32, labels⟩⟩ = od.numPoints :=
          numPoints_set_eq _ od _ idx hlab
        rw [hnp2]
        rcases List.mem_or_eq_of_mem_set hc2 with hm | hm
        · exact h7 c hm
        · subst hm
          exact hlab
    have hp2 := parse_write_binary fio
      (PCDData.setLabels ⟨reHeader od (strBytes ("binary")), od.fieldData⟩ labels) hwf2
    have hdt : (PCDData.setLabels ⟨reHeader od (strBytes ("binary")), od.fieldData⟩
        labels).header.dataType = strBytes ("binary") := by
      rw [hd2]
      rfl
    refine ⟨_, _, ?_, hp2, ?_, ?_, ?_⟩
    · rw [updateLabels_binary_eq fio od labels ⟨h1, h2, h3, h4, h5, h6, h7⟩, hdt]
      rw [writeFile]
      rw [if_neg (by decide), if_pos (by decide), if_pos (by decide), hpack2]
    · rw [hd2]
      exact numPoints_set_eq _ od _ idx hlab
    · intro hidx
      exact Option.noConfusion hidx
    · intro idx2 hidx2
      injection hidx2 with he
      subst he
      exact ⟨by rw [hd2] <;> rfl, by rw [hd2] <;> rfl⟩

/-- **C6 counterexample** to the unamended claim: `c6cloud` has one point and
an existing `label` column; `updateLabels` with the two-element label list
`[5, 6]` succeeds and the rewritten file parses to a **two**-point cloud —
the original point count is not preserved. -/
theorem c6_label_resize_changes_count :
    ∃ file2 pd2,
      updateLabels fio0
          (writeHeaderBytes c6cloud (strBytes ("binary")) ++ writeBinary c6cloud) [5, 6]
        = some file2 ∧
      parse fio0 file2 = some pd2 ∧
      c6cloud.numPoints = 1 ∧ pd2.numPoints = 2 := by
  have wf1 : cloudWF c6cloud := ⟨by decide, by decide, by decide, by decide, by decide,
    List.Forall₂.cons (by unfold fieldColWF; decide) List.Forall₂.nil, by decide⟩
  have wf2 : cloudWF c6od2 := ⟨by decide, by decide, by decide, by decide, by decide,
    List.Forall₂.cons (by unfold fieldColWF; decide) List.Forall₂.nil, by decide⟩
  refine ⟨_, _, ?_, parse_write_binary fio0 c6od2 wf2, rfl, rfl⟩
  rw [updateLabels, updateLabelsWithFormat, parse_write_binary fio0 c6cloud wf1]
  rfl

/-- **C6 witness**: the frame theorem instantiated at the one-point cloud
`c6w` (no `label` field) with the single label `[9]`. -/
theorem c6_updateLabels_witness :
    ∃ file2 pd2,
      updateLabels fio0 (writeHeaderBytes c6w (strBytes ("binary")) ++ writeBinary c6w) [9]
        = some file2 ∧
      parse fio0 file2 = some pd2 ∧
      pd2.numPoints = c6w.numPoints ∧
      (c6w.header.findField (strBytes ("label")) = none →
        pd2.header.fields = c6w.header.fields ++ [⟨strBytes ("label"), 4, 85, 1⟩] ∧
        pd2.fieldData = c6w.fieldData ++ [⟨ColKind.u32, [9]⟩]) ∧
      (∀ idx, c6w.header.findField (strBytes ("label")) = some idx →
        pd2.header.fields = c6w.header.fields ∧
        pd2.fieldData = c6w.fieldData.set idx ⟨ColKind.u32, [9]⟩) :=
  c6_updateLabels_spec fio0 c6w [9]
    ⟨by decide, by decide, by decide, by decide, by decide,
      List.Forall₂.cons (by unfold fieldColWF; decide) List.Forall₂.nil, by decide⟩
    rfl
    (by decide)
    (by
      intro idx h
      rw [show c6w.header.findField (strBytes ("label")) = none from rfl] at h
      exact Option.noConfusion h)
    rfl

end PCD
